import Mathlib

/-!
# Verification of the day-10 "joltage" solver

Shallow embedding of the exact-rational Gaussian-elimination solver from
`src/day10.rs` (the `Fraction` type, the generic flat-storage `Matrix`,
`reduced_row_echelon_form`, `CartesianProductIterator`, and
`find_min_clicks_to_setup_joltage`), together with proofs and refutations of
the specification claims about it.

Machine integers (`i32`, `u32`, `u16`, `u8`, `usize`) are embedded as
unbounded `Int`/`Nat`; Rust panics (index out of bounds, `unwrap`,
`panic!`) are modelled as `Except` errors.
-/

namespace Day10

instance exceptDecEq {ε α : Type} [DecidableEq ε] [DecidableEq α] :
    DecidableEq (Except ε α) := fun x y =>
  match x, y with
  | .ok a, .ok b =>
    if h : a = b then isTrue (by rw [h])
    else isFalse (by intro hc; injection hc; exact h ‹_›)
  | .error a, .error b =>
    if h : a = b then isTrue (by rw [h])
    else isFalse (by intro hc; injection hc; exact h ‹_›)
  | .ok _, .error _ => isFalse (by intro hc; injection hc)
  | .error _, .ok _ => isFalse (by intro hc; injection hc)

/-- Embedding of `struct Fraction { numerator: i32, denominator: u32 }`. -/
structure Fraction where
  numerator : Int
  denominator : Nat
  deriving DecidableEq, Repr

namespace Fraction

/-- `Fraction::new`. -/
def new (numerator : Int) (denominator : Nat) : Fraction :=
  ⟨numerator, denominator⟩

/-- `impl Default for Fraction` (`0/1`). -/
instance : Inhabited Fraction := ⟨⟨0, 1⟩⟩

/-- `NumberExt::zero` for `Fraction`. -/
def zero : Fraction := new 0 1

/-- `NumberExt::one` for `Fraction`. -/
def one : Fraction := new 1 1

/-- `From<u16> for Fraction`. -/
def ofNat (v : Nat) : Fraction := new v 1

/-- `From<i32> for Fraction`. -/
def ofInt (v : Int) : Fraction := new v 1

/-- `Fraction::intify`: `Ok(numerator)` iff the stored denominator is `1`. -/
def intify (f : Fraction) : Except Fraction Int :=
  if f.denominator = 1 then .ok f.numerator else .error f

/-- `Fraction::simplify`: divide numerator and denominator by
`gcd(|numerator|, denominator)`. -/
def simplify (f : Fraction) : Fraction :=
  let g := Nat.gcd f.numerator.natAbs f.denominator
  new (f.numerator / (g : Int)) (f.denominator / g)

/-- `impl PartialEq for Fraction`: simplify both operands, then compare
componentwise. -/
def fracEq (a b : Fraction) : Bool :=
  decide (a.simplify = b.simplify)

/-- `impl SubAssign for Fraction` (the value of `self` after `self -= other`):
simplify the right operand, then compute over the least common multiple of the
denominators. -/
def sub (a b : Fraction) : Fraction :=
  let b' := b.simplify
  let lcm := Nat.lcm a.denominator b'.denominator
  let num := a.numerator * lcm / (a.denominator : Int)
    - b'.numerator * lcm / (b'.denominator : Int)
  ⟨num, lcm⟩

/-- `impl Mul for Fraction`: zero short-circuits to `0/1`; otherwise multiply
numerators and denominators, divide by their gcd, and simplify. -/
def mul (a b : Fraction) : Fraction :=
  if a.numerator = 0 ∨ b.numerator = 0 then new 0 1
  else
    let numerator := a.numerator * b.numerator
    let denominator := a.denominator * b.denominator
    let g := Nat.gcd numerator.natAbs denominator
    (new (numerator / (g : Int)) (denominator / g)).simplify

/-- `impl DivAssign for Fraction` (the value of `self` after `self /= other`):
multiply by the reciprocal, folding the sign of `other.numerator` into the
numerator and its absolute value into the denominator. -/
def div (a b : Fraction) : Fraction :=
  ⟨a.numerator * (b.denominator : Int) * b.numerator.sign,
    a.denominator * b.numerator.natAbs⟩

/-- Rational value of a `Fraction`. -/
def val (f : Fraction) : ℚ := (f.numerator : ℚ) / (f.denominator : ℚ)

@[simp] theorem val_mk (n : Int) (d : Nat) : val ⟨n, d⟩ = (n : ℚ) / (d : ℚ) := rfl

@[simp] theorem val_zero : zero.val = 0 := by simp [zero, new, val]

@[simp] theorem val_one : one.val = 1 := by simp [one, new, val]

@[simp] theorem val_ofNat (v : Nat) : (ofNat v).val = (v : ℚ) := by
  simp [ofNat, new, val]

@[simp] theorem val_ofInt (v : Int) : (ofInt v).val = (v : ℚ) := by
  simp [ofInt, new, val]

@[simp] theorem val_default : (default : Fraction).val = 0 := by
  simp [default, val]

theorem gcd_ne_zero {f : Fraction} (hd : f.denominator ≠ 0) :
    Nat.gcd f.numerator.natAbs f.denominator ≠ 0 := by
  intro h
  exact hd (Nat.eq_zero_of_gcd_eq_zero_right h)

theorem gcd_dvd_num (f : Fraction) :
    ((Nat.gcd f.numerator.natAbs f.denominator : Nat) : Int) ∣ f.numerator := by
  have h := Nat.gcd_dvd_left f.numerator.natAbs f.denominator
  have := Int.ofNat_dvd.mpr h
  rwa [Int.dvd_natAbs] at this

theorem gcd_dvd_den (f : Fraction) :
    Nat.gcd f.numerator.natAbs f.denominator ∣ f.denominator :=
  Nat.gcd_dvd_right _ _

/-- `simplify` computes the canonical (coprime, positive-denominator) form:
its components are exactly the numerator and denominator of the rational
value. -/
theorem simplify_eq_canonical {f : Fraction} (hd : f.denominator ≠ 0) :
    f.simplify.numerator = f.val.num ∧ f.simplify.denominator = f.val.den := by
  set g := Nat.gcd f.numerator.natAbs f.denominator with hg
  have hg0 : g ≠ 0 := gcd_ne_zero hd
  obtain ⟨n', hn'⟩ : ((g : Nat) : Int) ∣ f.numerator := gcd_dvd_num f
  obtain ⟨d', hd'⟩ : g ∣ f.denominator := gcd_dvd_den f
  have hgz : ((g : Nat) : Int) ≠ 0 := by exact_mod_cast hg0
  have hnum : f.simplify.numerator = n' := by
    show f.numerator / ((Nat.gcd f.numerator.natAbs f.denominator : Nat) : Int) = n'
    rw [← hg, hn', Int.mul_ediv_cancel_left _ hgz]
  have hden : f.simplify.denominator = d' := by
    show f.denominator / Nat.gcd f.numerator.natAbs f.denominator = d'
    rw [← hg, hd', Nat.mul_div_cancel_left _ (Nat.pos_of_ne_zero hg0)]
  have hd'0 : d' ≠ 0 := by
    intro h; exact hd (by simp [hd', h])
  have hcop : Nat.Coprime n'.natAbs d' := by
    have h1 : f.numerator.natAbs = g * n'.natAbs := by
      rw [hn', Int.natAbs_mul, Int.natAbs_ofNat]
    have := Nat.coprime_div_gcd_div_gcd
      (m := f.numerator.natAbs) (n := f.denominator) (Nat.pos_of_ne_zero hg0)
    rw [← hg] at this
    have e1 : f.numerator.natAbs / g = n'.natAbs := by
      rw [h1, Nat.mul_div_cancel_left _ (Nat.pos_of_ne_zero hg0)]
    have e2 : f.denominator / g = d' := by
      rw [hd', Nat.mul_div_cancel_left _ (Nat.pos_of_ne_zero hg0)]
    rwa [e1, e2] at this
  have hval : f.val = (n' : ℚ) / (d' : ℚ) := by
    rw [val, hn', hd']
    push_cast
    rw [mul_div_mul_left _ _ (by exact_mod_cast hg0 : ((g : Nat) : ℚ) ≠ 0)]
  have hb0 : (0 : ℤ) < (d' : ℤ) := by exact_mod_cast Nat.pos_of_ne_zero hd'0
  have hcop' : Nat.Coprime n'.natAbs (d' : Int).natAbs := by
    rwa [Int.natAbs_ofNat]
  constructor
  · rw [hnum, hval]
    symm
    have h := Rat.num_div_eq_of_coprime hb0 hcop'
    simpa using h
  · rw [hden, hval]
    symm
    have h := Rat.den_div_eq_of_coprime hb0 hcop'
    simpa using h

theorem ext_components : ∀ {a b : Fraction},
    a.numerator = b.numerator → a.denominator = b.denominator → a = b
  | ⟨_, _⟩, ⟨_, _⟩, rfl, rfl => rfl

/-- `simplify` preserves the rational value. -/
theorem val_simplify {f : Fraction} (hd : f.denominator ≠ 0) :
    f.simplify.val = f.val := by
  obtain ⟨hn, hdn⟩ := simplify_eq_canonical hd
  have : f.simplify.val = (f.val.num : ℚ) / (f.val.den : ℚ) := by
    rw [val, hn, hdn]
  rw [this, Rat.num_div_den]

/-- The denominator of a simplified fraction is positive. -/
theorem simplify_den_pos {f : Fraction} (hd : f.denominator ≠ 0) :
    0 < f.simplify.denominator := by
  rw [(simplify_eq_canonical hd).2]
  exact f.val.pos

theorem simplify_den_ne_zero {f : Fraction} (hd : f.denominator ≠ 0) :
    f.simplify.denominator ≠ 0 :=
  (simplify_den_pos hd).ne'

/-- `simplify` is determined by the rational value. -/
theorem simplify_eq_of_val_eq {a b : Fraction} (ha : a.denominator ≠ 0)
    (hb : b.denominator ≠ 0) (h : a.val = b.val) : a.simplify = b.simplify := by
  obtain ⟨han, had⟩ := simplify_eq_canonical ha
  obtain ⟨hbn, hbd⟩ := simplify_eq_canonical hb
  exact ext_components (by rw [han, hbn, h]) (by rw [had, hbd, h])

/-- The code's `PartialEq` on fractions is value equality (for legal
denominators). -/
theorem fracEq_iff_val {a b : Fraction} (ha : a.denominator ≠ 0)
    (hb : b.denominator ≠ 0) : a.fracEq b = true ↔ a.val = b.val := by
  unfold fracEq
  rw [decide_eq_true_iff]
  constructor
  · intro h
    rw [← val_simplify ha, ← val_simplify hb, h]
  · exact simplify_eq_of_val_eq ha hb

theorem fracEq_zero_iff {a : Fraction} (ha : a.denominator ≠ 0) :
    a.fracEq zero = true ↔ a.val = 0 := by
  rw [fracEq_iff_val ha (by simp [zero, new]), val_zero]

theorem val_eq_zero_iff {a : Fraction} (ha : a.denominator ≠ 0) :
    a.val = 0 ↔ a.numerator = 0 := by
  rw [val, div_eq_zero_iff]
  constructor
  · rintro (h | h)
    · exact_mod_cast h
    · exact absurd (by exact_mod_cast h) ha
  · intro h; left; exact_mod_cast h

/-- The numerator sign of a simplified fraction matches the sign of the value. -/
theorem simplify_num_neg_iff {f : Fraction} (hd : f.denominator ≠ 0) :
    f.simplify.numerator < 0 ↔ f.val < 0 := by
  rw [(simplify_eq_canonical hd).1, Rat.num_neg]

theorem simplify_num_nonneg_iff {f : Fraction} (hd : f.denominator ≠ 0) :
    0 ≤ f.simplify.numerator ↔ 0 ≤ f.val := by
  rw [(simplify_eq_canonical hd).1, Rat.num_nonneg]

/-- `simplify` is idempotent. -/
theorem simplify_simplify {f : Fraction} (hd : f.denominator ≠ 0) :
    f.simplify.simplify = f.simplify := by
  have hd' : f.simplify.denominator ≠ 0 := (simplify_den_pos hd).ne'
  obtain ⟨hn1, hd1⟩ := simplify_eq_canonical hd
  obtain ⟨hn2, hd2⟩ := simplify_eq_canonical hd'
  have hv : f.simplify.val = f.val := val_simplify hd
  exact ext_components (by rw [hn2, hv, hn1]) (by rw [hd2, hv, hd1])

/-- `intify` characterization: succeeds iff the *stored* denominator is 1. -/
theorem intify_ok_iff {f : Fraction} {n : Int} :
    f.intify = .ok n ↔ f.denominator = 1 ∧ n = f.numerator := by
  unfold intify
  split
  · next h => simp [h, eq_comm]
  · next h => simp [h]

theorem intify_error_iff {f : Fraction} :
    f.intify = .error f ↔ f.denominator ≠ 1 := by
  unfold intify
  split <;> simp_all

/-- `simplify().intify()` succeeds exactly on integral values. -/
theorem simplify_intify_ok_iff {f : Fraction} (hd : f.denominator ≠ 0) :
    (∃ n, f.simplify.intify = .ok n) ↔ f.val.den = 1 := by
  obtain ⟨hn, hdn⟩ := simplify_eq_canonical hd
  constructor
  · rintro ⟨n, h⟩
    rw [intify_ok_iff] at h
    rw [← hdn]; exact h.1
  · intro h
    exact ⟨f.simplify.numerator, intify_ok_iff.mpr ⟨by rw [hdn, h], rfl⟩⟩

theorem simplify_intify_ok_val {f : Fraction} (hd : f.denominator ≠ 0) {n : Int}
    (h : f.simplify.intify = .ok n) : (n : ℚ) = f.val := by
  rw [intify_ok_iff] at h
  obtain ⟨hn, hdn⟩ := simplify_eq_canonical hd
  have hval : f.val.den = 1 := by rw [← hdn]; exact h.1
  have : f.val = (f.val.num : ℚ) := by
    conv_lhs => rw [← Rat.num_div_den f.val]
    rw [hval]; simp
  rw [h.2, hn]
  exact this.symm

theorem val_sub {a b : Fraction} (ha : a.denominator ≠ 0)
    (hb : b.denominator ≠ 0) :
    (a.sub b).val = a.val - b.val ∧ (a.sub b).denominator ≠ 0 := by
  have hb' : b.simplify.denominator ≠ 0 := (simplify_den_pos hb).ne'
  set b' := b.simplify with hb'def
  set l := Nat.lcm a.denominator b'.denominator with hl
  have hl0 : l ≠ 0 := Nat.lcm_ne_zero ha hb'
  obtain ⟨ka, hka⟩ : a.denominator ∣ l := Nat.dvd_lcm_left _ _
  obtain ⟨kb, hkb⟩ : b'.denominator ∣ l := Nat.dvd_lcm_right _ _
  have hka0 : ka ≠ 0 := by rintro rfl; exact hl0 (by simp [hka])
  have hkb0 : kb ≠ 0 := by rintro rfl; exact hl0 (by simp [hkb])
  have e1 : a.numerator * (l : Int) / (a.denominator : Int)
      = a.numerator * (ka : Int) := by
    rw [hka]
    push_cast
    rw [show a.numerator * ((a.denominator : Int) * (ka : Int))
        = (a.denominator : Int) * (a.numerator * ka) by ring]
    exact Int.mul_ediv_cancel_left _ (by exact_mod_cast ha)
  have e2 : b'.numerator * (l : Int) / (b'.denominator : Int)
      = b'.numerator * (kb : Int) := by
    rw [hkb]
    push_cast
    rw [show b'.numerator * ((b'.denominator : Int) * (kb : Int))
        = (b'.denominator : Int) * (b'.numerator * kb) by ring]
    exact Int.mul_ediv_cancel_left _ (by exact_mod_cast hb')
  constructor
  · show ((a.numerator * (l : Int) / (a.denominator : Int)
      - b'.numerator * (l : Int) / (b'.denominator : Int) : Int) : ℚ)
        / ((l : Nat) : ℚ) = a.val - b.val
    rw [e1, e2]
    have hval : b'.val = b.val := val_simplify hb
    rw [← hval]
    show ((a.numerator * (ka : Int) - b'.numerator * (kb : Int) : Int) : ℚ)
        / ((l : Nat) : ℚ) = a.val - b'.val
    have hlq : ((l : Nat) : ℚ) ≠ 0 := by exact_mod_cast hl0
    have haq : ((a.denominator : Nat) : ℚ) ≠ 0 := by exact_mod_cast ha
    have hbq : ((b'.denominator : Nat) : ℚ) ≠ 0 := by exact_mod_cast hb'
    have hkaq : ((ka : Nat) : ℚ) ≠ 0 := by exact_mod_cast hka0
    have hkbq : ((kb : Nat) : ℚ) ≠ 0 := by exact_mod_cast hkb0
    push_cast
    rw [sub_div]
    congr 1
    · rw [show ((l : Nat) : ℚ) = (a.denominator : ℚ) * (ka : ℚ) by
        rw [hka]; push_cast; ring]
      rw [val, mul_div_mul_right _ _ hkaq]
    · rw [show ((l : Nat) : ℚ) = (b'.denominator : ℚ) * (kb : ℚ) by
        rw [hkb]; push_cast; ring]
      rw [val, mul_div_mul_right _ _ hkbq]
  · exact hl0

theorem val_mul {a b : Fraction} (ha : a.denominator ≠ 0)
    (hb : b.denominator ≠ 0) :
    (a.mul b).val = a.val * b.val ∧ (a.mul b).denominator ≠ 0 := by
  unfold mul
  split
  · next h =>
    rcases h with h | h
    · have : a.val = 0 := (val_eq_zero_iff ha).mpr h
      simp [new, this]
    · have : b.val = 0 := (val_eq_zero_iff hb).mpr h
      simp [new, this]
  · next h =>
    push_neg at h
    set nm := a.numerator * b.numerator with hnm
    set dm := a.denominator * b.denominator with hdm
    have hdm0 : dm ≠ 0 := Nat.mul_ne_zero ha hb
    set g := Nat.gcd nm.natAbs dm with hg
    have hg0 : g ≠ 0 := by
      intro hgz
      exact hdm0 (Nat.eq_zero_of_gcd_eq_zero_right hgz)
    obtain ⟨n', hn'⟩ : ((g : Nat) : Int) ∣ nm := by
      have hh := Nat.gcd_dvd_left nm.natAbs dm
      have := Int.ofNat_dvd.mpr hh
      rwa [Int.dvd_natAbs] at this
    obtain ⟨d', hd'⟩ : g ∣ dm := Nat.gcd_dvd_right _ _
    have hd'0 : d' ≠ 0 := by rintro rfl; exact hdm0 (by simp [hd'])
    have hinner : (new (nm / (g : Int)) (dm / g)).val = a.val * b.val := by
      have egn : nm / (g : Int) = n' := by
        rw [hn', Int.mul_ediv_cancel_left _ (by exact_mod_cast hg0)]
      have egd : dm / g = d' := by
        rw [hd', Nat.mul_div_cancel_left _ (Nat.pos_of_ne_zero hg0)]
      rw [new, egn, egd]
      have hvq : ((nm : Int) : ℚ) / ((dm : Nat) : ℚ) = a.val * b.val := by
        rw [hnm, hdm, val, val]
        push_cast
        rw [div_mul_div_comm]
      rw [← hvq, val_mk]
      rw [hn', hd']
      push_cast
      rw [mul_div_mul_left _ _ (by exact_mod_cast hg0 : ((g : Nat) : ℚ) ≠ 0)]
    have hid : (new (nm / (g : Int)) (dm / g)).denominator ≠ 0 := by
      show dm / g ≠ 0
      have : dm / g = d' := by
        rw [hd', Nat.mul_div_cancel_left _ (Nat.pos_of_ne_zero hg0)]
      rw [this]; exact hd'0
    constructor
    · rw [val_simplify hid, hinner]
    · exact (simplify_den_pos hid).ne'

theorem val_div {a b : Fraction} (ha : a.denominator ≠ 0)
    (hb : b.denominator ≠ 0) (hn : b.numerator ≠ 0) :
    (a.div b).val = a.val / b.val ∧ (a.div b).denominator ≠ 0 := by
  have hden : a.denominator * b.numerator.natAbs ≠ 0 :=
    Nat.mul_ne_zero ha (Int.natAbs_ne_zero.mpr hn)
  refine ⟨?_, hden⟩
  show ((a.numerator * (b.denominator : Int) * b.numerator.sign : Int) : ℚ)
      / ((a.denominator * b.numerator.natAbs : Nat) : ℚ) = a.val / b.val
  have hbq : ((b.numerator : Int) : ℚ) ≠ 0 := by exact_mod_cast hn
  have haq : ((a.denominator : Nat) : ℚ) ≠ 0 := by exact_mod_cast ha
  have hdq : ((b.denominator : Nat) : ℚ) ≠ 0 := by exact_mod_cast hb
  rcases lt_or_gt_of_ne hn with hlt | hgt
  · have hs : b.numerator.sign = -1 := Int.sign_eq_neg_one_of_neg hlt
    have habs : ((a.denominator * b.numerator.natAbs : Nat) : ℚ)
        = (a.denominator : ℚ) * (-((b.numerator : Int) : ℚ)) := by
      push_cast [Int.cast_natAbs]
      rw [abs_of_neg (by exact_mod_cast hlt : ((b.numerator : Int) : ℚ) < 0)]
    rw [hs, habs, val, val]
    push_cast
    field_simp
  · have hs : b.numerator.sign = 1 := Int.sign_eq_one_of_pos hgt
    have habs : ((a.denominator * b.numerator.natAbs : Nat) : ℚ)
        = (a.denominator : ℚ) * ((b.numerator : Int) : ℚ) := by
      push_cast [Int.cast_natAbs]
      rw [abs_of_pos (by exact_mod_cast hgt : (0 : ℚ) < ((b.numerator : Int) : ℚ))]
    rw [hs, habs, val, val]
    push_cast
    field_simp

end Fraction

/-- C9: `simplify` is idempotent: for every `Fraction` with non-zero
denominator, `simplify (simplify f) = simplify f` componentwise, and
`simplify f` has the same rational value as `f` with positive denominator. -/
theorem claim_C9_simplify_idempotent (f : Fraction) (hd : f.denominator ≠ 0) :
    f.simplify.simplify = f.simplify ∧ f.simplify.val = f.val ∧
      0 < f.simplify.denominator :=
  ⟨Fraction.simplify_simplify hd, Fraction.val_simplify hd,
    Fraction.simplify_den_pos hd⟩

/-- Witness for C9 at the concrete fraction `6/4`. -/
theorem claim_C9_witness :
    (Fraction.new 6 4).denominator ≠ 0 ∧
      ((Fraction.new 6 4).simplify.simplify = (Fraction.new 6 4).simplify ∧
        (Fraction.new 6 4).simplify.val = (Fraction.new 6 4).val ∧
        0 < (Fraction.new 6 4).simplify.denominator) :=
  ⟨by decide, claim_C9_simplify_idempotent (Fraction.new 6 4) (by decide)⟩

/-- C5 counterexample: the fraction `2/2` has simplified denominator `1` and
stored denominator greater than `1`, yet `intify` fails on it (it checks the
*stored* denominator, not the simplified one), contradicting the claim that
`intify` succeeds on every fraction whose simplified denominator is 1. -/
theorem claim_C5_counterexample :
    (Fraction.new 2 2).simplify.denominator = 1 ∧
      1 < (Fraction.new 2 2).denominator ∧
      (Fraction.new 2 2).intify = .error (Fraction.new 2 2) := by
  refine ⟨by decide, by decide, ?_⟩
  rfl

/-- C5 (amended): `intify` succeeds, returning the numerator, exactly when the
*stored* denominator equals 1, and otherwise signals "not an integer" by
returning the fraction itself; `simplify()` followed by `intify()` (the
pattern used at all call sites) succeeds exactly when the value is an
integer, i.e. when the simplified denominator is 1. -/
theorem claim_C5_intify (f : Fraction) (hd : f.denominator ≠ 0) :
    (f.intify = .ok f.numerator ↔ f.denominator = 1) ∧
    (f.intify = .error f ↔ f.denominator ≠ 1) ∧
    ((∃ n, f.simplify.intify = .ok n) ↔ f.val.den = 1) := by
  refine ⟨?_, Fraction.intify_error_iff, Fraction.simplify_intify_ok_iff hd⟩
  rw [Fraction.intify_ok_iff]
  simp

/-- Witness for C5 (amended) at the concrete fraction `5/1`. -/
theorem claim_C5_witness :
    (Fraction.new 5 1).denominator ≠ 0 ∧
      (((Fraction.new 5 1).intify = .ok (Fraction.new 5 1).numerator ↔
          (Fraction.new 5 1).denominator = 1) ∧
        ((Fraction.new 5 1).intify = .error (Fraction.new 5 1) ↔
          (Fraction.new 5 1).denominator ≠ 1) ∧
        ((∃ n, (Fraction.new 5 1).simplify.intify = .ok n) ↔
          (Fraction.new 5 1).val.den = 1)) :=
  ⟨by decide, claim_C5_intify (Fraction.new 5 1) (by decide)⟩

/-- C8: in-place division `a /= b` (for non-zero stored denominators and
non-zero `b.numerator`) multiplies `a` by the reciprocal of `b`: the value
afterwards is the exact quotient, the sign of `b`'s numerator is folded into
`a`'s numerator, and the denominator stays positive. -/
theorem claim_C8_div_assign (a b : Fraction) (ha : a.denominator ≠ 0)
    (hb : b.denominator ≠ 0) (hn : b.numerator ≠ 0) :
    (a.div b).val = a.val / b.val ∧
    (a.div b).numerator = a.numerator * (b.denominator : Int) * b.numerator.sign ∧
    0 < (a.div b).denominator := by
  refine ⟨(Fraction.val_div ha hb hn).1, rfl, ?_⟩
  exact Nat.pos_of_ne_zero (Fraction.val_div ha hb hn).2

/-- Witness for C8 at `a = 1/2`, `b = -3/4`. -/
theorem claim_C8_witness :
    ((Fraction.new 1 2).denominator ≠ 0 ∧ (Fraction.new (-3) 4).denominator ≠ 0 ∧
      (Fraction.new (-3) 4).numerator ≠ 0) ∧
      (((Fraction.new 1 2).div (Fraction.new (-3) 4)).val =
          (Fraction.new 1 2).val / (Fraction.new (-3) 4).val ∧
        ((Fraction.new 1 2).div (Fraction.new (-3) 4)).numerator =
          (Fraction.new 1 2).numerator * ((Fraction.new (-3) 4).denominator : Int) *
            (Fraction.new (-3) 4).numerator.sign ∧
        0 < ((Fraction.new 1 2).div (Fraction.new (-3) 4)).denominator) :=
  ⟨⟨by decide, by decide, by decide⟩,
    claim_C8_div_assign (Fraction.new 1 2) (Fraction.new (-3) 4)
      (by decide) (by decide) (by decide)⟩

/-- Embedding of `struct Matrix<T> { rows: u8, cols: u8, data: Vec<T> }`
(row-major flat backing store). -/
structure Matrix (α : Type) where
  rows : Nat
  cols : Nat
  data : List α

namespace Matrix

variable {α : Type}

/-- `Matrix::get`, panic-sensitive form: `data[row * cols + col]`, `none`
modelling the Rust index panic when the flat index is out of range. -/
def get? (m : Matrix α) (row col : Nat) : Option α :=
  m.data[row * m.cols + col]?

/-- `Matrix::get` as a total function (callers inside the solver always access
flat indices in range, where it agrees with the Rust accessor). -/
def get [Inhabited α] (m : Matrix α) (row col : Nat) : α :=
  (m.data[row * m.cols + col]?).getD default

/-- `Matrix::set`: `data[row * cols + col] = value` (total form; `List.set` is
the identity exactly where Rust would panic, and all solver-internal writes
are in range). -/
def set (m : Matrix α) (row col : Nat) (value : α) : Matrix α :=
  { m with data := m.data.set (row * m.cols + col) value }

/-- `Matrix::set`, panic-sensitive form used for the bounds-checking claim. -/
def set? (m : Matrix α) (row col : Nat) (value : α) : Option (Matrix α) :=
  if row * m.cols + col < m.data.length then some (m.set row col value) else none

/-- `Matrix::new`: `rows × cols` default-filled store. -/
def new [Inhabited α] (rows cols : Nat) : Matrix α :=
  ⟨rows, cols, List.replicate (rows * cols) default⟩

/-- `Matrix::swap_row`: exchange the two row slices (no-op when equal). -/
def swapRow (m : Matrix α) (rowA rowB : Nat) : Matrix α :=
  if rowA = rowB then m
  else
    let row1 := min rowA rowB
    let row2 := max rowA rowB
    let c := m.cols
    { m with data :=
        m.data.take (row1 * c)
        ++ (m.data.drop (row2 * c)).take c
        ++ (m.data.drop (row1 * c + c)).take (row2 * c - (row1 * c + c))
        ++ (m.data.drop (row1 * c)).take c
        ++ m.data.drop (row2 * c + c) }

/-- `Matrix::divide_row`: divide every element of the row slice
`[row*cols, (row+1)*cols)` by `divisor`. -/
def divideRow (m : Matrix Fraction) (row : Nat) (divisor : Fraction) :
    Matrix Fraction :=
  let s := row * m.cols
  { m with data :=
      m.data.take s
      ++ ((m.data.drop s).take m.cols).map (fun x => x.div divisor)
      ++ m.data.drop (s + m.cols) }

/-- `Matrix::subtract_from_row`: `row1[i] -= row2[i] * by` for `i < cols`,
reading `row2` from the pre-call store (faithful even when `row1 = row2`,
since Rust reads `v2` before writing the same index). -/
def subtractFromRow (m : Matrix Fraction) (row1 row2 : Nat) (factor : Fraction) :
    Matrix Fraction :=
  let s1 := row1 * m.cols
  let s2 := row2 * m.cols
  let r2 := (m.data.drop s2).take m.cols
  let seg := List.zipWith (fun x v2 => x.sub (v2.mul factor))
    ((m.data.drop s1).take m.cols) r2
  { m with data := m.data.take s1 ++ seg ++ m.data.drop (s1 + m.cols) }

@[simp] theorem rows_set (m : Matrix α) (r c : Nat) (v : α) :
    (m.set r c v).rows = m.rows := rfl

@[simp] theorem cols_set (m : Matrix α) (r c : Nat) (v : α) :
    (m.set r c v).cols = m.cols := rfl

@[simp] theorem length_set (m : Matrix α) (r c : Nat) (v : α) :
    (m.set r c v).data.length = m.data.length := by
  simp [set]

@[simp] theorem rows_swapRow (m : Matrix α) (a b : Nat) :
    (m.swapRow a b).rows = m.rows := by
  unfold swapRow; split <;> rfl

@[simp] theorem cols_swapRow (m : Matrix α) (a b : Nat) :
    (m.swapRow a b).cols = m.cols := by
  unfold swapRow; split <;> rfl

@[simp] theorem rows_divideRow (m : Matrix Fraction) (row : Nat) (d : Fraction) :
    (m.divideRow row d).rows = m.rows := rfl

@[simp] theorem cols_divideRow (m : Matrix Fraction) (row : Nat) (d : Fraction) :
    (m.divideRow row d).cols = m.cols := rfl

@[simp] theorem rows_subtractFromRow (m : Matrix Fraction) (r1 r2 : Nat)
    (k : Fraction) : (m.subtractFromRow r1 r2 k).rows = m.rows := rfl

@[simp] theorem cols_subtractFromRow (m : Matrix Fraction) (r1 r2 : Nat)
    (k : Fraction) : (m.subtractFromRow r1 r2 k).cols = m.cols := rfl

/-- Index lookup in a three-segment splice `take s ++ seg ++ drop e`. -/
theorem getElem?_splice (l : List α) (s e : Nat) (seg : List α)
    (hse : s ≤ e) (he : e ≤ l.length) (hseg : seg.length = e - s) (i : Nat) :
    (l.take s ++ seg ++ l.drop e)[i]? =
      if i < s then l[i]? else if i < e then seg[i - s]? else l[i]? := by
  have hts : (l.take s).length = s := by
    rw [List.length_take]; omega
  rw [List.append_assoc]
  by_cases h1 : i < s
  · rw [List.getElem?_append_left (by rw [hts]; exact h1)]
    simp [h1, List.getElem?_take_of_lt h1]
  · rw [List.getElem?_append_right (by rw [hts]; omega)]
    rw [hts]
    by_cases h2 : i < e
    · rw [List.getElem?_append_left (by rw [hseg]; omega)]
      simp [h1, h2]
    · rw [List.getElem?_append_right (by rw [hseg]; omega), hseg,
        List.getElem?_drop]
      have : e + (i - s - (e - s)) = i := by omega
      rw [this]
      simp [h1, h2]

theorem length_divideRow (m : Matrix Fraction) (row : Nat) (d : Fraction)
    (hlen : m.data.length = m.rows * m.cols) (hrow : row < m.rows) :
    (m.divideRow row d).data.length = m.data.length := by
  have hb : (row + 1) * m.cols ≤ m.rows * m.cols :=
    Nat.mul_le_mul_right _ hrow
  simp only [divideRow, List.length_append, List.length_take, List.length_drop,
    List.length_map]
  rw [hlen] at *
  omega

theorem length_subtractFromRow (m : Matrix Fraction) (r1 r2 : Nat)
    (k : Fraction) (hlen : m.data.length = m.rows * m.cols)
    (h1 : r1 < m.rows) (h2 : r2 < m.rows) :
    (m.subtractFromRow r1 r2 k).data.length = m.data.length := by
  have hb1 : (r1 + 1) * m.cols ≤ m.rows * m.cols := Nat.mul_le_mul_right _ h1
  have hb2 : (r2 + 1) * m.cols ≤ m.rows * m.cols := Nat.mul_le_mul_right _ h2
  simp only [subtractFromRow, List.length_append, List.length_take,
    List.length_drop, List.length_zipWith]
  rw [hlen] at *
  simp only [Nat.add_mul, Nat.one_mul] at hb1 hb2
  omega

theorem length_swapRow (m : Matrix α) (a b : Nat)
    (hlen : m.data.length = m.rows * m.cols) (ha : a < m.rows) (hb : b < m.rows) :
    (m.swapRow a b).data.length = m.data.length := by
  unfold swapRow
  split
  · rfl
  · next hne =>
    have hminmax : min a b + 1 ≤ max a b := by omega
    have h1 : (min a b + 1) * m.cols ≤ max a b * m.cols :=
      Nat.mul_le_mul_right _ hminmax
    have h2 : (max a b + 1) * m.cols ≤ m.rows * m.cols :=
      Nat.mul_le_mul_right _ (by omega)
    simp only [List.length_append, List.length_take, List.length_drop]
    generalize hp : min a b * m.cols = p at *
    generalize hq : max a b * m.cols = q at *
    have hpq : p + m.cols ≤ q := by
      rw [← hp]
      calc min a b * m.cols + m.cols = (min a b + 1) * m.cols := by ring
        _ ≤ q := h1
    have hqL : q + m.cols ≤ m.data.length := by
      rw [hlen, ← hq]
      calc max a b * m.cols + m.cols = (max a b + 1) * m.cols := by ring
        _ ≤ m.rows * m.cols := h2
    omega

theorem idx_lt_of_row_lt {r r' c cols : Nat} (h : r < r') (hc : c < cols) :
    r * cols + c < r' * cols :=
  calc r * cols + c < r * cols + cols := by omega
    _ = (r + 1) * cols := by ring
    _ ≤ r' * cols := Nat.mul_le_mul_right _ h

theorem idx_inj {r r' c c' cols : Nat} (hc : c < cols) (hc' : c' < cols)
    (h : r * cols + c = r' * cols + c') : r = r' ∧ c = c' := by
  rcases lt_trichotomy r r' with hlt | heq | hgt
  · exact absurd h (Nat.ne_of_lt (by
      calc r * cols + c < r' * cols := idx_lt_of_row_lt hlt hc
        _ ≤ r' * cols + c' := Nat.le_add_right _ _))
  · refine ⟨heq, ?_⟩
    subst heq
    omega
  · exact absurd h (Nat.ne_of_gt (by
      calc r' * cols + c' < r * cols := idx_lt_of_row_lt hgt hc'
        _ ≤ r * cols + c := Nat.le_add_right _ _))

theorem getElem?_get [Inhabited α] (m : Matrix α)
    (hlen : m.data.length = m.rows * m.cols) {r c : Nat}
    (hr : r < m.rows) (hc : c < m.cols) :
    m.data[r * m.cols + c]? = some (m.get r c) := by
  have hidx : r * m.cols + c < m.data.length := by
    rw [hlen]; exact idx_lt_of_row_lt hr hc
  rw [get, List.getElem?_eq_getElem hidx]
  rfl

theorem get_set [Inhabited α] (m : Matrix α)
    (hlen : m.data.length = m.rows * m.cols) {r c r' c' : Nat} (v : α)
    (hr : r < m.rows) (hc : c < m.cols) (hr' : r' < m.rows) (hc' : c' < m.cols) :
    (m.set r c v).get r' c' =
      if r' = r ∧ c' = c then v else m.get r' c' := by
  have hidx : r * m.cols + c < m.data.length := by
    rw [hlen]; exact idx_lt_of_row_lt hr hc
  unfold get set
  simp only
  by_cases h : r' = r ∧ c' = c
  · obtain ⟨rfl, rfl⟩ := h
    rw [List.getElem?_set_eq hidx]
    simp
  · have hne : r * m.cols + c ≠ r' * m.cols + c' := by
      intro he
      exact h (by
        obtain ⟨h1, h2⟩ := idx_inj hc hc' he
        exact ⟨h1.symm, h2.symm⟩)
    rw [List.getElem?_set_ne hne]
    simp [h]

theorem get_divideRow (m : Matrix Fraction) (row : Nat) (d : Fraction)
    (hlen : m.data.length = m.rows * m.cols) (hrow : row < m.rows)
    {r c : Nat} (hr : r < m.rows) (hc : c < m.cols) :
    (m.divideRow row d).get r c =
      if r = row then (m.get r c).div d else m.get r c := by
  have hcols : (m.divideRow row d).cols = m.cols := rfl
  have he : row * m.cols + m.cols ≤ m.data.length := by
    rw [hlen]
    calc row * m.cols + m.cols = (row + 1) * m.cols := by ring
      _ ≤ m.rows * m.cols := Nat.mul_le_mul_right _ hrow
  have hseg : (((m.data.drop (row * m.cols)).take m.cols).map
      (fun x => x.div d)).length = (row * m.cols + m.cols) - row * m.cols := by
    simp only [List.length_map, List.length_take, List.length_drop]
    omega
  unfold get divideRow
  simp only
  rw [getElem?_splice m.data (row * m.cols) (row * m.cols + m.cols) _
    (Nat.le_add_right _ _) he hseg]
  rcases lt_trichotomy r row with hlt | heq | hgt
  · have h1 : r * m.cols + c < row * m.cols := idx_lt_of_row_lt hlt hc
    rw [if_pos h1, if_neg (Nat.ne_of_lt hlt)]
  · subst heq
    have h1 : ¬ (r * m.cols + c < r * m.cols) := by omega
    have h2 : r * m.cols + c < r * m.cols + m.cols := by omega
    rw [if_neg h1, if_pos h2, if_pos rfl]
    have hsub : r * m.cols + c - r * m.cols = c := by omega
    rw [hsub, List.getElem?_map, List.getElem?_take_of_lt hc,
      List.getElem?_drop, getElem?_get m hlen hr hc]
    rfl
  · have h1 : ¬ (r * m.cols + c < row * m.cols) := by
      have := idx_lt_of_row_lt hrow (show (0:Nat) < m.cols by omega)
      have : row * m.cols ≤ r * m.cols := Nat.mul_le_mul_right _ (by omega)
      omega
    have h2 : ¬ (r * m.cols + c < row * m.cols + m.cols) := by
      have : row * m.cols + m.cols = (row + 1) * m.cols := by ring
      rw [this]
      have : (row + 1) * m.cols ≤ r * m.cols := Nat.mul_le_mul_right _ (by omega)
      omega
    rw [if_neg h1, if_neg h2, if_neg (Nat.ne_of_gt hgt)]

theorem get_subtractFromRow (m : Matrix Fraction) (row1 row2 : Nat)
    (k : Fraction) (hlen : m.data.length = m.rows * m.cols)
    (h1 : row1 < m.rows) (h2 : row2 < m.rows)
    {r c : Nat} (hr : r < m.rows) (hc : c < m.cols) :
    (m.subtractFromRow row1 row2 k).get r c =
      if r = row1 then (m.get r c).sub ((m.get row2 c).mul k)
      else m.get r c := by
  have he : row1 * m.cols + m.cols ≤ m.data.length := by
    rw [hlen]
    calc row1 * m.cols + m.cols = (row1 + 1) * m.cols := by ring
      _ ≤ m.rows * m.cols := Nat.mul_le_mul_right _ h1
  have he2 : row2 * m.cols + m.cols ≤ m.data.length := by
    rw [hlen]
    calc row2 * m.cols + m.cols = (row2 + 1) * m.cols := by ring
      _ ≤ m.rows * m.cols := Nat.mul_le_mul_right _ h2
  have hs1len : ((m.data.drop (row1 * m.cols)).take m.cols).length = m.cols := by
    simp only [List.length_take, List.length_drop]
    omega
  have hs2len : ((m.data.drop (row2 * m.cols)).take m.cols).length = m.cols := by
    simp only [List.length_take, List.length_drop]
    omega
  have hseg : (List.zipWith (fun x v2 => x.sub (v2.mul k))
      ((m.data.drop (row1 * m.cols)).take m.cols)
      ((m.data.drop (row2 * m.cols)).take m.cols)).length
      = (row1 * m.cols + m.cols) - row1 * m.cols := by
    rw [List.length_zipWith, hs1len, hs2len]
    omega
  unfold get subtractFromRow
  simp only
  rw [getElem?_splice m.data (row1 * m.cols) (row1 * m.cols + m.cols) _
    (Nat.le_add_right _ _) he hseg]
  rcases lt_trichotomy r row1 with hlt | heq | hgt
  · have hb : r * m.cols + c < row1 * m.cols := idx_lt_of_row_lt hlt hc
    rw [if_pos hb, if_neg (Nat.ne_of_lt hlt)]
  · subst heq
    have hb1 : ¬ (r * m.cols + c < r * m.cols) := by omega
    have hb2 : r * m.cols + c < r * m.cols + m.cols := by omega
    rw [if_neg hb1, if_pos hb2, if_pos rfl]
    have hsub : r * m.cols + c - r * m.cols = c := by omega
    rw [hsub]
    have hc1 : c < ((m.data.drop (r * m.cols)).take m.cols).length := by
      rw [hs1len]; exact hc
    have hc2 : c < ((m.data.drop (row2 * m.cols)).take m.cols).length := by
      rw [hs2len]; exact hc
    have hzl : c < (List.zipWith (fun x v2 => x.sub (v2.mul k))
        ((m.data.drop (r * m.cols)).take m.cols)
        ((m.data.drop (row2 * m.cols)).take m.cols)).length := by
      rw [List.length_zipWith]
      omega
    rw [List.getElem?_eq_getElem hzl, List.getElem_zipWith]
    have e1 : ((m.data.drop (r * m.cols)).take m.cols)[c] = m.get r c := by
      have := List.getElem?_eq_getElem hc1
      rw [List.getElem?_take_of_lt hc, List.getElem?_drop,
        getElem?_get m hlen hr hc] at this
      exact Option.some.inj this.symm
    have e2 : ((m.data.drop (row2 * m.cols)).take m.cols)[c] = m.get row2 c := by
      have := List.getElem?_eq_getElem hc2
      rw [List.getElem?_take_of_lt hc, List.getElem?_drop,
        getElem?_get m hlen h2 hc] at this
      exact Option.some.inj this.symm
    rw [e1, e2]
    rfl
  · have hb1 : ¬ (r * m.cols + c < row1 * m.cols) := by
      have : row1 * m.cols ≤ r * m.cols := Nat.mul_le_mul_right _ (by omega)
      omega
    have hb2 : ¬ (r * m.cols + c < row1 * m.cols + m.cols) := by
      have heq : row1 * m.cols + m.cols = (row1 + 1) * m.cols := by ring
      rw [heq]
      have : (row1 + 1) * m.cols ≤ r * m.cols := Nat.mul_le_mul_right _ (by omega)
      omega
    rw [if_neg hb1, if_neg hb2, if_neg (Nat.ne_of_gt hgt)]

theorem get_swapRow [Inhabited α] (m : Matrix α) (a b : Nat)
    (hlen : m.data.length = m.rows * m.cols) (ha : a < m.rows) (hb : b < m.rows)
    {r c : Nat} (hr : r < m.rows) (hc : c < m.cols) :
    (m.swapRow a b).get r c =
      m.get (if r = a then b else if r = b then a else r) c := by
  unfold swapRow
  split
  · next hab =>
    subst hab
    by_cases hra : r = a
    · subst hra; simp
    · simp [hra]
  · next hab =>
    have hidx : (if r = a then b else if r = b then a else r)
        = (if r = min a b then max a b else if r = max a b then min a b else r) := by
      rcases Nat.lt_or_ge a b with h | h
      · rw [Nat.min_eq_left (Nat.le_of_lt h), Nat.max_eq_right (Nat.le_of_lt h)]
      · rw [Nat.min_eq_right h, Nat.max_eq_left h]
        by_cases h1 : r = a <;> by_cases h2 : r = b <;>
          simp [h1, h2, hab] <;> omega
    rw [hidx]
    generalize hr1v : min a b = r1
    generalize hr2v : max a b = r2
    have hr12 : r1 < r2 := by omega
    have hr2rows : r2 < m.rows := by omega
    have hr1rows : r1 < m.rows := by omega
    have hCpos : 0 < m.cols := by omega
    have hseg2 : ((m.data.drop (r2 * m.cols)).take m.cols).length = m.cols := by
      simp only [List.length_take, List.length_drop]
      have h2 : (r2 + 1) * m.cols ≤ m.rows * m.cols :=
        Nat.mul_le_mul_right _ hr2rows
      rw [hlen]
      simp only [Nat.add_mul, Nat.one_mul] at h2
      omega
    have hseg1 : ((m.data.drop (r1 * m.cols)).take m.cols).length = m.cols := by
      simp only [List.length_take, List.length_drop]
      have h2 : (r1 + 1) * m.cols ≤ m.rows * m.cols :=
        Nat.mul_le_mul_right _ hr1rows
      rw [hlen]
      simp only [Nat.add_mul, Nat.one_mul] at h2
      omega
    have hmidlen : ((m.data.drop (r1 * m.cols + m.cols)).take
        (r2 * m.cols - (r1 * m.cols + m.cols))).length
        = r2 * m.cols - (r1 * m.cols + m.cols) := by
      simp only [List.length_take, List.length_drop]
      have h2 : (r2 + 1) * m.cols ≤ m.rows * m.cols :=
        Nat.mul_le_mul_right _ hr2rows
      rw [hlen]
      simp only [Nat.add_mul, Nat.one_mul] at h2
      omega
    have h12 : r1 * m.cols + m.cols ≤ r2 * m.cols := by
      have h2 : (r1 + 1) * m.cols ≤ r2 * m.cols :=
        Nat.mul_le_mul_right _ (by omega)
      simp only [Nat.add_mul, Nat.one_mul] at h2
      omega
    have h2len : r2 * m.cols + m.cols ≤ m.data.length := by
      have h2 : (r2 + 1) * m.cols ≤ m.rows * m.cols :=
        Nat.mul_le_mul_right _ hr2rows
      rw [hlen]
      simp only [Nat.add_mul, Nat.one_mul] at h2
      omega
    have hsega : ((m.data.drop (r2 * m.cols)).take m.cols
        ++ ((m.data.drop (r1 * m.cols + m.cols)).take
            (r2 * m.cols - (r1 * m.cols + m.cols))
          ++ (m.data.drop (r1 * m.cols)).take m.cols)).length
        = (r2 * m.cols + m.cols) - r1 * m.cols := by
      simp only [List.length_append, hseg2, hseg1, hmidlen]
      omega
    unfold get
    simp only
    have hassoc : m.data.take (r1 * m.cols)
        ++ (m.data.drop (r2 * m.cols)).take m.cols
        ++ (m.data.drop (r1 * m.cols + m.cols)).take
            (r2 * m.cols - (r1 * m.cols + m.cols))
        ++ (m.data.drop (r1 * m.cols)).take m.cols
        ++ m.data.drop (r2 * m.cols + m.cols)
        = m.data.take (r1 * m.cols)
          ++ ((m.data.drop (r2 * m.cols)).take m.cols
            ++ ((m.data.drop (r1 * m.cols + m.cols)).take
                (r2 * m.cols - (r1 * m.cols + m.cols))
              ++ (m.data.drop (r1 * m.cols)).take m.cols))
          ++ m.data.drop (r2 * m.cols + m.cols) := by
      simp only [List.append_assoc]
    rw [hassoc,
      getElem?_splice m.data (r1 * m.cols) (r2 * m.cols + m.cols) _
        (by omega) h2len hsega]
    rcases lt_trichotomy r r1 with hlt | heq | hgt
    · have hb1 : r * m.cols + c < r1 * m.cols := idx_lt_of_row_lt hlt hc
      rw [if_pos hb1]
      rw [if_neg (by omega : ¬ r = r1), if_neg (by omega : ¬ r = r2)]
    · rw [heq]
      have hb1 : ¬ (r1 * m.cols + c < r1 * m.cols) := by omega
      have hb2 : r1 * m.cols + c < r2 * m.cols + m.cols := by omega
      rw [if_neg hb1, if_pos hb2]
      have hsub : r1 * m.cols + c - r1 * m.cols = c := by omega
      rw [hsub, List.getElem?_append_left (by rw [hseg2]; exact hc),
        List.getElem?_take_of_lt hc, List.getElem?_drop,
        getElem?_get m hlen hr2rows hc]
      rw [if_pos rfl]
      rfl
    · rcases lt_trichotomy r r2 with hlt2 | heq2 | hgt2
      · have hge : r1 * m.cols + m.cols ≤ r * m.cols := by
          have h2 : (r1 + 1) * m.cols ≤ r * m.cols :=
            Nat.mul_le_mul_right _ (by omega)
          simp only [Nat.add_mul, Nat.one_mul] at h2
          omega
        have hb1 : ¬ (r * m.cols + c < r1 * m.cols) := by omega
        have hb2 : r * m.cols + c < r2 * m.cols + m.cols := by
          have h2 := idx_lt_of_row_lt hlt2 hc
          omega
        rw [if_neg hb1, if_pos hb2]
        have hge2 : m.cols ≤ r * m.cols + c - r1 * m.cols := by omega
        rw [List.getElem?_append_right (by rw [hseg2]; exact hge2), hseg2]
        have hlt3 : r * m.cols + c - r1 * m.cols - m.cols
            < r2 * m.cols - (r1 * m.cols + m.cols) := by
          have h2 := idx_lt_of_row_lt hlt2 hc
          omega
        rw [List.getElem?_append_left (by rw [hmidlen]; exact hlt3),
          List.getElem?_take_of_lt hlt3, List.getElem?_drop]
        have hre : r1 * m.cols + m.cols + (r * m.cols + c - r1 * m.cols - m.cols)
            = r * m.cols + c := by omega
        rw [hre, getElem?_get m hlen hr hc]
        rw [if_neg (by omega : ¬ r = r1), if_neg (by omega : ¬ r = r2)]
        rw [getElem?_get m hlen hr hc]
      · rw [heq2]
        have hge : r1 * m.cols ≤ r2 * m.cols := by omega
        have hb1 : ¬ (r2 * m.cols + c < r1 * m.cols) := by omega
        have hb2 : r2 * m.cols + c < r2 * m.cols + m.cols := by omega
        rw [if_neg hb1, if_pos hb2]
        have hge2 : m.cols ≤ r2 * m.cols + c - r1 * m.cols := by omega
        rw [List.getElem?_append_right (by rw [hseg2]; exact hge2), hseg2]
        have hge3 : r2 * m.cols - (r1 * m.cols + m.cols)
            ≤ r2 * m.cols + c - r1 * m.cols - m.cols := by omega
        rw [List.getElem?_append_right (by rw [hmidlen]; exact hge3), hmidlen]
        have hlt4 : r2 * m.cols + c - r1 * m.cols - m.cols
            - (r2 * m.cols - (r1 * m.cols + m.cols)) = c := by omega
        rw [hlt4, List.getElem?_take_of_lt hc, List.getElem?_drop,
          getElem?_get m hlen hr1rows hc]
        rw [if_neg (by omega : ¬ r2 = r1), if_pos rfl]
        rfl
      · have hb1 : ¬ (r * m.cols + c < r1 * m.cols) := by
          have h2 : r1 * m.cols ≤ r * m.cols := Nat.mul_le_mul_right _ (by omega)
          omega
        have hb2 : ¬ (r * m.cols + c < r2 * m.cols + m.cols) := by
          have h2 : (r2 + 1) * m.cols ≤ r * m.cols :=
            Nat.mul_le_mul_right _ (by omega)
          simp only [Nat.add_mul, Nat.one_mul] at h2
          omega
        rw [if_neg hb1, if_neg hb2]
        rw [if_neg (by omega : ¬ r = r1), if_neg (by omega : ¬ r = r2)]

end Matrix

namespace Matrix

/-- Inner pivot-search `while` loop of `reduced_row_echelon_form`, with
explicit fuel: from scan position `i` in column `lead`, advance down the
rows; on reaching `rows`, reset to `row` and move to the next column; return
`some (some (i, lead))` at the first entry that is not `== T::default()`,
`some none` for the early `return` when `lead` reaches `cols`, and `none`
only on fuel exhaustion (proved unreachable below). -/
def pivotSearch (m : Matrix Fraction) (row : Nat) :
    Nat → Nat → Nat → Option (Option (Nat × Nat))
  | 0, _, _ => none
  | fuel + 1, i, lead =>
    if (m.get i lead).fracEq default then
      if i + 1 = m.rows then
        if lead + 1 = m.cols then some none
        else pivotSearch m row fuel row (lead + 1)
      else pivotSearch m row fuel (i + 1) lead
    else some (some (i, lead))

/-- `for j in 0..rows { if j != row { subtract_from_row(j, row, get(j, lead)) } }`. -/
def eliminateOthers (m : Matrix Fraction) (row lead : Nat) : Matrix Fraction :=
  (List.range m.rows).foldl
    (fun acc j =>
      if j ≠ row then acc.subtractFromRow j row (acc.get j lead) else acc) m

theorem rows_cols_eliminateOthers_aux (row lead : Nat) :
    ∀ (l : List Nat) (acc : Matrix Fraction),
      ((l.foldl (fun acc j =>
        if j ≠ row then acc.subtractFromRow j row (acc.get j lead) else acc)
        acc).rows = acc.rows) ∧
      ((l.foldl (fun acc j =>
        if j ≠ row then acc.subtractFromRow j row (acc.get j lead) else acc)
        acc).cols = acc.cols) := by
  intro l
  induction l with
  | nil => intro acc; exact ⟨rfl, rfl⟩
  | cons j l ih =>
    intro acc
    rw [List.foldl_cons]
    constructor
    · rw [(ih _).1]
      split <;> rfl
    · rw [(ih _).2]
      split <;> rfl

@[simp] theorem rows_eliminateOthers (m : Matrix Fraction) (row lead : Nat) :
    (m.eliminateOthers row lead).rows = m.rows :=
  (rows_cols_eliminateOthers_aux row lead (List.range m.rows) m).1

@[simp] theorem cols_eliminateOthers (m : Matrix Fraction) (row lead : Nat) :
    (m.eliminateOthers row lead).cols = m.cols :=
  (rows_cols_eliminateOthers_aux row lead (List.range m.rows) m).2

/-- Outer loop of `Matrix::reduced_row_echelon_form` (`for row in 0..rows`
with the mutable `lead` cursor). The outer fuel counts the remaining
iterations of the bounded `for` loop (it starts at `rows`); `none` arises
only from fuel exhaustion (inner or outer), proved unreachable. The Rust
guard `if i != self.rows` before the swap is always true at its use site
(the search only yields `i < rows`), so the swap is performed
unconditionally. -/
def rrefLoop : Nat → Matrix Fraction → Nat → Nat → Option (Matrix Fraction)
  | 0, m, _, row => if m.rows ≤ row then some m else none
  | fuel + 1, m, lead, row =>
    if row < m.rows then
      if m.cols ≤ lead then some m
      else
        match pivotSearch m row ((m.cols - lead) * m.rows + m.rows + 1) row lead with
        | none => none
        | some none => some m
        | some (some (i, lead')) =>
          let m1 := m.swapRow i row
          let m2 := m1.divideRow row (m1.get row lead')
          let m3 := m2.eliminateOthers row lead'
          rrefLoop fuel m3 (lead' + 1) (row + 1)
    else some m

/-- `Matrix::reduced_row_echelon_form`. -/
def reduced_row_echelon_form (m : Matrix Fraction) : Option (Matrix Fraction) :=
  rrefLoop m.rows m 0 0

/-- `Matrix::find_pivot_column`: first column (including the RHS column) whose
entry in `row` is `!= T::zero()`. -/
def find_pivot_column (m : Matrix Fraction) (row : Nat) : Option Nat :=
  (List.range m.cols).find? fun col => !(m.get row col).fracEq Fraction.zero

/-- The inner pivot search never exhausts its fuel: every full wrap of the
row scan strictly increases `lead`, so
`(cols - lead) * rows + (rows - i)` strictly decreases. -/
theorem pivotSearch_isSome (m : Matrix Fraction) (row : Nat)
    (hrow : row < m.rows) :
    ∀ fuel i lead, i < m.rows → lead < m.cols →
      (m.cols - lead) * m.rows + (m.rows - i) < fuel →
      (pivotSearch m row fuel i lead).isSome := by
  intro fuel
  induction fuel with
  | zero =>
    intro i lead hi hlead hf
    omega
  | succ fuel ih =>
    intro i lead hi hlead hf
    rw [pivotSearch]
    split
    · split
      · next hieq =>
        split
        · simp
        · next hleq =>
          apply ih row (lead + 1) hrow (by omega)
          have hstep : (m.cols - (lead + 1)) * m.rows + m.rows
              = (m.cols - lead) * m.rows := by
            have he : (m.cols - (lead + 1)) + 1 = m.cols - lead := by omega
            calc (m.cols - (lead + 1)) * m.rows + m.rows
                = ((m.cols - (lead + 1)) + 1) * m.rows := by ring
              _ = (m.cols - lead) * m.rows := by rw [he]
          omega
      · next hine =>
        apply ih (i + 1) lead (by omega) hlead
        omega
    · simp

theorem rrefLoop_isSome :
    ∀ n (m : Matrix Fraction) lead row, m.rows - row ≤ n →
      (rrefLoop n m lead row).isSome := by
  intro n
  induction n with
  | zero =>
    intro m lead row hn
    rw [rrefLoop]
    rw [if_pos (by omega : m.rows ≤ row)]
    simp
  | succ n ih =>
    intro m lead row hn
    rw [rrefLoop]
    split
    · next hrow =>
      split
      · simp
      · next hlead =>
        have hps := pivotSearch_isSome m row hrow
          ((m.cols - lead) * m.rows + m.rows + 1) row lead hrow (by omega)
          (by omega)
        match hmatch : pivotSearch m row
            ((m.cols - lead) * m.rows + m.rows + 1) row lead with
        | none => rw [hmatch] at hps; simp at hps
        | some none => simp
        | some (some (i, lead')) =>
          simp only
          apply ih
          simp only [rows_eliminateOthers, rows_divideRow, rows_swapRow]
          omega
    · simp

/-- C10: `reduced_row_echelon_form` terminates on every matrix whose backing
store length is `rows × cols`: the fuel handed to the embedded inner
pivot-search loop is provably sufficient (each full wrap of the row scan
strictly increases the lead-column cursor, and the procedure returns once
`lead` reaches `cols`), so the reduction always returns a result. -/
theorem claim_C10_rref_terminates (m : Matrix Fraction)
    (hlen : m.data.length = m.rows * m.cols) :
    ∃ m', m.reduced_row_echelon_form = some m' := by
  have h := rrefLoop_isSome m.rows m 0 0 (by omega)
  rw [Option.isSome_iff_exists] at h
  exact h

/-- Witness for C10 at a concrete 2×3 fraction matrix. -/
theorem claim_C10_witness :
    ((Matrix.mk 2 3 [Fraction.new 1 1, Fraction.new 2 1, Fraction.new 3 1,
        Fraction.new 2 1, Fraction.new 1 1, Fraction.new 4 1]
          : Matrix Fraction).data.length
      = (2 : Nat) * 3) ∧
    (∃ m', (Matrix.mk 2 3 [Fraction.new 1 1, Fraction.new 2 1, Fraction.new 3 1,
        Fraction.new 2 1, Fraction.new 1 1, Fraction.new 4 1]
          : Matrix Fraction).reduced_row_echelon_form = some m') :=
  ⟨by decide,
    claim_C10_rref_terminates _ (by decide)⟩

/-- Rational value of the entry at `(r, c)`. -/
def v (m : Matrix Fraction) (r c : Nat) : ℚ := (m.get r c).val

/-- Well-formedness: every stored fraction has a non-zero denominator
(canonically-indexed form). -/
def GoodDen (m : Matrix Fraction) : Prop :=
  ∀ r c, r < m.rows → c < m.cols → (m.get r c).denominator ≠ 0

/-- Value-level first-non-zero column of a row (the specification-side mirror
of `find_pivot_column`). -/
def pivotVal (m : Matrix Fraction) (r : Nat) : Option Nat :=
  (List.range m.cols).find? fun c => decide (m.v r c ≠ 0)

theorem find?_congr {p q : Nat → Bool} :
    ∀ l : List Nat, (∀ x ∈ l, p x = q x) → l.find? p = l.find? q := by
  intro l
  induction l with
  | nil => intro _; rfl
  | cons x xs ih =>
    intro h
    rw [List.find?_cons, List.find?_cons, h x (List.mem_cons_self x xs)]
    split
    · rfl
    · exact ih fun y hy => h y (List.mem_cons_of_mem _ hy)

theorem find?_range'_some {p : Nat → Bool} :
    ∀ n s j, (List.range' s n).find? p = some j ↔
      (s ≤ j ∧ j < s + n ∧ p j = true ∧ ∀ i, s ≤ i → i < j → p i = false) := by
  intro n
  induction n with
  | zero =>
    intro s j
    simp [List.range']
    omega
  | succ n ih =>
    intro s j
    rw [List.range'_succ, List.find?_cons]
    rcases hp : p s with _ | _
    · simp only
      rw [ih (s + 1) j]
      constructor
      · rintro ⟨h1, h2, h3, h4⟩
        refine ⟨by omega, by omega, h3, ?_⟩
        intro i hi1 hi2
        rcases Nat.eq_or_lt_of_le hi1 with rfl | hgt
        · exact hp
        · exact h4 i hgt hi2
      · rintro ⟨h1, h2, h3, h4⟩
        have hsj : s ≠ j := by
          rintro rfl
          rw [hp] at h3
          exact absurd h3 (by simp)
        refine ⟨by omega, by omega, h3, ?_⟩
        intro i hi1 hi2
        exact h4 i (by omega) hi2
    · simp only [Option.some.injEq]
      constructor
      · rintro rfl
        exact ⟨le_refl _, by omega, hp, fun i h1 h2 => by omega⟩
      · rintro ⟨h1, h2, h3, h4⟩
        by_contra hne
        have : p s = false := h4 s (le_refl _) (by omega)
        rw [hp] at this
        exact absurd this (by simp)

theorem find?_range'_none {p : Nat → Bool} :
    ∀ n s, (List.range' s n).find? p = none ↔
      ∀ i, s ≤ i → i < s + n → p i = false := by
  intro n
  induction n with
  | zero =>
    intro s
    simp [List.range']
    omega
  | succ n ih =>
    intro s
    rw [List.range'_succ, List.find?_cons]
    rcases hp : p s with _ | _
    · simp only
      rw [ih (s + 1)]
      constructor
      · intro h i h1 h2
        rcases Nat.eq_or_lt_of_le h1 with rfl | hgt
        · exact hp
        · exact h i hgt (by omega)
      · intro h i h1 h2
        exact h i (by omega) (by omega)
    · simp only [reduceCtorEq, false_iff]
      push_neg
      exact ⟨s, le_refl _, by omega, by simp [hp]⟩

theorem find?_range_some {p : Nat → Bool} (n j : Nat) :
    (List.range n).find? p = some j ↔
      (j < n ∧ p j = true ∧ ∀ i, i < j → p i = false) := by
  rw [List.range_eq_range', find?_range'_some]
  constructor
  · rintro ⟨_, h2, h3, h4⟩
    exact ⟨by omega, h3, fun i hi => h4 i (by omega) hi⟩
  · rintro ⟨h1, h2, h3⟩
    exact ⟨by omega, by omega, h2, fun i _ hi => h3 i hi⟩

theorem find?_range_none {p : Nat → Bool} (n : Nat) :
    (List.range n).find? p = none ↔ ∀ i, i < n → p i = false := by
  rw [List.range_eq_range', find?_range'_none]
  constructor
  · intro h i hi
    exact h i (by omega) (by omega)
  · intro h i _ hi
    exact h i (by omega)

theorem pivotVal_some_iff (m : Matrix Fraction) (r p : Nat) :
    pivotVal m r = some p ↔
      (p < m.cols ∧ m.v r p ≠ 0 ∧ ∀ c, c < p → m.v r c = 0) := by
  rw [pivotVal, find?_range_some]
  constructor
  · rintro ⟨h1, h2, h3⟩
    refine ⟨h1, by simpa using h2, ?_⟩
    intro c hc
    have := h3 c hc
    simpa using this
  · rintro ⟨h1, h2, h3⟩
    refine ⟨h1, by simpa using h2, ?_⟩
    intro i hi
    simpa using h3 i hi

theorem pivotVal_none_iff (m : Matrix Fraction) (r : Nat) :
    pivotVal m r = none ↔ ∀ c, c < m.cols → m.v r c = 0 := by
  rw [pivotVal, find?_range_none]
  constructor
  · intro h c hc
    have := h c hc
    simpa using this
  · intro h c hc
    simpa using h c hc

/-- Any in-range `get` with a good denominator store has non-zero
denominator; out-of-range reads give `default` (denominator 1). -/
theorem den_get (m : Matrix Fraction) (hlen : m.data.length = m.rows * m.cols)
    (hg : GoodDen m) (r c : Nat) : (m.get r c).denominator ≠ 0 := by
  unfold get
  rcases h : m.data[r * m.cols + c]? with _ | x
  · simp [Option.getD]
  · simp only [Option.getD_some]
    have hlt : r * m.cols + c < m.data.length := by
      rcases List.getElem?_eq_some_iff.mp h with ⟨hlt, _⟩
      exact hlt
    have hcols : 0 < m.cols := by
      rcases Nat.eq_zero_or_pos m.cols with h0 | h0
      · rw [h0] at hlt hlen
        omega
      · exact h0
    have hr' : (r * m.cols + c) / m.cols < m.rows := by
      rw [Nat.div_lt_iff_lt_mul hcols]
      rw [hlen] at hlt
      exact hlt
    have hc' : (r * m.cols + c) % m.cols < m.cols := Nat.mod_lt _ hcols
    have hdecomp : ((r * m.cols + c) / m.cols) * m.cols
        + (r * m.cols + c) % m.cols = r * m.cols + c := by
      rw [Nat.mul_comm]
      exact Nat.div_add_mod _ _
    have := hg _ _ hr' hc'
    unfold get at this
    rw [hdecomp, h] at this
    simpa using this

/-- Decidable sufficient condition for `GoodDen`. -/
theorem GoodDen_of_data (m : Matrix Fraction)
    (h : ∀ f ∈ m.data, f.denominator ≠ 0) : GoodDen m := by
  intro r c _ _
  unfold get
  rcases he : m.data[r * m.cols + c]? with _ | x
  · simp [Option.getD]
  · simpa using h x (List.getElem?_mem he)

/-- The code's entry comparison against `T::default()`/`T::zero()` is exactly
value comparison with `0`. -/
theorem fracEq_default_iff (m : Matrix Fraction)
    (hlen : m.data.length = m.rows * m.cols) (hg : GoodDen m) (r c : Nat) :
    ((m.get r c).fracEq default = true ↔ m.v r c = 0) := by
  have hd := den_get m hlen hg r c
  rw [show (default : Fraction) = Fraction.zero from rfl]
  exact Fraction.fracEq_zero_iff hd

theorem find_pivot_column_eq_pivotVal (m : Matrix Fraction)
    (hlen : m.data.length = m.rows * m.cols) (hg : GoodDen m) (r : Nat) :
    m.find_pivot_column r = pivotVal m r := by
  unfold find_pivot_column pivotVal
  apply find?_congr
  intro c _
  have h := fracEq_default_iff m hlen hg r c
  rcases he : (m.get r c).fracEq Fraction.zero with _ | _
  · have : ¬ m.v r c = 0 := by
      intro hv
      have := h.mpr hv
      rw [show (default : Fraction) = Fraction.zero from rfl] at this
      rw [he] at this
      exact absurd this (by simp)
    simp [this]
  · have : m.v r c = 0 := by
      apply h.mp
      rw [show (default : Fraction) = Fraction.zero from rfl]
      exact he
    simp [this]

theorem v_swapRow (m : Matrix Fraction) (a b : Nat)
    (hlen : m.data.length = m.rows * m.cols) (ha : a < m.rows) (hb : b < m.rows)
    {r c : Nat} (hr : r < m.rows) (hc : c < m.cols) :
    (m.swapRow a b).v r c = m.v (if r = a then b else if r = b then a else r) c := by
  unfold v
  rw [get_swapRow m a b hlen ha hb hr hc]

theorem GoodDen_swapRow (m : Matrix Fraction) (a b : Nat)
    (hlen : m.data.length = m.rows * m.cols) (ha : a < m.rows) (hb : b < m.rows)
    (hg : GoodDen m) : GoodDen (m.swapRow a b) := by
  intro r c hr hc
  rw [rows_swapRow] at hr
  rw [cols_swapRow] at hc
  rw [get_swapRow m a b hlen ha hb hr hc]
  split
  · exact hg b c hb hc
  · split
    · exact hg a c ha hc
    · exact hg r c hr hc

theorem v_divideRow (m : Matrix Fraction) (row : Nat) (d : Fraction)
    (hlen : m.data.length = m.rows * m.cols) (hg : GoodDen m)
    (hrow : row < m.rows) (hdden : d.denominator ≠ 0) (hdnum : d.numerator ≠ 0)
    {r c : Nat} (hr : r < m.rows) (hc : c < m.cols) :
    (m.divideRow row d).v r c =
      if r = row then m.v r c / d.val else m.v r c := by
  unfold v
  rw [get_divideRow m row d hlen hrow hr hc]
  split
  · exact (Fraction.val_div (hg r c hr hc) hdden hdnum).1
  · rfl

theorem GoodDen_divideRow (m : Matrix Fraction) (row : Nat) (d : Fraction)
    (hlen : m.data.length = m.rows * m.cols) (hg : GoodDen m)
    (hrow : row < m.rows) (hdden : d.denominator ≠ 0) (hdnum : d.numerator ≠ 0) :
    GoodDen (m.divideRow row d) := by
  intro r c hr hc
  rw [rows_divideRow] at hr
  rw [cols_divideRow] at hc
  rw [get_divideRow m row d hlen hrow hr hc]
  split
  · exact (Fraction.val_div (hg r c hr hc) hdden hdnum).2
  · exact hg r c hr hc

theorem v_subtractFromRow (m : Matrix Fraction) (r1 r2 : Nat) (k : Fraction)
    (hlen : m.data.length = m.rows * m.cols) (hg : GoodDen m)
    (h1 : r1 < m.rows) (h2 : r2 < m.rows) (hk : k.denominator ≠ 0)
    {r c : Nat} (hr : r < m.rows) (hc : c < m.cols) :
    (m.subtractFromRow r1 r2 k).v r c =
      if r = r1 then m.v r c - m.v r2 c * k.val else m.v r c := by
  unfold v
  rw [get_subtractFromRow m r1 r2 k hlen h1 h2 hr hc]
  split
  · have hmul := Fraction.val_mul (hg r2 c h2 hc) hk
    have hsub := Fraction.val_sub (hg r c hr hc) hmul.2
    rw [hsub.1, hmul.1]
  · rfl

theorem GoodDen_subtractFromRow (m : Matrix Fraction) (r1 r2 : Nat)
    (k : Fraction) (hlen : m.data.length = m.rows * m.cols) (hg : GoodDen m)
    (h1 : r1 < m.rows) (h2 : r2 < m.rows) (hk : k.denominator ≠ 0) :
    GoodDen (m.subtractFromRow r1 r2 k) := by
  intro r c hr hc
  rw [rows_subtractFromRow] at hr
  rw [cols_subtractFromRow] at hc
  rw [get_subtractFromRow m r1 r2 k hlen h1 h2 hr hc]
  split
  · have hmul := Fraction.val_mul (hg r2 c h2 hc) hk
    exact (Fraction.val_sub (hg r c hr hc) hmul.2).2
  · exact hg r c hr hc

/-- Proof-side view of the partially-run elimination fold. -/
def eliminatePrefix (m : Matrix Fraction) (row lead n : Nat) : Matrix Fraction :=
  (List.range n).foldl
    (fun acc j =>
      if j ≠ row then acc.subtractFromRow j row (acc.get j lead) else acc) m

theorem eliminatePrefix_succ (m : Matrix Fraction) (row lead n : Nat) :
    eliminatePrefix m row lead (n + 1) =
      (fun acc j =>
        if j ≠ row then acc.subtractFromRow j row (acc.get j lead) else acc)
        (eliminatePrefix m row lead n) n := by
  unfold eliminatePrefix
  rw [List.range_succ, List.foldl_append, List.foldl_cons, List.foldl_nil]

theorem eliminateOthers_eq_stepwise (m : Matrix Fraction) (row lead : Nat) :
    m.eliminateOthers row lead = eliminatePrefix m row lead m.rows := rfl

theorem eliminatePrefix_spec (m : Matrix Fraction) (row lead : Nat)
    (hlen : m.data.length = m.rows * m.cols) (hg : GoodDen m)
    (hrow : row < m.rows) (hlead : lead < m.cols) :
    ∀ n, n ≤ m.rows →
      (eliminatePrefix m row lead n).rows = m.rows ∧
      (eliminatePrefix m row lead n).cols = m.cols ∧
      (eliminatePrefix m row lead n).data.length = m.data.length ∧
      GoodDen (eliminatePrefix m row lead n) ∧
      (∀ r c, r < m.rows → c < m.cols →
        (eliminatePrefix m row lead n).v r c =
          if r < n ∧ r ≠ row then m.v r c - m.v r lead * m.v row c
          else m.v r c) := by
  intro n
  induction n with
  | zero =>
    intro _
    refine ⟨rfl, rfl, rfl, hg, ?_⟩
    intro r c _ _
    simp [eliminatePrefix]
  | succ n ih =>
    intro hn
    obtain ⟨hrows, hcols, hl, hgd, hv⟩ := ih (by omega)
    rw [eliminatePrefix_succ]
    by_cases hnrow : n = row
    · subst hnrow
      simp only [ne_eq, not_true_eq_false, if_false, ite_false]
      refine ⟨hrows, hcols, hl, hgd, ?_⟩
      intro r c hr hc
      rw [hv r c hr hc]
      by_cases h1 : r < n ∧ r ≠ n
      · rw [if_pos h1, if_pos ⟨by omega, h1.2⟩]
      · rw [if_neg h1, if_neg (by omega)]
    · simp only [ne_eq, hnrow, not_false_eq_true, if_true, ite_true]
      set acc := eliminatePrefix m row lead n with hacc
      have hlenacc : acc.data.length = acc.rows * acc.cols := by
        rw [hl, hrows, hcols, hlen]
      have hnacc : n < acc.rows := by rw [hrows]; omega
      have hrowacc : row < acc.rows := by rw [hrows]; exact hrow
      have hkden : (acc.get n lead).denominator ≠ 0 :=
        den_get acc hlenacc hgd n lead
      have hleadacc : lead < acc.cols := by rw [hcols]; exact hlead
      refine ⟨by simp [hrows], by simp [hcols], ?_, ?_, ?_⟩
      · rw [length_subtractFromRow acc n row _ hlenacc hnacc hrowacc, hl]
      · have := GoodDen_subtractFromRow acc n row (acc.get n lead)
          hlenacc hgd hnacc hrowacc hkden
        exact this
      · intro r c hr hc
        have hracc : r < acc.rows := by rw [hrows]; exact hr
        have hcacc : c < acc.cols := by rw [hcols]; exact hc
        rw [v_subtractFromRow acc n row _ hlenacc hgd hnacc hrowacc hkden
          hracc hcacc]
        have hvrow : acc.v row c = m.v row c := by
          rw [hv row c hrow hc, if_neg (by omega)]
        have hkval : (acc.get n lead).val = m.v n lead := by
          have : acc.v n lead = m.v n lead := by
            rw [hv n lead (by omega) hlead, if_neg (by omega)]
          exact this
        by_cases hrn : r = n
        · subst hrn
          rw [if_pos rfl, if_pos ⟨by omega, hnrow⟩]
          rw [hv r c (by omega) hc, if_neg (by omega), hvrow, hkval]
          ring
        · rw [if_neg hrn, hv r c hr hc]
          by_cases h1 : r < n ∧ r ≠ row
          · rw [if_pos h1, if_pos ⟨by omega, h1.2⟩]
          · rw [if_neg h1, if_neg (by
              rintro ⟨ha, hb⟩
              exact h1 ⟨by omega, hb⟩)]

theorem eliminateOthers_spec (m : Matrix Fraction) (row lead : Nat)
    (hlen : m.data.length = m.rows * m.cols) (hg : GoodDen m)
    (hrow : row < m.rows) (hlead : lead < m.cols) :
    (m.eliminateOthers row lead).rows = m.rows ∧
    (m.eliminateOthers row lead).cols = m.cols ∧
    (m.eliminateOthers row lead).data.length = m.data.length ∧
    GoodDen (m.eliminateOthers row lead) ∧
    (∀ r c, r < m.rows → c < m.cols →
      (m.eliminateOthers row lead).v r c =
        if r = row then m.v r c
        else m.v r c - m.v r lead * m.v row c) := by
  obtain ⟨h1, h2, h3, h4, h5⟩ :=
    eliminatePrefix_spec m row lead hlen hg hrow hlead m.rows (le_refl _)
  rw [eliminateOthers_eq_stepwise]
  refine ⟨h1, h2, h3, h4, ?_⟩
  intro r c hr hc
  rw [h5 r c hr hc]
  by_cases hrr : r = row
  · rw [if_neg (by omega), if_pos hrr]
  · rw [if_pos ⟨hr, hrr⟩, if_neg hrr]

theorem pivotSearch_spec (m : Matrix Fraction) (row : Nat)
    (hlen : m.data.length = m.rows * m.cols) (hg : GoodDen m)
    (hrow : row < m.rows) :
    ∀ fuel i lead res, row ≤ i → i < m.rows → lead < m.cols →
      (∀ r, row ≤ r → r < i → m.v r lead = 0) →
      pivotSearch m row fuel i lead = res →
      (res = some none →
        ∀ c, lead ≤ c → c < m.cols → ∀ r, row ≤ r → r < m.rows → m.v r c = 0) ∧
      (∀ i' lead', res = some (some (i', lead')) →
        row ≤ i' ∧ i' < m.rows ∧ lead ≤ lead' ∧ lead' < m.cols ∧
        m.v i' lead' ≠ 0 ∧
        (∀ c, lead ≤ c → c < lead' → ∀ r, row ≤ r → r < m.rows → m.v r c = 0) ∧
        (∀ r, row ≤ r → r < i' → m.v r lead' = 0)) := by
  intro fuel
  induction fuel with
  | zero =>
    intro i lead res hi1 hi2 hlead hscan hres
    rw [pivotSearch] at hres
    subst hres
    constructor
    · intro h; exact absurd h (by simp)
    · intro i' lead' h; exact absurd h (by simp)
  | succ fuel ih =>
    intro i lead res hi1 hi2 hlead hscan hres
    rw [pivotSearch] at hres
    split at hres
    · next heq =>
      have hvi : m.v i lead = 0 := (fracEq_default_iff m hlen hg i lead).mp heq
      split at hres
      · next hieq =>
        split at hres
        · next hleq =>
          subst hres
          constructor
          · intro _ c hc1 hc2 r hr1 hr2
            have hc : c = lead := by omega
            subst hc
            rcases Nat.lt_trichotomy r i with h | h | h
            · exact hscan r hr1 h
            · subst h; exact hvi
            · omega
          · intro i' lead' h; exact absurd h (by simp)
        · next hleq =>
          have hcolzero : ∀ r, row ≤ r → r < m.rows → m.v r lead = 0 := by
            intro r hr1 hr2
            rcases Nat.lt_trichotomy r i with h | h | h
            · exact hscan r hr1 h
            · subst h; exact hvi
            · omega
          obtain ⟨ha, hb⟩ := ih row (lead + 1) res (le_refl _) hrow
            (by omega) (fun r _ hr => absurd hr (by omega)) hres
          constructor
          · intro h c hc1 hc2 r hr1 hr2
            rcases Nat.eq_or_lt_of_le hc1 with rfl | hgt
            · exact hcolzero r hr1 hr2
            · exact ha h c (by omega) hc2 r hr1 hr2
          · intro i' lead' h
            obtain ⟨g1, g2, g3, g4, g5, g6, g7⟩ := hb i' lead' h
            refine ⟨g1, g2, by omega, g4, g5, ?_, g7⟩
            intro c hc1 hc2 r hr1 hr2
            rcases Nat.eq_or_lt_of_le hc1 with rfl | hgt
            · exact hcolzero r hr1 hr2
            · exact g6 c (by omega) hc2 r hr1 hr2
      · next hine =>
        have hscan' : ∀ r, row ≤ r → r < i + 1 → m.v r lead = 0 := by
          intro r hr1 hr2
          rcases Nat.lt_trichotomy r i with h | h | h
          · exact hscan r hr1 h
          · subst h; exact hvi
          · omega
        exact ih (i + 1) lead res (by omega) (by omega) hlead hscan' hres
    · next hne =>
      subst hres
      constructor
      · intro h; exact absurd h (by simp)
      · intro i' lead' h
        rcases Option.some.inj h with h2
        rcases Option.some.inj h2 with h3
        have hii : i' = i := (Prod.mk.injEq _ _ _ _ ▸ h3.symm).1
        have hll : lead' = lead := (Prod.mk.injEq _ _ _ _ ▸ h3.symm).2
        subst hii
        subst hll
        have hv : m.v i' lead' ≠ 0 := by
          intro hz
          exact hne ((fracEq_default_iff m hlen hg i' lead').mpr hz)
        exact ⟨hi1, hi2, le_refl _, hlead, hv,
          fun c hc1 hc2 _ _ _ => by omega,
          fun r hr1 hr2 => hscan r hr1 hr2⟩

/-- A rational assignment to column variables satisfies row `r` of the
augmented matrix (coefficient columns `0..cols-2`, RHS column `cols-1`). -/
def RowSat (m : Matrix Fraction) (r : Nat) (x : Nat → ℚ) : Prop :=
  (∑ c ∈ Finset.range (m.cols - 1), m.v r c * x c) = m.v r (m.cols - 1)

/-- An assignment satisfies every row of the system. -/
def Sat (m : Matrix Fraction) (x : Nat → ℚ) : Prop :=
  ∀ r, r < m.rows → RowSat m r x

theorem sum_sub_mul (n : Nat) (f g x : Nat → ℚ) (kv : ℚ) :
    ∑ c ∈ Finset.range n, (f c - g c * kv) * x c
      = (∑ c ∈ Finset.range n, f c * x c)
        - kv * ∑ c ∈ Finset.range n, g c * x c := by
  rw [Finset.mul_sum, ← Finset.sum_sub_distrib]
  apply Finset.sum_congr rfl
  intro c _
  ring

theorem sum_div_mul (n : Nat) (f x : Nat → ℚ) (d : ℚ) :
    ∑ c ∈ Finset.range n, (f c / d) * x c
      = (∑ c ∈ Finset.range n, f c * x c) / d := by
  rw [Finset.sum_div]
  apply Finset.sum_congr rfl
  intro c _
  ring

theorem RowSat_of_v_eq {m m' : Matrix Fraction} {r r' : Nat}
    (hcols : m'.cols = m.cols) (hc0 : 0 < m.cols)
    (hv : ∀ c, c < m.cols → m'.v r' c = m.v r c) (x : Nat → ℚ) :
    RowSat m' r' x ↔ RowSat m r x := by
  unfold RowSat
  rw [hcols, hv (m.cols - 1) (by omega)]
  constructor
  · intro h
    rw [← h]
    apply Finset.sum_congr rfl
    intro c hc
    rw [hv c (by rcases Finset.mem_range.mp hc with h2; omega)]
  · intro h
    rw [← h]
    apply Finset.sum_congr rfl
    intro c hc
    rw [hv c (by rcases Finset.mem_range.mp hc with h2; omega)]

theorem Sat_swapRow (m : Matrix Fraction) (a b : Nat)
    (hlen : m.data.length = m.rows * m.cols) (ha : a < m.rows)
    (hb : b < m.rows) (hc0 : 0 < m.cols) (x : Nat → ℚ) :
    Sat (m.swapRow a b) x ↔ Sat m x := by
  have hrows : (m.swapRow a b).rows = m.rows := rows_swapRow m a b
  have hcols : (m.swapRow a b).cols = m.cols := cols_swapRow m a b
  have hchar : ∀ r, r < m.rows →
      (RowSat (m.swapRow a b) r x ↔
        RowSat m (if r = a then b else if r = b then a else r) x) := by
    intro r hr
    apply RowSat_of_v_eq hcols hc0
    intro c hc
    exact v_swapRow m a b hlen ha hb hr hc
  have hsig : ∀ r, r < m.rows →
      (if r = a then b else if r = b then a else r) < m.rows := by
    intro r hr
    split
    · exact hb
    · split
      · exact ha
      · exact hr
  have hinv : ∀ r,
      (if (if r = a then b else if r = b then a else r) = a then b
        else if (if r = a then b else if r = b then a else r) = b then a
        else (if r = a then b else if r = b then a else r)) = r := by
    intro r
    by_cases h1 : r = a <;> by_cases h2 : r = b <;>
      simp [h1, h2] <;> omega
  constructor
  · intro hs r hr
    have hr' := hsig r hr
    have := (hchar _ hr').mp (hs _ (by rw [hrows]; exact hr'))
    rwa [hinv r] at this
  · intro hs r hr
    rw [hrows] at hr
    exact (hchar r hr).mpr (hs _ (hsig r hr))

theorem Sat_divideRow (m : Matrix Fraction) (row : Nat) (d : Fraction)
    (hlen : m.data.length = m.rows * m.cols) (hg : GoodDen m)
    (hrow : row < m.rows) (hdden : d.denominator ≠ 0) (hdnum : d.numerator ≠ 0)
    (hc0 : 0 < m.cols) (x : Nat → ℚ) :
    Sat (m.divideRow row d) x ↔ Sat m x := by
  have hdval : d.val ≠ 0 := by
    intro h
    exact hdnum ((Fraction.val_eq_zero_iff hdden).mp h)
  have hrows : (m.divideRow row d).rows = m.rows := rfl
  have hcols : (m.divideRow row d).cols = m.cols := rfl
  have hother : ∀ r, r < m.rows → r ≠ row →
      (RowSat (m.divideRow row d) r x ↔ RowSat m r x) := by
    intro r hr hne
    apply RowSat_of_v_eq hcols hc0
    intro c hc
    rw [v_divideRow m row d hlen hg hrow hdden hdnum hr hc, if_neg hne]
  have hrowiff : RowSat (m.divideRow row d) row x ↔ RowSat m row x := by
    unfold RowSat
    rw [hcols]
    have hv : ∀ c, c < m.cols → (m.divideRow row d).v row c = m.v row c / d.val := by
      intro c hc
      rw [v_divideRow m row d hlen hg hrow hdden hdnum hrow hc, if_pos rfl]
    rw [hv (m.cols - 1) (by omega)]
    have hsum : ∑ c ∈ Finset.range (m.cols - 1), (m.divideRow row d).v row c * x c
        = (∑ c ∈ Finset.range (m.cols - 1), m.v row c * x c) / d.val := by
      rw [← sum_div_mul]
      apply Finset.sum_congr rfl
      intro c hc
      rw [hv c (by rcases Finset.mem_range.mp hc with h2; omega)]
    rw [hsum]
    constructor
    · intro h
      field_simp at h
      exact h
    · intro h
      rw [h]
  constructor
  · intro hs r hr
    by_cases hne : r = row
    · subst hne
      exact hrowiff.mp (hs r (by rw [hrows]; exact hr))
    · exact (hother r hr hne).mp (hs r (by rw [hrows]; exact hr))
  · intro hs r hr
    rw [hrows] at hr
    by_cases hne : r = row
    · subst hne
      exact hrowiff.mpr (hs r hr)
    · exact (hother r hr hne).mpr (hs r hr)

theorem Sat_eliminateOthers (m : Matrix Fraction) (row lead : Nat)
    (hlen : m.data.length = m.rows * m.cols) (hg : GoodDen m)
    (hrow : row < m.rows) (hlead : lead < m.cols) (hc0 : 0 < m.cols)
    (x : Nat → ℚ) :
    Sat (m.eliminateOthers row lead) x ↔ Sat m x := by
  obtain ⟨hrows, hcols, _, _, hv⟩ := eliminateOthers_spec m row lead hlen hg hrow hlead
  have hvrow : ∀ c, c < m.cols → (m.eliminateOthers row lead).v row c = m.v row c := by
    intro c hc
    rw [hv row c hrow hc, if_pos rfl]
  have hrowiff : RowSat (m.eliminateOthers row lead) row x ↔ RowSat m row x :=
    RowSat_of_v_eq hcols hc0 hvrow x
  have hsum : ∀ j, j < m.rows → j ≠ row →
      (∑ c ∈ Finset.range (m.cols - 1), (m.eliminateOthers row lead).v j c * x c)
        = (∑ c ∈ Finset.range (m.cols - 1), m.v j c * x c)
          - m.v j lead * ∑ c ∈ Finset.range (m.cols - 1), m.v row c * x c := by
    intro j hj hne
    rw [← sum_sub_mul (m.cols - 1) (m.v j) (m.v row) x (m.v j lead)]
    apply Finset.sum_congr rfl
    intro c hc
    have hcc : c < m.cols := by rcases Finset.mem_range.mp hc with h2; omega
    rw [hv j c hj hcc, if_neg hne]
    ring
  have hrhs : ∀ j, j < m.rows → j ≠ row →
      (m.eliminateOthers row lead).v j (m.cols - 1)
        = m.v j (m.cols - 1) - m.v j lead * m.v row (m.cols - 1) := by
    intro j hj hne
    rw [hv j (m.cols - 1) hj (by omega), if_neg hne]
  constructor
  · intro hs r hr
    by_cases hne : r = row
    · subst hne
      exact hrowiff.mp (hs r (by rw [hrows]; exact hr))
    · have hrowsat : RowSat m row x :=
        hrowiff.mp (hs row (by rw [hrows]; exact hrow))
      have hj := hs r (by rw [hrows]; exact hr)
      unfold RowSat at hj ⊢
      rw [hcols, hsum r hr hne, hrhs r hr hne] at hj
      unfold RowSat at hrowsat
      rw [hrowsat] at hj
      linarith [hj]
  · intro hs r hr
    rw [hrows] at hr
    by_cases hne : r = row
    · subst hne
      exact hrowiff.mpr (hs r hr)
    · have hrowsat : RowSat m row x := hs row hrow
      have hj := hs r hr
      unfold RowSat at hj hrowsat ⊢
      rw [hcols, hsum r hr hne, hrhs r hr hne, hrowsat, hj]

theorem pivotVal_congr {m m' : Matrix Fraction} {r r' : Nat}
    (hcols : m'.cols = m.cols) (hv : ∀ c, c < m.cols → m'.v r' c = m.v r c) :
    pivotVal m' r' = pivotVal m r := by
  unfold pivotVal
  rw [hcols]
  apply find?_congr
  intro c hc
  rw [hv c (List.mem_range.mp hc)]

/-- Loop invariant of `rrefLoop`: the current matrix `mc` at outer position
(`row`, `lead`) relative to the starting matrix `m0`. -/
structure RrefInv (m0 mc : Matrix Fraction) (row lead : Nat) : Prop where
  rows_eq : mc.rows = m0.rows
  cols_eq : mc.cols = m0.cols
  len : mc.data.length = mc.rows * mc.cols
  good : GoodDen mc
  sat : ∀ x, Sat mc x ↔ Sat m0 x
  rowLe : row ≤ mc.rows
  leadLe : lead ≤ mc.cols
  zeros : ∀ r, row ≤ r → r < mc.rows → ∀ c, c < lead → mc.v r c = 0
  pivots : ∀ r, r < row → ∃ p, p < lead ∧ pivotVal mc r = some p ∧
    mc.v r p = 1 ∧ ∀ r', r' < mc.rows → r' ≠ r → mc.v r' p = 0
  mono : ∀ r1 r2 p1 p2, r1 < r2 → r2 < row →
    pivotVal mc r1 = some p1 → pivotVal mc r2 = some p2 → p1 < p2

/-- The output shape of the elimination: dimensions, store length and the
solution set are preserved, and there is a rank `k` such that rows `< k`
carry strictly-increasing unit pivot columns that are zero in every other
row, while rows `≥ k` are identically zero. -/
def IsRref (m0 mf : Matrix Fraction) : Prop :=
  mf.rows = m0.rows ∧ mf.cols = m0.cols ∧
  mf.data.length = mf.rows * mf.cols ∧ GoodDen mf ∧
  (∀ x, Sat mf x ↔ Sat m0 x) ∧
  ∃ k, k ≤ mf.rows ∧
    (∀ r, r < k → ∃ p, p < mf.cols ∧ pivotVal mf r = some p ∧
      mf.v r p = 1 ∧ ∀ r', r' < mf.rows → r' ≠ r → mf.v r' p = 0) ∧
    (∀ r1 r2 p1 p2, r1 < r2 → r2 < k →
      pivotVal mf r1 = some p1 → pivotVal mf r2 = some p2 → p1 < p2) ∧
    (∀ r, k ≤ r → r < mf.rows → ∀ c, c < mf.cols → mf.v r c = 0)

/-- One pass of the outer loop (swap in the pivot row, normalize it,
eliminate its column everywhere else) re-establishes the loop invariant at
`(row + 1, lead' + 1)`. -/
theorem rref_step (m0 mc : Matrix Fraction) (row lead i lead' : Nat)
    (inv : RrefInv m0 mc row lead)
    (hrow : row < mc.rows) (hlead : lead < mc.cols)
    (s1 : row ≤ i) (s2 : i < mc.rows) (s3 : lead ≤ lead') (s4 : lead' < mc.cols)
    (s5 : mc.v i lead' ≠ 0)
    (s6 : ∀ c, lead ≤ c → c < lead' → ∀ r, row ≤ r → r < mc.rows → mc.v r c = 0)
    (s7 : ∀ r, row ≤ r → r < i → mc.v r lead' = 0) :
    RrefInv m0 (((mc.swapRow i row).divideRow row
      ((mc.swapRow i row).get row lead')).eliminateOthers row lead')
      (row + 1) (lead' + 1) := by
  have hc0 : 0 < mc.cols := by omega
  -- stage 1: the row swap
  set m1 := mc.swapRow i row with hm1
  have h1rows : m1.rows = mc.rows := rows_swapRow mc i row
  have h1cols : m1.cols = mc.cols := cols_swapRow mc i row
  have h1len : m1.data.length = m1.rows * m1.cols := by
    rw [hm1, length_swapRow mc i row inv.len s2 hrow, h1rows, h1cols] at *
    exact inv.len
  have h1good : GoodDen m1 :=
    GoodDen_swapRow mc i row inv.len s2 hrow inv.good
  have hv1 : ∀ r c, r < mc.rows → c < mc.cols →
      m1.v r c = mc.v (if r = i then row else if r = row then i else r) c :=
    fun r c hr hc => v_swapRow mc i row inv.len s2 hrow hr hc
  have hσfix : ∀ r, r < row →
      (if r = i then row else if r = row then i else r) = r := by
    intro r hr
    rw [if_neg (by omega), if_neg (by omega)]
  have hσreg : ∀ r, row ≤ r → r < mc.rows →
      row ≤ (if r = i then row else if r = row then i else r) ∧
        (if r = i then row else if r = row then i else r) < mc.rows := by
    intro r h1 h2
    split
    · exact ⟨le_refl _, hrow⟩
    · split
      · exact ⟨s1, s2⟩
      · exact ⟨h1, h2⟩
  have hA : m1.v row lead' = mc.v i lead' := by
    rw [hv1 row lead' hrow s4]
    by_cases h : row = i
    · rw [if_pos h, h]
    · rw [if_neg h, if_pos rfl]
  have hA' : m1.v row lead' ≠ 0 := by rw [hA]; exact s5
  have hB : ∀ r c, row ≤ r → r < mc.rows → c < lead' → m1.v r c = 0 := by
    intro r c hr1 hr2 hcl
    rw [hv1 r c hr2 (by omega)]
    obtain ⟨hg1, hg2⟩ := hσreg r hr1 hr2
    rcases Nat.lt_or_ge c lead with hc | hc
    · exact inv.zeros _ hg1 hg2 c hc
    · exact s6 c hc hcl _ hg1 hg2
  have hC : ∀ r c, r < row → c < mc.cols → m1.v r c = mc.v r c := by
    intro r c hr hc
    rw [hv1 r c (by omega) hc, hσfix r hr]
  have h1sat : ∀ x, Sat m1 x ↔ Sat m0 x := fun x =>
    (Sat_swapRow mc i row inv.len s2 hrow hc0 x).trans (inv.sat x)
  -- stage 2: normalize the pivot row
  set d := m1.get row lead' with hd
  have hdden : d.denominator ≠ 0 :=
    h1good row lead' (by rw [h1rows]; exact hrow) (by rw [h1cols]; exact s4)
  have hdval : d.val = m1.v row lead' := rfl
  have hdnum : d.numerator ≠ 0 := by
    intro h
    exact hA' (by rw [← hdval] at *; exact (Fraction.val_eq_zero_iff hdden).mpr h)
  have hdvne : d.val ≠ 0 := by rw [hdval]; exact hA'
  set m2 := m1.divideRow row d with hm2
  have h2rows : m2.rows = mc.rows := h1rows
  have h2cols : m2.cols = mc.cols := h1cols
  have h2len : m2.data.length = m2.rows * m2.cols := by
    rw [hm2, length_divideRow m1 row d h1len (by rw [h1rows]; exact hrow)]
    exact h1len
  have h2good : GoodDen m2 :=
    GoodDen_divideRow m1 row d h1len h1good (by rw [h1rows]; exact hrow)
      hdden hdnum
  have hv2 : ∀ r c, r < mc.rows → c < mc.cols →
      m2.v r c = if r = row then m1.v r c / d.val else m1.v r c := by
    intro r c hr hc
    exact v_divideRow m1 row d h1len h1good (by rw [h1rows]; exact hrow)
      hdden hdnum (by rw [h1rows]; exact hr) (by rw [h1cols]; exact hc)
  have hF : m2.v row lead' = 1 := by
    rw [hv2 row lead' hrow s4, if_pos rfl, hdval, div_self hA']
  have hG : ∀ c, c < lead' → m2.v row c = 0 := by
    intro c hcl
    rw [hv2 row c hrow (by omega), if_pos rfl, hB row c (le_refl _) hrow hcl,
      zero_div]
  have hH : ∀ r c, r ≠ row → r < mc.rows → c < mc.cols → m2.v r c = m1.v r c := by
    intro r c hne hr hc
    rw [hv2 r c hr hc, if_neg hne]
  have h2sat : ∀ x, Sat m2 x ↔ Sat m0 x := fun x =>
    (Sat_divideRow m1 row d h1len h1good (by rw [h1rows]; exact hrow)
      hdden hdnum (by rw [h1cols]; exact hc0) x).trans (h1sat x)
  -- stage 3: eliminate the pivot column from all other rows
  obtain ⟨e1, e2, e3, e4, e5⟩ := eliminateOthers_spec m2 row lead' h2len h2good
    (by rw [h2rows]; exact hrow) (by rw [h2cols]; exact s4)
  set m3 := m2.eliminateOthers row lead' with hm3
  have h3rows : m3.rows = mc.rows := by rw [hm3, e1, h2rows]
  have h3cols : m3.cols = mc.cols := by rw [hm3, e2, h2cols]
  have h3len : m3.data.length = m3.rows * m3.cols := by
    rw [hm3, e3, e1, e2]
    exact h2len
  have h3good : GoodDen m3 := e4
  have hv3 : ∀ r c, r < mc.rows → c < mc.cols →
      m3.v r c = if r = row then m2.v r c
        else m2.v r c - m2.v r lead' * m2.v row c := by
    intro r c hr hc
    exact e5 r c (by rw [h2rows]; exact hr) (by rw [h2cols]; exact hc)
  have h3sat : ∀ x, Sat m3 x ↔ Sat m0 x := fun x =>
    (Sat_eliminateOthers m2 row lead' h2len h2good (by rw [h2rows]; exact hrow)
      (by rw [h2cols]; exact s4) (by rw [h2cols]; exact hc0) x).trans (h2sat x)
  -- value facts about m3
  have hz3 : ∀ r c, r ≠ row → r < mc.rows → c < lead' + 1 → row ≤ r →
      m3.v r c = 0 := by
    intro r c hne hr hcl hrge
    rw [hv3 r c hr (by omega), if_neg hne]
    rcases Nat.lt_or_ge c lead' with hc | hc
    · rw [hH r c hne hr (by omega), hB r c hrge hr hc, hG c hc]
      ring
    · have hceq : c = lead' := by omega
      subst hceq
      rw [hF]
      ring
  have hvrow3 : ∀ c, c < mc.cols → m3.v row c = m2.v row c := by
    intro c hc
    rw [hv3 row c hrow hc, if_pos rfl]
  have hnewpivot : pivotVal m3 row = some lead' := by
    rw [pivotVal_some_iff]
    refine ⟨by rw [h3cols]; exact s4, ?_, ?_⟩
    · rw [hvrow3 lead' s4, hF]
      norm_num
    · intro c hcl
      rw [hvrow3 c (by omega), hG c hcl]
  have hnewzero : ∀ r', r' < mc.rows → r' ≠ row → m3.v r' lead' = 0 := by
    intro r' hr' hne
    rw [hv3 r' lead' hr' s4, if_neg hne, hF]
    ring
  have holdkeep : ∀ r c, r < row → c < lead' → m3.v r c = mc.v r c := by
    intro r c hr hcl
    rw [hv3 r c (by omega) (by omega), if_neg (by omega), hG c hcl,
      hH r c (by omega) (by omega) (by omega), hC r c hr (by omega)]
    ring
  have holdpivot : ∀ r, r < row → ∃ p, p < lead ∧ pivotVal mc r = some p ∧
      pivotVal m3 r = some p ∧
      m3.v r p = 1 ∧ ∀ r', r' < mc.rows → r' ≠ r → m3.v r' p = 0 := by
    intro r hr
    obtain ⟨p, hp1, hp2, hp3, hp4⟩ := inv.pivots r hr
    obtain ⟨hpc, hpv, hppre⟩ := (pivotVal_some_iff mc r p).mp hp2
    refine ⟨p, hp1, hp2, ?_, ?_, ?_⟩
    · rw [pivotVal_some_iff]
      refine ⟨by rw [h3cols]; exact hpc, ?_, ?_⟩
      · rw [holdkeep r p hr (by omega), hp3]
        norm_num
      · intro c hcp
        rw [holdkeep r c hr (by omega)]
        exact hppre c hcp
    · rw [holdkeep r p hr (by omega)]
      exact hp3
    · intro r' hr' hne
      by_cases hrr : r' = row
      · subst hrr
        rw [hvrow3 p (by omega), hG p (by omega)]
      · rw [hv3 r' p hr' (by omega), if_neg hrr, hG p (by omega),
          hH r' p hrr hr' (by omega)]
        have hm1v : m1.v r' p = 0 := by
          rw [hv1 r' p hr' (by omega)]
          rcases Nat.lt_or_ge r' row with hcase | hcase
          · rw [hσfix r' hcase]
            exact hp4 r' hr' hne
          · obtain ⟨hg1, hg2⟩ := hσreg r' hcase hr'
            apply hp4 _ hg2
            omega
        rw [hm1v]
        ring
  -- assemble the invariant
  refine ⟨by rw [h3rows]; exact inv.rows_eq, by rw [h3cols]; exact inv.cols_eq,
    h3len, h3good, h3sat, by rw [h3rows]; omega, by rw [h3cols]; omega,
    ?_, ?_, ?_⟩
  · intro r hr1 hr2 c hc
    rw [h3rows] at hr2
    exact hz3 r c (by omega) hr2 hc (by omega)
  · intro r hr
    rcases Nat.lt_or_ge r row with hcase | hcase
    · obtain ⟨p, hp1, _, hp3, hp4, hp5⟩ := holdpivot r hcase
      refine ⟨p, by omega, hp3, hp4, ?_⟩
      intro r' hr' hne
      rw [h3rows] at hr'
      exact hp5 r' hr' hne
    · have hreq : r = row := by omega
      subst hreq
      refine ⟨lead', by omega, hnewpivot, ?_, ?_⟩
      · rw [hvrow3 lead' s4, hF]
      · intro r' hr' hne
        rw [h3rows] at hr'
        exact hnewzero r' hr' hne
  · intro r1 r2 p1 p2 h12 h2r hpv1 hpv2
    obtain ⟨q1, hq1lt, hq1mc, hq1m3, _, _⟩ := holdpivot r1 (by omega)
    rw [hpv1] at hq1m3
    rcases Option.some.inj hq1m3 with rfl
    rcases Nat.lt_or_ge r2 row with hcase | hcase
    · obtain ⟨q2, hq2lt, hq2mc, hq2m3, _, _⟩ := holdpivot r2 hcase
      rw [hpv2] at hq2m3
      rcases Option.some.inj hq2m3 with rfl
      exact inv.mono r1 r2 p1 p2 h12 hcase hq1mc hq2mc
    · have hreq : r2 = row := by omega
      subst hreq
      rw [hnewpivot] at hpv2
      rcases Option.some.inj hpv2 with rfl
      omega

theorem rrefLoop_spec : ∀ n (m0 mc : Matrix Fraction) (lead row : Nat),
    mc.rows - row ≤ n → RrefInv m0 mc row lead →
    ∀ mf, rrefLoop n mc lead row = some mf → IsRref m0 mf := by
  intro n
  induction n with
  | zero =>
    intro m0 mc lead row hn inv mf hres
    rw [rrefLoop] at hres
    rw [if_pos (by omega : mc.rows ≤ row)] at hres
    rcases Option.some.inj hres with rfl
    refine ⟨inv.rows_eq, inv.cols_eq, inv.len, inv.good, inv.sat,
      mc.rows, le_refl _, ?_, ?_, ?_⟩
    · intro r hr
      obtain ⟨p, hp1, hp2, hp3, hp4⟩ := inv.pivots r (by
        have := inv.rowLe
        omega)
      exact ⟨p, by have := inv.leadLe; omega, hp2, hp3, hp4⟩
    · intro r1 r2 p1 p2 h12 h2r hv1 hv2
      exact inv.mono r1 r2 p1 p2 h12 (by have := inv.rowLe; omega) hv1 hv2
    · intro r hr1 hr2
      omega
  | succ n ih =>
    intro m0 mc lead row hn inv mf hres
    rw [rrefLoop] at hres
    by_cases hrow : row < mc.rows
    · rw [if_pos hrow] at hres
      by_cases hlead : mc.cols ≤ lead
      · rw [if_pos hlead] at hres
        rcases Option.some.inj hres with rfl
        refine ⟨inv.rows_eq, inv.cols_eq, inv.len, inv.good, inv.sat,
          row, inv.rowLe, ?_, ?_, ?_⟩
        · intro r hr
          obtain ⟨p, hp1, hp2, hp3, hp4⟩ := inv.pivots r hr
          exact ⟨p, by have := inv.leadLe; omega, hp2, hp3, hp4⟩
        · intro r1 r2 p1 p2 h12 h2r hv1 hv2
          exact inv.mono r1 r2 p1 p2 h12 h2r hv1 hv2
        · intro r hr1 hr2 c hc
          exact inv.zeros r hr1 hr2 c (by omega)
      · rw [if_neg hlead] at hres
        have hlead' : lead < mf.cols ∨ True := Or.inr trivial
        rcases hps : pivotSearch mc row
            ((mc.cols - lead) * mc.rows + mc.rows + 1) row lead
          with _ | res2
        · rw [hps] at hres
          exact absurd hres (by simp)
        · rcases res2 with _ | ⟨i, lead'⟩
          · rw [hps] at hres
            rcases Option.some.inj hres with rfl
            obtain ⟨hnone, _⟩ := pivotSearch_spec mc row inv.len inv.good hrow
              _ row lead _ (le_refl _) hrow (by omega)
              (fun r _ hr => absurd hr (by omega)) hps
            have hzero := hnone rfl
            refine ⟨inv.rows_eq, inv.cols_eq, inv.len, inv.good, inv.sat,
              row, inv.rowLe, ?_, ?_, ?_⟩
            · intro r hr
              obtain ⟨p, hp1, hp2, hp3, hp4⟩ := inv.pivots r hr
              exact ⟨p, by have := inv.leadLe; omega, hp2, hp3, hp4⟩
            · intro r1 r2 p1 p2 h12 h2r hv1 hv2
              exact inv.mono r1 r2 p1 p2 h12 h2r hv1 hv2
            · intro r hr1 hr2 c hc
              rcases Nat.lt_or_ge c lead with hcase | hcase
              · exact inv.zeros r hr1 hr2 c hcase
              · exact hzero c hcase hc r hr1 hr2
          · rw [hps] at hres
            simp only at hres
            obtain ⟨_, hsome⟩ := pivotSearch_spec mc row inv.len inv.good hrow
              _ row lead _ (le_refl _) hrow (by omega)
              (fun r _ hr => absurd hr (by omega)) hps
            obtain ⟨g1, g2, g3, g4, g5, g6, g7⟩ := hsome i lead' rfl
            have hstep := rref_step m0 mc row lead i lead' inv hrow (by omega)
              g1 g2 g3 g4 g5 g6 g7
            apply ih m0 _ (lead' + 1) (row + 1) _ hstep mf hres
            have : (((mc.swapRow i row).divideRow row
                ((mc.swapRow i row).get row lead')).eliminateOthers
                  row lead').rows = mc.rows := hstep.rows_eq.trans inv.rows_eq.symm
            rw [this]
            omega
    · rw [if_neg hrow] at hres
      rcases Option.some.inj hres with rfl
      refine ⟨inv.rows_eq, inv.cols_eq, inv.len, inv.good, inv.sat,
        mc.rows, le_refl _, ?_, ?_, ?_⟩
      · intro r hr
        obtain ⟨p, hp1, hp2, hp3, hp4⟩ := inv.pivots r (by
          have := inv.rowLe
          omega)
        exact ⟨p, by have := inv.leadLe; omega, hp2, hp3, hp4⟩
      · intro r1 r2 p1 p2 h12 h2r hv1 hv2
        exact inv.mono r1 r2 p1 p2 h12 (by have := inv.rowLe; omega) hv1 hv2
      · intro r hr1 hr2
        omega

/-- The elimination starting from any well-formed matrix produces a reduced
row-echelon matrix with the same dimensions and solution set. -/
theorem reduced_row_echelon_form_spec (m : Matrix Fraction)
    (hlen : m.data.length = m.rows * m.cols) (hg : GoodDen m) :
    ∀ mf, m.reduced_row_echelon_form = some mf → IsRref m mf := by
  intro mf hres
  have inv0 : RrefInv m m 0 0 :=
    ⟨rfl, rfl, hlen, hg, fun _ => Iff.rfl, by omega, by omega,
      fun r _ _ c hc => by omega,
      fun r hr => by omega,
      fun r1 r2 p1 p2 h12 h2r _ _ => by omega⟩
  exact rrefLoop_spec m.rows m m 0 0 (by omega) inv0 mf hres

end Matrix

/-- C3: for every `Fraction` matrix with at least one row and one column,
backing store of length `rows × cols` and all denominators non-zero,
`reduced_row_echelon_form` returns a matrix in reduced row-echelon form:
every row that has a first non-zero entry (its pivot, `pivotVal` = the
value-level first non-zero column, which is what the code's
`find_pivot_column` computes) has pivot value exactly `1` — `Fraction`
equality in this code is value equality (`fracEq_iff_val`) — the pivot
column is zero in every other row, and the pivot lies strictly to the right
of the pivot of the row above. -/
theorem claim_C3_rref_correct (m : Matrix Fraction) (hr : 1 ≤ m.rows)
    (hc : 1 ≤ m.cols) (hlen : m.data.length = m.rows * m.cols)
    (hden : ∀ f ∈ m.data, f.denominator ≠ 0) :
    ∃ m', m.reduced_row_echelon_form = some m' ∧
      m'.rows = m.rows ∧ m'.cols = m.cols ∧
      ∀ r, r < m'.rows → ∀ p, Matrix.pivotVal m' r = some p →
        (m'.v r p = 1 ∧
         (∀ r', r' < m'.rows → r' ≠ r → m'.v r' p = 0) ∧
         (0 < r → ∃ p', Matrix.pivotVal m' (r - 1) = some p' ∧ p' < p)) := by
  have hg : Matrix.GoodDen m := Matrix.GoodDen_of_data m hden
  have hsome := Matrix.rrefLoop_isSome m.rows m 0 0 (by omega)
  rw [Option.isSome_iff_exists] at hsome
  obtain ⟨m', hm'⟩ := hsome
  have hres : m.reduced_row_echelon_form = some m' := hm'
  obtain ⟨hrows, hcols, hlen', hg', hsat, k, hk, hpiv, hmono, hzero⟩ :=
    Matrix.reduced_row_echelon_form_spec m hlen hg m' hres
  refine ⟨m', hres, hrows, hcols, ?_⟩
  intro r hrr p hp
  have hrk : r < k := by
    by_contra hge
    obtain ⟨hp1, hp2, _⟩ := (Matrix.pivotVal_some_iff m' r p).mp hp
    exact hp2 (hzero r (by omega) hrr p hp1)
  obtain ⟨q, hq1, hq2, hq3, hq4⟩ := hpiv r hrk
  rw [hp] at hq2
  rcases Option.some.inj hq2 with rfl
  refine ⟨hq3, hq4, ?_⟩
  intro hr0
  obtain ⟨q', _, hq2', _, _⟩ := hpiv (r - 1) (by omega)
  exact ⟨q', hq2', hmono (r - 1) r q' p (by omega) hrk hq2' hp⟩

/-- Witness for C3 at a concrete 2×3 fraction matrix. -/
theorem claim_C3_witness :
    ((1 : Nat) ≤ (Matrix.mk 2 3 [Fraction.new 0 1, Fraction.new 2 1,
        Fraction.new 4 1, Fraction.new 1 1, Fraction.new 1 1,
        Fraction.new 3 1] : Matrix Fraction).rows ∧
     (1 : Nat) ≤ (Matrix.mk 2 3 [Fraction.new 0 1, Fraction.new 2 1,
        Fraction.new 4 1, Fraction.new 1 1, Fraction.new 1 1,
        Fraction.new 3 1] : Matrix Fraction).cols ∧
     (Matrix.mk 2 3 [Fraction.new 0 1, Fraction.new 2 1, Fraction.new 4 1,
        Fraction.new 1 1, Fraction.new 1 1, Fraction.new 3 1]
          : Matrix Fraction).data.length = 2 * 3 ∧
     (∀ f ∈ (Matrix.mk 2 3 [Fraction.new 0 1, Fraction.new 2 1,
        Fraction.new 4 1, Fraction.new 1 1, Fraction.new 1 1,
        Fraction.new 3 1] : Matrix Fraction).data, f.denominator ≠ 0)) ∧
    (∃ m', (Matrix.mk 2 3 [Fraction.new 0 1, Fraction.new 2 1,
        Fraction.new 4 1, Fraction.new 1 1, Fraction.new 1 1,
        Fraction.new 3 1] : Matrix Fraction).reduced_row_echelon_form = some m' ∧
      m'.rows = 2 ∧ m'.cols = 3 ∧
      ∀ r, r < m'.rows → ∀ p, Matrix.pivotVal m' r = some p →
        (m'.v r p = 1 ∧
         (∀ r', r' < m'.rows → r' ≠ r → m'.v r' p = 0) ∧
         (0 < r → ∃ p', Matrix.pivotVal m' (r - 1) = some p' ∧ p' < p))) :=
  ⟨⟨by decide, by decide, by decide, by decide⟩,
    claim_C3_rref_correct _ (by decide) (by decide) (by decide) (by decide)⟩

/-- C6 counterexample: on the 2×2 matrix with store `[10, 11, 12, 13]`, the
access `get(0, 2)` has `col ≥ cols`, yet it is not rejected: it silently
reads the element stored at position `(1, 0)` (both resolve to flat index 2),
and the out-of-range write `set(0, 2, 99)` silently overwrites position
`(1, 0)`. Accesses are checked only against the flat store length, not
per-coordinate. -/
theorem claim_C6_counterexample :
    (Matrix.mk 2 2 [10, 11, 12, 13] : Matrix Nat).get? 0 2 = some 12 ∧
      (Matrix.mk 2 2 [10, 11, 12, 13] : Matrix Nat).get 1 0 = 12 ∧
      (Matrix.mk 2 2 [10, 11, 12, 13] : Matrix Nat).cols ≤ 2 ∧
      ((Matrix.mk 2 2 [10, 11, 12, 13] : Matrix Nat).set 0 2 99).get 1 0 = 99 := by
  refine ⟨rfl, rfl, by decide, rfl⟩

/-- C6 (amended): `get`/`set` index the backing store at the flat offset
`row * cols + col` and are bounds-checked only against the store's total
length (`get?` fails exactly when the flat index reaches the length); an
out-of-range column whose flat index is still in range therefore silently
aliases a different `(row, col)` position. For in-range coordinates the
accessors are faithful: `get?` succeeds, `set` updates exactly the addressed
cell and leaves all other in-range cells unchanged; the store length equals
`rows × cols` after `new` and is preserved by `set`. -/
theorem claim_C6_flat_indexing {α : Type} [Inhabited α] (rows cols : Nat)
    (m : Matrix α) (r c : Nat) (v : α)
    (hlen : m.data.length = m.rows * m.cols)
    (hr : r < m.rows) (hc : c < m.cols) :
    ((Matrix.new rows cols : Matrix α).data.length = rows * cols) ∧
    ((m.set r c v).data.length = m.rows * m.cols) ∧
    (∀ r' c', m.get? r' c' = none ↔ m.data.length ≤ r' * m.cols + c') ∧
    (m.get? r c = some (m.get r c)) ∧
    ((m.set r c v).get r c = v) ∧
    (∀ r' c', r' < m.rows → c' < m.cols → ¬(r' = r ∧ c' = c) →
      (m.set r c v).get r' c' = m.get r' c') := by
  refine ⟨by simp [Matrix.new], by simp [hlen], ?_, ?_, ?_, ?_⟩
  · intro r' c'
    rw [Matrix.get?, List.getElem?_eq_none_iff]
  · rw [Matrix.get?, Matrix.getElem?_get m hlen hr hc]
  · rw [Matrix.get_set m hlen v hr hc hr hc, if_pos ⟨rfl, rfl⟩]
  · intro r' c' hr' hc' hne
    rw [Matrix.get_set m hlen v hr hc hr' hc', if_neg hne]

/-- Embedding of `struct CartesianProductIterator { max, current, done }`. -/
structure CartesianProductIterator where
  max : Nat
  current : List Nat
  done : Bool

namespace CartesianProductIterator

/-- `CartesianProductIterator::new(max, length)`. -/
def new (max length : Nat) : CartesianProductIterator :=
  ⟨max, List.replicate length 0, false⟩

/-- The odometer step inside `next`: Rust scans indices from the last to the
first; the rightmost coordinate below `max` is incremented and every later
coordinate zeroed; `none` when every coordinate equals `max` (the scan falls
through). -/
def odoIncr (max : Nat) : List Nat → Option (List Nat)
  | [] => none
  | x :: xs =>
    match odoIncr max xs with
    | some xs' => some (x :: xs')
    | none => if x < max then some ((x + 1) :: xs.map fun _ => 0) else none

/-- `Iterator::next`: emit the current tuple and advance, or set `done`. -/
def next (s : CartesianProductIterator) :
    Option (List Nat) × CartesianProductIterator :=
  if s.done then (none, s)
  else
    match odoIncr s.max s.current with
    | some c' => (some s.current, { s with current := c' })
    | none => (some s.current, { s with done := true })

/-- Drain the iterator with explicit fuel (the Rust `for` loop runs until
`next` returns `None`). -/
def run : Nat → CartesianProductIterator → List (List Nat)
  | 0, _ => []
  | fuel + 1, s =>
    match s.next with
    | (none, _) => []
    | (some t, s') => t :: run fuel s'

/-- All tuples of length `k` over `[0, max]`, in odometer order (first
coordinate slowest): the enumeration the spec describes. -/
def allTuples (max : Nat) : Nat → List (List Nat)
  | 0 => [[]]
  | k + 1 =>
    (List.range (max + 1)).flatMap fun d => (allTuples max k).map (d :: ·)

/-- Mixed-radix value of a tuple (its position in odometer order). -/
def odoVal (max : Nat) : List Nat → Nat
  | [] => 0
  | x :: xs => x * (max + 1) ^ xs.length + odoVal max xs

theorem length_allTuples (m : Nat) : ∀ k, (allTuples m k).length = (m + 1) ^ k := by
  intro k
  induction k with
  | zero => rfl
  | succ k ih =>
    show ((List.range (m + 1)).flatMap
      fun d => (allTuples m k).map (d :: ·)).length = (m + 1) ^ (k + 1)
    rw [List.length_flatMap]
    have : ∀ d, ((allTuples m k).map (d :: ·)).length = (m + 1) ^ k := by
      intro d; rw [List.length_map, ih]
    calc (List.map (fun d => ((allTuples m k).map (d :: ·)).length)
          (List.range (m + 1))).sum
        = (List.map (fun _ => (m + 1) ^ k) (List.range (m + 1))).sum := by
          congr 1
          exact List.map_congr_left fun d _ => this d
      _ = (m + 1) * (m + 1) ^ k := by
          rw [List.map_const', List.sum_replicate, List.length_range, smul_eq_mul]
      _ = (m + 1) ^ (k + 1) := by ring

theorem mem_allTuples (m : Nat) : ∀ k t,
    t ∈ allTuples m k ↔ t.length = k ∧ ∀ x ∈ t, x ≤ m := by
  intro k
  induction k with
  | zero =>
    intro t
    constructor
    · intro h
      rcases List.mem_singleton.mp h with rfl
      exact ⟨rfl, by simp⟩
    · intro ⟨h1, _⟩
      rw [List.length_eq_zero] at h1
      simp [allTuples, h1]
  | succ k ih =>
    intro t
    show t ∈ (List.range (m + 1)).flatMap
      (fun d => (allTuples m k).map (d :: ·)) ↔ _
    rw [List.mem_flatMap]
    constructor
    · rintro ⟨d, hd, ht⟩
      rcases List.mem_map.mp ht with ⟨t', ht', rfl⟩
      obtain ⟨hl, hb⟩ := (ih t').mp ht'
      refine ⟨by simp [hl], ?_⟩
      intro x hx
      rcases List.mem_cons.mp hx with rfl | hx
      · exact Nat.lt_succ_iff.mp (List.mem_range.mp hd)
      · exact hb x hx
    · rintro ⟨hl, hb⟩
      match t with
      | [] => simp at hl
      | d :: t' =>
        refine ⟨d, List.mem_range.mpr (Nat.lt_succ_of_le
          (hb d (List.mem_cons_self _ _))), ?_⟩
        refine List.mem_map.mpr ⟨t', (ih t').mpr ⟨by simpa using hl, ?_⟩, rfl⟩
        intro x hx
        exact hb x (List.mem_cons_of_mem _ hx)

theorem nodup_allTuples (m : Nat) : ∀ k, (allTuples m k).Nodup := by
  intro k
  induction k with
  | zero => simp [allTuples]
  | succ k ih =>
    show ((List.range (m + 1)).flatMap
      fun d => (allTuples m k).map (d :: ·)).Nodup
    rw [List.nodup_flatMap]
    constructor
    · intro d _
      exact ih.map (fun a b h => by injection h)
    · have hdis : ∀ (a b : Nat), a ≠ b →
          (List.Disjoint ((allTuples m k).map (a :: ·))
            ((allTuples m k).map (b :: ·))) := by
        intro a b hne t hta htb
        rcases List.mem_map.mp hta with ⟨t1, _, rfl⟩
        rcases List.mem_map.mp htb with ⟨t2, _, he⟩
        injection he with h1 _
        exact hne h1.symm
      exact (List.pairwise_lt_range (m + 1)).imp
        fun {a b} hab => hdis a b (Nat.ne_of_lt hab)

theorem odoVal_lt (m : Nat) : ∀ xs : List Nat, (∀ x ∈ xs, x ≤ m) →
    odoVal m xs < (m + 1) ^ xs.length := by
  intro xs
  induction xs with
  | nil => intro _; simp [odoVal]
  | cons x xs ih =>
    intro hb
    have hx : x ≤ m := hb x (List.mem_cons_self _ _)
    have hxs := ih fun y hy => hb y (List.mem_cons_of_mem _ hy)
    show x * (m + 1) ^ xs.length + odoVal m xs < (m + 1) ^ (xs.length + 1)
    calc x * (m + 1) ^ xs.length + odoVal m xs
        < x * (m + 1) ^ xs.length + (m + 1) ^ xs.length := by omega
      _ = (x + 1) * (m + 1) ^ xs.length := by ring
      _ ≤ (m + 1) * (m + 1) ^ xs.length :=
          Nat.mul_le_mul_right _ (by omega)
      _ = (m + 1) ^ (xs.length + 1) := by ring

theorem odoVal_maxed (m : Nat) : ∀ xs : List Nat, (∀ x ∈ xs, x = m) →
    odoVal m xs = (m + 1) ^ xs.length - 1 := by
  intro xs
  induction xs with
  | nil => intro _; simp [odoVal]
  | cons x xs ih =>
    intro hb
    have hx : x = m := hb x (List.mem_cons_self _ _)
    have hxs := ih fun y hy => hb y (List.mem_cons_of_mem _ hy)
    show x * (m + 1) ^ xs.length + odoVal m xs = (m + 1) ^ (xs.length + 1) - 1
    have hpos : 1 ≤ (m + 1) ^ xs.length := Nat.one_le_pow _ _ (by omega)
    have he : (m + 1) ^ (xs.length + 1) = (m + 1) * (m + 1) ^ xs.length := by
      ring
    rw [hx, hxs, he]
    have : m * (m + 1) ^ xs.length + ((m + 1) ^ xs.length - 1)
        = (m + 1) * (m + 1) ^ xs.length - 1 := by
      have h2 : m * (m + 1) ^ xs.length + (m + 1) ^ xs.length
          = (m + 1) * (m + 1) ^ xs.length := by ring
      omega
    exact this

theorem odoIncr_none_iff (m : Nat) : ∀ xs : List Nat, (∀ x ∈ xs, x ≤ m) →
    (odoIncr m xs = none ↔ ∀ x ∈ xs, x = m) := by
  intro xs
  induction xs with
  | nil => intro _; simp [odoIncr]
  | cons x xs ih =>
    intro hb
    have hx : x ≤ m := hb x (List.mem_cons_self _ _)
    have hxs := ih fun y hy => hb y (List.mem_cons_of_mem _ hy)
    show (match odoIncr m xs with
      | some xs' => some (x :: xs')
      | none => if x < m then some ((x + 1) :: xs.map fun _ => 0) else none)
        = none ↔ _
    rcases hrec : odoIncr m xs with _ | xs'
    · simp only
      split
      · next hlt =>
        simp only [reduceCtorEq, false_iff]
        intro hc
        exact absurd (hc x (List.mem_cons_self _ _)) (by omega)
      · next hlt =>
        have hxm : x = m := by omega
        simp only [true_iff]
        intro y hy
        rcases List.mem_cons.mp hy with rfl | hy
        · exact hxm
        · exact (hxs.mp hrec) y hy
    · simp only [reduceCtorEq, false_iff]
      intro hc
      have : odoIncr m xs = none := hxs.mpr fun y hy =>
        hc y (List.mem_cons_of_mem _ hy)
      rw [hrec] at this
      exact absurd this (by simp)

theorem odoVal_zeros (m : Nat) {β : Type} : ∀ l : List β,
    odoVal m (l.map fun _ => 0) = 0 := by
  intro l
  induction l with
  | nil => rfl
  | cons a as ihz =>
    show 0 * (m + 1) ^ (as.map fun _ => 0).length + odoVal m (as.map fun _ => 0) = 0
    rw [ihz]
    ring

theorem odoIncr_some_spec (m : Nat) : ∀ xs xs' : List Nat,
    (∀ x ∈ xs, x ≤ m) → odoIncr m xs = some xs' →
    xs'.length = xs.length ∧ (∀ x ∈ xs', x ≤ m) ∧
      odoVal m xs' = odoVal m xs + 1 := by
  intro xs
  induction xs with
  | nil => intro xs' _ h; simp [odoIncr] at h
  | cons x xs ih =>
    intro xs' hb h
    have hx : x ≤ m := hb x (List.mem_cons_self _ _)
    have hball : ∀ y ∈ xs, y ≤ m := fun y hy => hb y (List.mem_cons_of_mem _ hy)
    rw [show odoIncr m (x :: xs) = (match odoIncr m xs with
      | some xs2 => some (x :: xs2)
      | none => if x < m then some ((x + 1) :: xs.map fun _ => 0) else none)
      from rfl] at h
    rcases hrec : odoIncr m xs with _ | xs2
    · rw [hrec] at h
      simp only at h
      split at h
      · next hlt =>
        rcases Option.some.inj h with rfl
        have hmax : ∀ y ∈ xs, y = m := (odoIncr_none_iff m xs hball).mp hrec
        refine ⟨by simp, ?_, ?_⟩
        · intro y hy
          rcases List.mem_cons.mp hy with rfl | hy
          · omega
          · rcases List.mem_map.mp hy with ⟨_, _, rfl⟩
            omega
        · show (x + 1) * (m + 1) ^ (xs.map fun _ => 0).length
              + odoVal m (xs.map fun _ => 0)
            = x * (m + 1) ^ xs.length + odoVal m xs + 1
          rw [odoVal_zeros m xs, List.length_map,
            odoVal_maxed m xs hmax]
          have hpos : 1 ≤ (m + 1) ^ xs.length := Nat.one_le_pow _ _ (by omega)
          have : (x + 1) * (m + 1) ^ xs.length
              = x * (m + 1) ^ xs.length + (m + 1) ^ xs.length := by ring
          omega
      · exact absurd h (by simp)
    · rw [hrec] at h
      simp only at h
      rcases Option.some.inj h with rfl
      obtain ⟨hl, hbb, hv⟩ := ih xs2 hball hrec
      refine ⟨by simp [hl], ?_, ?_⟩
      · intro y hy
        rcases List.mem_cons.mp hy with rfl | hy
        · exact hx
        · exact hbb y hy
      · show x * (m + 1) ^ xs2.length + odoVal m xs2
            = x * (m + 1) ^ xs.length + odoVal m xs + 1
        rw [hl, hv]
        omega

theorem getElem?_flatMap_range {β : Type} (f : Nat → List β) (L : Nat)
    (hL : ∀ d, (f d).length = L) :
    ∀ n i, i < n * L →
      ((List.range n).flatMap f)[i]? = (f (i / L))[i % L]? := by
  intro n
  induction n with
  | zero => intro i hi; omega
  | succ n ih =>
    intro i hi
    have hLpos : 0 < L := by
      rcases Nat.eq_zero_or_pos L with h0 | h0
      · subst h0
        rw [Nat.mul_zero] at hi
        omega
      · exact h0
    rw [List.range_succ, List.flatMap_append]
    have hlen : ((List.range n).flatMap f).length = n * L := by
      rw [List.length_flatMap]
      have hmap : List.map (List.length ∘ f) (List.range n)
          = List.map (fun _ => L) (List.range n) :=
        List.map_congr_left fun d _ => hL d
      rw [hmap, List.map_const', List.sum_replicate, List.length_range,
        smul_eq_mul]
    by_cases hcase : i < n * L
    · rw [List.getElem?_append_left (by rw [hlen]; exact hcase)]
      exact ih i hcase
    · rw [List.getElem?_append_right (by rw [hlen]; omega), hlen]
      have hdiv : i / L = n := Nat.div_eq_of_lt_le (by omega) (by
        calc i < (n + 1) * L := hi
          _ = (n + 1) * L := rfl)
      have hmod : i % L = i - n * L := by
        have h1 : i = n * L + (i - n * L) := by omega
        have h2 : i - n * L < L := by
          have : (n + 1) * L = n * L + L := by ring
          omega
        conv_lhs => rw [h1]
        rw [Nat.mul_add_mod' n L _]
        exact Nat.mod_eq_of_lt h2
      rw [hdiv, hmod]
      simp [List.flatMap_singleton]

theorem getElem?_allTuples (m : Nat) : ∀ xs : List Nat, (∀ x ∈ xs, x ≤ m) →
    (allTuples m xs.length)[odoVal m xs]? = some xs := by
  intro xs
  induction xs with
  | nil => intro _; rfl
  | cons x xs ih =>
    intro hb
    have hx : x ≤ m := hb x (List.mem_cons_self _ _)
    have hball : ∀ y ∈ xs, y ≤ m := fun y hy => hb y (List.mem_cons_of_mem _ hy)
    have hvlt : odoVal m xs < (m + 1) ^ xs.length := odoVal_lt m xs hball
    show ((List.range (m + 1)).flatMap
        fun d => (allTuples m xs.length).map (d :: ·))[odoVal m (x :: xs)]?
      = some (x :: xs)
    have hL : ∀ d, ((allTuples m xs.length).map (d :: ·)).length
        = (m + 1) ^ xs.length := by
      intro d
      rw [List.length_map, length_allTuples]
    have hval : odoVal m (x :: xs)
        = x * (m + 1) ^ xs.length + odoVal m xs := rfl
    have hbound : odoVal m (x :: xs) < (m + 1) * (m + 1) ^ xs.length := by
      rw [hval]
      calc x * (m + 1) ^ xs.length + odoVal m xs
          < x * (m + 1) ^ xs.length + (m + 1) ^ xs.length := by omega
        _ = (x + 1) * (m + 1) ^ xs.length := by ring
        _ ≤ (m + 1) * (m + 1) ^ xs.length := Nat.mul_le_mul_right _ (by omega)
    rw [getElem?_flatMap_range _ ((m + 1) ^ xs.length) hL (m + 1) _ hbound]
    have hpow : 0 < (m + 1) ^ xs.length := Nat.one_le_pow _ _ (by omega)
    have hdiv : odoVal m (x :: xs) / (m + 1) ^ xs.length = x := by
      rw [hval, Nat.mul_comm x, Nat.mul_add_div hpow, Nat.div_eq_of_lt hvlt]
      omega
    have hmod : odoVal m (x :: xs) % (m + 1) ^ xs.length = odoVal m xs := by
      rw [hval, Nat.mul_add_mod' x _ _, Nat.mod_eq_of_lt hvlt]
    rw [hdiv, hmod, List.getElem?_map, ih hball]
    rfl

theorem run_done (m : Nat) (c : List Nat) :
    ∀ fuel, run fuel ⟨m, c, true⟩ = [] := by
  intro fuel
  cases fuel with
  | zero => rfl
  | succ fuel => rfl

/-- Running the iterator from any live state emits exactly the lexicographic
tail of the full enumeration, provided enough fuel. -/
theorem run_from (m : Nat) : ∀ fuel (xs : List Nat), (∀ x ∈ xs, x ≤ m) →
    (m + 1) ^ xs.length - odoVal m xs ≤ fuel →
    run fuel ⟨m, xs, false⟩ = (allTuples m xs.length).drop (odoVal m xs) := by
  intro fuel
  induction fuel with
  | zero =>
    intro xs hb hf
    have := odoVal_lt m xs hb
    omega
  | succ fuel ih =>
    intro xs hb hf
    have hvlt : odoVal m xs < (m + 1) ^ xs.length := odoVal_lt m xs hb
    have hgl : (allTuples m xs.length).drop (odoVal m xs)
        = xs :: (allTuples m xs.length).drop (odoVal m xs + 1) := by
      have hlt : odoVal m xs < (allTuples m xs.length).length := by
        rw [length_allTuples]; exact hvlt
      rw [List.drop_eq_getElem_cons hlt]
      congr 1
      have h1 := getElem?_allTuples m xs hb
      have h2 := List.getElem?_eq_getElem hlt
      rw [h1] at h2
      exact (Option.some.inj h2).symm
    show (match next ⟨m, xs, false⟩ with
      | (none, _) => []
      | (some t, s') => t :: run fuel s') = _
    rw [show next ⟨m, xs, false⟩ = (match odoIncr m xs with
      | some c' => (some xs, ⟨m, c', false⟩)
      | none => (some xs, ⟨m, xs, true⟩)) from rfl]
    rcases hrec : odoIncr m xs with _ | xs'
    · simp only
      rw [run_done, hgl]
      have hmax : ∀ x ∈ xs, x = m := (odoIncr_none_iff m xs hb).mp hrec
      have hvm : odoVal m xs = (m + 1) ^ xs.length - 1 := odoVal_maxed m xs hmax
      have : (allTuples m xs.length).drop (odoVal m xs + 1) = [] := by
        apply List.drop_eq_nil_of_le
        rw [length_allTuples]
        omega
      rw [this]
    · simp only
      obtain ⟨hl, hbb, hv⟩ := odoIncr_some_spec m xs xs' hb hrec
      rw [hgl]
      congr 1
      have := ih xs' hbb (by rw [hl, hv]; omega)
      rw [this, hl, hv]

theorem odoVal_replicate_zero (m : Nat) : ∀ k, odoVal m (List.replicate k 0) = 0 := by
  intro k
  induction k with
  | zero => rfl
  | succ k ih =>
    show 0 * (m + 1) ^ (List.replicate k 0).length + odoVal m (List.replicate k 0) = 0
    rw [ih]
    ring

end CartesianProductIterator

/-- C7: for every `max` and tuple length `k`, the iterator started at
`new max k` yields exactly `(max+1)^k` tuples before returning `None` (with
any sufficient fuel the drained output is the same full list `allTuples`):
every tuple of length `k` with coordinates in `[0, max]` is produced exactly
once (the output is duplicate-free and its membership is exactly those
tuples), in odometer order — the order of `allTuples`, where the last
coordinate increments first and carries leftwards on overflow. -/
theorem claim_C7_cartesian_product (m k fuel : Nat)
    (hfuel : (m + 1) ^ k + 1 ≤ fuel) :
    CartesianProductIterator.run fuel (CartesianProductIterator.new m k)
      = CartesianProductIterator.allTuples m k ∧
    (CartesianProductIterator.allTuples m k).length = (m + 1) ^ k ∧
    (CartesianProductIterator.allTuples m k).Nodup ∧
    (∀ t, t ∈ CartesianProductIterator.allTuples m k ↔
      t.length = k ∧ ∀ x ∈ t, x ≤ m) := by
  refine ⟨?_, CartesianProductIterator.length_allTuples m k,
    CartesianProductIterator.nodup_allTuples m k,
    CartesianProductIterator.mem_allTuples m k⟩
  show CartesianProductIterator.run fuel ⟨m, List.replicate k 0, false⟩ = _
  have hz := CartesianProductIterator.odoVal_replicate_zero m k
  have h := CartesianProductIterator.run_from m fuel (List.replicate k 0)
    (by intro x hx; rcases List.eq_of_mem_replicate hx with rfl; omega)
    (by rw [hz, List.length_replicate]; omega)
  rw [h, hz, List.length_replicate, List.drop_zero]

/-- Witness for C7 at `max = 1`, `k = 2`, fuel 5. -/
theorem claim_C7_witness :
    ((1 + 1) ^ 2 + 1 ≤ 5) ∧
      (CartesianProductIterator.run 5 (CartesianProductIterator.new 1 2)
        = CartesianProductIterator.allTuples 1 2 ∧
      (CartesianProductIterator.allTuples 1 2).length = (1 + 1) ^ 2 ∧
      (CartesianProductIterator.allTuples 1 2).Nodup ∧
      (∀ t, t ∈ CartesianProductIterator.allTuples 1 2 ↔
        t.length = 2 ∧ ∀ x ∈ t, x ≤ 1)) :=
  ⟨by decide, claim_C7_cartesian_product 1 2 5 (by decide)⟩

/-- Witness for C6 (amended) at a concrete 2×2 natural-number matrix. -/
theorem claim_C6_witness :
    ((Matrix.mk 2 2 [1, 2, 3, 4] : Matrix Nat).data.length
        = (Matrix.mk 2 2 [1, 2, 3, 4] : Matrix Nat).rows
          * (Matrix.mk 2 2 [1, 2, 3, 4] : Matrix Nat).cols
      ∧ (0 : Nat) < (Matrix.mk 2 2 [1, 2, 3, 4] : Matrix Nat).rows
      ∧ (1 : Nat) < (Matrix.mk 2 2 [1, 2, 3, 4] : Matrix Nat).cols) ∧
    (((Matrix.new 3 4 : Matrix Nat).data.length = 3 * 4) ∧
    (((Matrix.mk 2 2 [1, 2, 3, 4] : Matrix Nat).set 0 1 7).data.length
        = (Matrix.mk 2 2 [1, 2, 3, 4] : Matrix Nat).rows
          * (Matrix.mk 2 2 [1, 2, 3, 4] : Matrix Nat).cols) ∧
    (∀ r' c', (Matrix.mk 2 2 [1, 2, 3, 4] : Matrix Nat).get? r' c' = none ↔
      (Matrix.mk 2 2 [1, 2, 3, 4] : Matrix Nat).data.length
        ≤ r' * (Matrix.mk 2 2 [1, 2, 3, 4] : Matrix Nat).cols + c') ∧
    ((Matrix.mk 2 2 [1, 2, 3, 4] : Matrix Nat).get? 0 1
        = some ((Matrix.mk 2 2 [1, 2, 3, 4] : Matrix Nat).get 0 1)) ∧
    (((Matrix.mk 2 2 [1, 2, 3, 4] : Matrix Nat).set 0 1 7).get 0 1 = 7) ∧
    (∀ r' c', r' < (Matrix.mk 2 2 [1, 2, 3, 4] : Matrix Nat).rows →
      c' < (Matrix.mk 2 2 [1, 2, 3, 4] : Matrix Nat).cols →
      ¬(r' = 0 ∧ c' = 1) →
      ((Matrix.mk 2 2 [1, 2, 3, 4] : Matrix Nat).set 0 1 7).get r' c'
        = (Matrix.mk 2 2 [1, 2, 3, 4] : Matrix Nat).get r' c')) :=
  ⟨⟨by decide, by decide, by decide⟩,
    claim_C6_flat_indexing 3 4 (Matrix.mk 2 2 [1, 2, 3, 4]) 0 1 7
      (by decide) (by decide) (by decide)⟩

/-- Embedding of `struct Machine`. `expected_state` takes part only in a
debug print of part 2; `expected_joltage` embeds the `[u16; 10]` array as a
list (always of length 10 in Rust), read with default 0. -/
structure Machine where
  bit_count : Nat
  expected_state : Nat
  buttons : List Nat
  expected_joltage : List Nat

/-- Rust panics of `find_min_clicks_to_setup_joltage`, surfaced as errors. -/
inductive SolveError
  | panicJoltageIndex
  | panicColsU8
  | panicFuel
  | panicIntify
  | panicIndex
  | panicNoSolution
  | panicNegative
  deriving DecidableEq, Repr

/-- Building the augmented matrix: coefficient 1 at `(row, col)` when button
`col` toggles bit `row` (`button.0 & (1 << row) != 0`), and the expected
joltage in the last column. -/
def buildMatrix (machine : Machine) : Matrix Fraction :=
  let rows := machine.bit_count
  let cols := machine.buttons.length + 1
  let m0 : Matrix Fraction := Matrix.new rows cols
  let m1 := machine.buttons.enum.foldl
    (fun acc cb =>
      ((List.range rows).reverse).foldl
        (fun acc2 row =>
          if Nat.testBit cb.2 row then acc2.set row cb.1 Fraction.one else acc2)
        acc)
    m0
  (List.range rows).foldl
    (fun acc row =>
      acc.set row (cols - 1)
        (Fraction.ofNat (machine.expected_joltage.getD row 0)))
    m1

/-- The `free_vars` computation: start from all coefficient columns and
`retain` those that are no row's pivot column. -/
def computeFreeVars (x : Matrix Fraction) (rows cols : Nat) : List Nat :=
  (List.range rows).foldl
    (fun fv row =>
      match x.find_pivot_column row with
      | some col => fv.filter (fun c => c ≠ col)
      | none => fv)
    (List.range (cols - 1))

/-- The per-row body of the candidate validation loop `(0..rows).all(..)`,
threading the working solution vector. `.ok none` models `return false`
(candidate rejected); errors model panics (the write `solution[col] = value`
is index-checked like the Rust `Vec` indexing). -/
def candidateRows (x : Matrix Fraction) (cols : Nat) :
    List Nat → List Int → Except SolveError (Option (List Int))
  | [], sol => .ok (some sol)
  | row :: rest, sol =>
    match x.find_pivot_column row with
    | none => candidateRows x cols rest sol
    | some col =>
      let val0 := x.get row (cols - 1)
      let val1 := (List.range (cols - 1)).foldl
        (fun v j =>
          if j ≠ col then
            v.sub ((x.get row j).mul (Fraction.ofInt (sol.getD j 0)))
          else v)
        val0
      let val2 := val1.simplify
      if val2.numerator < 0 then .ok none
      else
        match val2.simplify.intify with
        | .ok value =>
          if col < sol.length then candidateRows x cols rest (sol.set col value)
          else .error .panicIndex
        | .error _ => .ok none

/-- One candidate of the bounded search: place the assignment at the free
columns, then solve every pivot row by back-substitution. -/
def evalCandidate (x : Matrix Fraction) (rows cols : Nat) (free_vars : List Nat)
    (assignments : List Nat) : Except SolveError (Option (List Int)) :=
  let sol0 := free_vars.enum.foldl
    (fun (sol : List Int) iv => sol.set iv.2 (Int.ofNat (assignments.getD iv.1 0)))
    (List.replicate (cols - 1) 0)
  candidateRows x cols (List.range rows) sol0

/-- The free-variable search: enumerate every assignment in
`[0, max_rhs]^(free count)` with the odometer iterator, keep the best
(minimum-sum) accepted candidate (`i32::MAX` sentinel), and panic with
"No solution found" when none was accepted. -/
def searchPath (machine : Machine) (x : Matrix Fraction) (rows cols : Nat)
    (free_vars : List Nat) : Except SolveError Nat := do
  let max_rhs := machine.expected_joltage.foldl max 0
  let tuples := CartesianProductIterator.run
    ((max_rhs + 1) ^ free_vars.length + 1)
    (CartesianProductIterator.new max_rhs free_vars.length)
  let best ← tuples.foldlM
    (fun (best : Option (List Int) × Int) t => do
      match ← evalCandidate x rows cols free_vars t with
      | none => pure best
      | some sol =>
        let sum : Int := sol.foldl (· + ·) 0
        if sum < best.2 then pure (some sol, sum) else pure best)
    ((none : Option (List Int)), (2147483647 : Int))
  match best.1 with
  | none => .error .panicNoSolution
  | some _ => if best.2 < 0 then .error .panicNegative else .ok best.2.toNat

/-- The unique-solution path (no free variables): read each pivot row's RHS,
`simplify().intify().unwrap()` it into the solution vector, and return the
sum (negative sums make `usize::try_from` panic). -/
def uniquePath (x : Matrix Fraction) (rows cols : Nat) :
    Except SolveError Nat := do
  let sol ← (List.range rows).foldlM
    (fun (sol : List Int) row =>
      match x.find_pivot_column row with
      | none => pure sol
      | some col =>
        match (x.get row (cols - 1)).simplify.intify with
        | .ok value =>
          if col < sol.length then pure (sol.set col value)
          else Except.error SolveError.panicIndex
        | .error _ => Except.error SolveError.panicIntify)
    (List.replicate (cols - 1) (0 : Int))
  let sum : Int := sol.foldl (· + ·) 0
  if sum < 0 then .error .panicNegative else pure sum.toNat

/-- Embedding of `find_min_clicks_to_setup_joltage`. The two leading guards
model the Rust panics that would occur for machines whose shape the Rust
types cannot process (`expected_joltage[row]` with `row ≥ 10`; `cols` not
representable as `u8`). -/
def find_min_clicks_to_setup_joltage (machine : Machine) :
    Except SolveError Nat :=
  if 10 < machine.bit_count then .error .panicJoltageIndex
  else if 255 ≤ machine.buttons.length then .error .panicColsU8
  else
    let rows := machine.bit_count
    let cols := machine.buttons.length + 1
    match (buildMatrix machine).reduced_row_echelon_form with
    | none => .error .panicFuel
    | some x =>
      let free_vars := computeFreeVars x rows cols
      if free_vars.isEmpty then uniquePath x rows cols
      else searchPath machine x rows cols free_vars

theorem foldl_inv {α β : Type} (f : α → β → α) (P : α → Prop)
    (hf : ∀ acc b, P acc → P (f acc b)) :
    ∀ (l : List β) (acc : α), P acc → P (l.foldl f acc) := by
  intro l
  induction l with
  | nil => intro acc h; exact h
  | cons b bs ih =>
    intro acc h
    exact ih (f acc b) (hf acc b h)

theorem data_den_set (m : Matrix Fraction) (r c : Nat) (w : Fraction)
    (h : ∀ g ∈ m.data, g.denominator ≠ 0) (hw : w.denominator ≠ 0) :
    ∀ g ∈ (m.set r c w).data, g.denominator ≠ 0 := by
  intro g hg
  rcases List.mem_or_eq_of_mem_set hg with hmem | rfl
  · exact h g hmem
  · exact hw

/-- Basic shape of the built matrix: `bit_count × (buttons+1)`, exact store
length, all denominators legal. -/
theorem buildMatrix_basic (machine : Machine) :
    (buildMatrix machine).rows = machine.bit_count ∧
    (buildMatrix machine).cols = machine.buttons.length + 1 ∧
    (buildMatrix machine).data.length
      = (buildMatrix machine).rows * (buildMatrix machine).cols ∧
    Matrix.GoodDen (buildMatrix machine) := by
  set R := machine.bit_count with hR
  set C := machine.buttons.length + 1 with hC
  set P : Matrix Fraction → Prop := fun m =>
    m.rows = R ∧ m.cols = C ∧ m.data.length = R * C ∧
      ∀ g ∈ m.data, g.denominator ≠ 0 with hP
  have hset : ∀ (m : Matrix Fraction) r c (w : Fraction),
      w.denominator ≠ 0 → P m → P (m.set r c w) := by
    intro m r c w hw ⟨h1, h2, h3, h4⟩
    exact ⟨h1, h2, by rw [Matrix.length_set]; exact h3,
      data_den_set m r c w h4 hw⟩
  have h0 : P (Matrix.new R C : Matrix Fraction) := by
    refine ⟨rfl, rfl, by simp [Matrix.new], ?_⟩
    intro g hg
    rcases List.eq_of_mem_replicate hg with rfl
    simp [default]
  have h1 : P (machine.buttons.enum.foldl
      (fun acc cb =>
        ((List.range R).reverse).foldl
          (fun acc2 row =>
            if Nat.testBit cb.2 row then acc2.set row cb.1 Fraction.one
            else acc2)
          acc)
      (Matrix.new R C)) := by
    apply foldl_inv _ P
    · intro acc cb hacc
      apply foldl_inv _ P
      · intro acc2 row h2
        split
        · exact hset acc2 row cb.1 Fraction.one (by simp [Fraction.one, Fraction.new]) h2
        · exact h2
      · exact hacc
    · exact h0
  have h2 : P (buildMatrix machine) := by
    show P ((List.range R).foldl
      (fun acc row =>
        acc.set row (C - 1)
          (Fraction.ofNat (machine.expected_joltage.getD row 0))) _)
    apply foldl_inv _ P
    · intro acc row hacc
      exact hset acc row (C - 1) _ (by simp [Fraction.ofNat, Fraction.new]) hacc
    · exact h1
  obtain ⟨g1, g2, g3, g4⟩ := h2
  exact ⟨g1, g2, by rw [g3, g1, g2], Matrix.GoodDen_of_data _ g4⟩

/-- The free variables of a machine's reduced system. -/
def freeVarsOf (machine : Machine) : List Nat :=
  match (buildMatrix machine).reduced_row_echelon_form with
  | none => []
  | some x =>
    computeFreeVars x machine.bit_count (machine.buttons.length + 1)

/-- The reduced matrix of a machine (total form; the reduction always
succeeds by `rrefLoop_isSome`). -/
def rrefOf (machine : Machine) : Matrix Fraction :=
  ((buildMatrix machine).reduced_row_echelon_form).getD (buildMatrix machine)

theorem rrefOf_eq (machine : Machine) :
    (buildMatrix machine).reduced_row_echelon_form = some (rrefOf machine) := by
  have h := Matrix.rrefLoop_isSome (buildMatrix machine).rows
    (buildMatrix machine) 0 0 (by omega)
  rw [Option.isSome_iff_exists] at h
  obtain ⟨m', hm'⟩ := h
  have he : (buildMatrix machine).reduced_row_echelon_form = some m' := hm'
  rw [rrefOf, he]
  rfl

theorem foldlM_const {ε β α : Type} (step : β → α → Except ε β) :
    ∀ (ts : List α) (b : β), (∀ t ∈ ts, ∀ acc, step acc t = .ok acc) →
      ts.foldlM step b = .ok b := by
  intro ts
  induction ts with
  | nil => intro b _; rfl
  | cons t ts ih =>
    intro b h
    rw [List.foldlM_cons, h t (List.mem_cons_self _ _) b]
    show List.foldlM step b ts = .ok b
    exact ih b fun t' ht' acc => h t' (List.mem_cons_of_mem _ ht') acc

/-- If every enumerated candidate is rejected, the search panics with
"No solution found". -/
theorem searchPath_all_rejected (machine : Machine) (x : Matrix Fraction)
    (rows cols : Nat) (free_vars : List Nat)
    (hrej : ∀ t ∈ CartesianProductIterator.run
        ((machine.expected_joltage.foldl max 0 + 1) ^ free_vars.length + 1)
        (CartesianProductIterator.new (machine.expected_joltage.foldl max 0)
          free_vars.length),
      evalCandidate x rows cols free_vars t = .ok none) :
    searchPath machine x rows cols free_vars = .error .panicNoSolution := by
  simp only [searchPath]
  have hfold := foldlM_const
    (fun (best : Option (List Int) × Int) t => do
      match ← evalCandidate x rows cols free_vars t with
      | none => pure best
      | some sol =>
        let sum : Int := sol.foldl (· + ·) 0
        if sum < best.2 then pure (some sol, sum) else pure best)
    (CartesianProductIterator.run
      ((machine.expected_joltage.foldl max 0 + 1) ^ free_vars.length + 1)
      (CartesianProductIterator.new (machine.expected_joltage.foldl max 0)
        free_vars.length))
    ((none : Option (List Int)), (2147483647 : Int))
    (by
      intro t ht acc
      show (evalCandidate x rows cols free_vars t >>= fun r =>
        match r with
        | none => pure acc
        | some sol =>
          let sum : Int := sol.foldl (· + ·) 0
          if sum < acc.2 then pure (some sol, sum) else pure acc) = .ok acc
      rw [hrej t ht]
      rfl)
  rw [hfold]
  rfl

/-- `v` is an assignment of non-negative integer activation counts to the
buttons that exactly satisfies every joltage equation of the machine. -/
def IsSolution (machine : Machine) (v : List Nat) : Prop :=
  v.length = machine.buttons.length ∧
  ∀ r, r < machine.bit_count →
    (∑ j ∈ Finset.range machine.buttons.length,
      (if Nat.testBit (machine.buttons.getD j 0) r then v.getD j 0 else 0))
      = machine.expected_joltage.getD r 0


/-- A machine whose search phase rejects every candidate: three buttons with
wirings `{bit0,bit1}`, `{bit0}`, `{bit0}` and target joltage `0` on bit 0 and
`5` on bit 1 force `x1 + x2 + x3 = 0` and `x1 = 5`, so every back-substituted
dependent value is negative. -/
def exhaustedMachine : Machine :=
  ⟨2, 0, [3, 1, 1], [0, 5, 0, 0, 0, 0, 0, 0, 0, 0]⟩

/-- C2 counterexample: on `exhaustedMachine` the reduced system has a free
variable and every candidate in the bounded enumeration is rejected, yet the
solver does not return a recoverable "no solution" value: it hits
`panic!("No solution found")` (modelled as the `panicNoSolution` error),
which unwinds and aborts the whole batch run in Rust. -/
theorem claim_C2_counterexample :
    freeVarsOf exhaustedMachine ≠ [] ∧
    (∀ t ∈ CartesianProductIterator.run
        ((exhaustedMachine.expected_joltage.foldl max 0 + 1)
          ^ (freeVarsOf exhaustedMachine).length + 1)
        (CartesianProductIterator.new
          (exhaustedMachine.expected_joltage.foldl max 0)
          (freeVarsOf exhaustedMachine).length),
      evalCandidate (rrefOf exhaustedMachine) exhaustedMachine.bit_count
        (exhaustedMachine.buttons.length + 1) (freeVarsOf exhaustedMachine) t
        = .ok none) ∧
    find_min_clicks_to_setup_joltage exhaustedMachine
      = .error SolveError.panicNoSolution := by
  refine ⟨by decide, by decide, by rfl⟩

/-- C2 (amended): when every candidate of the bounded free-variable
enumeration is rejected, the solver does not return a numeric answer or a
recoverable error value: it panics with "No solution found"
(`best_solution.is_none()` → `panic!`), aborting the batch driver. -/
theorem claim_C2_exhausted_search_panics (machine : Machine)
    (x : Matrix Fraction)
    (hb : machine.bit_count ≤ 10) (hbl : machine.buttons.length < 255)
    (hx : (buildMatrix machine).reduced_row_echelon_form = some x)
    (hfv : computeFreeVars x machine.bit_count (machine.buttons.length + 1)
      ≠ [])
    (hrej : ∀ t ∈ CartesianProductIterator.run
        ((machine.expected_joltage.foldl max 0 + 1)
          ^ (computeFreeVars x machine.bit_count
              (machine.buttons.length + 1)).length + 1)
        (CartesianProductIterator.new (machine.expected_joltage.foldl max 0)
          (computeFreeVars x machine.bit_count
            (machine.buttons.length + 1)).length),
      evalCandidate x machine.bit_count (machine.buttons.length + 1)
        (computeFreeVars x machine.bit_count (machine.buttons.length + 1)) t
        = .ok none) :
    find_min_clicks_to_setup_joltage machine
      = .error SolveError.panicNoSolution := by
  unfold find_min_clicks_to_setup_joltage
  rw [if_neg (show ¬ 10 < machine.bit_count by omega),
    if_neg (show ¬ 255 ≤ machine.buttons.length by omega), hx]
  show (if (computeFreeVars x machine.bit_count
      (machine.buttons.length + 1)).isEmpty = true
    then uniquePath x machine.bit_count (machine.buttons.length + 1)
    else searchPath machine x machine.bit_count (machine.buttons.length + 1)
      (computeFreeVars x machine.bit_count (machine.buttons.length + 1)))
    = .error SolveError.panicNoSolution
  rw [if_neg (by
    rw [List.isEmpty_iff]
    exact hfv)]
  exact searchPath_all_rejected machine x machine.bit_count
    (machine.buttons.length + 1)
    (computeFreeVars x machine.bit_count (machine.buttons.length + 1)) hrej

/-- Witness for C2 (amended) at `exhaustedMachine`. -/
theorem claim_C2_witness :
    (exhaustedMachine.bit_count ≤ 10 ∧ exhaustedMachine.buttons.length < 255 ∧
      (buildMatrix exhaustedMachine).reduced_row_echelon_form
        = some (rrefOf exhaustedMachine) ∧
      computeFreeVars (rrefOf exhaustedMachine) exhaustedMachine.bit_count
        (exhaustedMachine.buttons.length + 1) ≠ []) ∧
    find_min_clicks_to_setup_joltage exhaustedMachine
      = .error SolveError.panicNoSolution :=
  ⟨⟨by decide, by decide, by rfl, by decide⟩,
    claim_C2_exhausted_search_panics exhaustedMachine (rrefOf exhaustedMachine)
      (by decide) (by decide) (by rfl) (by decide) (by decide)⟩

/-- Value of the back-substitution accumulator: starting from the RHS entry,
the loop subtracts `entry × solution[j]` over the coefficient columns
`j ≠ col`. -/
theorem candidateFold_spec (x : Matrix Fraction) (row col : Nat)
    (sol : List Int) (hlen : x.data.length = x.rows * x.cols)
    (hg : Matrix.GoodDen x) (hrow : row < x.rows) :
    ∀ n, n ≤ x.cols → ∀ init : Fraction, init.denominator ≠ 0 →
      (((List.range n).foldl
        (fun v j =>
          if j ≠ col then
            v.sub ((x.get row j).mul (Fraction.ofInt (sol.getD j 0)))
          else v) init).denominator ≠ 0 ∧
      ((List.range n).foldl
        (fun v j =>
          if j ≠ col then
            v.sub ((x.get row j).mul (Fraction.ofInt (sol.getD j 0)))
          else v) init).val
        = init.val - ∑ j ∈ Finset.range n,
            (if j ≠ col then x.v row j * ((sol.getD j 0 : Int) : ℚ) else 0)) := by
  intro n
  induction n with
  | zero =>
    intro _ init hinit
    simp [hinit]
  | succ n ih =>
    intro hn init hinit
    obtain ⟨ih1, ih2⟩ := ih (by omega) init hinit
    rw [List.range_succ, List.foldl_append, List.foldl_cons, List.foldl_nil]
    by_cases hcol : n ≠ col
    · rw [if_pos hcol]
      have hgetden : (x.get row n).denominator ≠ 0 :=
        Matrix.den_get x hlen hg row n
      have hofden : (Fraction.ofInt (sol.getD n 0)).denominator ≠ 0 := by
        simp [Fraction.ofInt, Fraction.new]
      have hmul := Fraction.val_mul hgetden hofden
      have hsub := Fraction.val_sub ih1 hmul.2
      refine ⟨hsub.2, ?_⟩
      rw [hsub.1, hmul.1, ih2, Finset.sum_range_succ, if_pos hcol]
      have : (Fraction.ofInt (sol.getD n 0)).val = ((sol.getD n 0 : Int) : ℚ) :=
        Fraction.val_ofInt _
      rw [this]
      show init.val - _ - Matrix.v x row n * _ = _
      ring
    · rw [if_neg hcol]
      refine ⟨ih1, ?_⟩
      rw [ih2, Finset.sum_range_succ, if_neg hcol]
      ring

theorem sol0_length (cols : Nat) (free_vars assignments : List Nat) :
    (free_vars.enum.foldl
      (fun (sol : List Int) iv =>
        sol.set iv.2 (Int.ofNat (assignments.getD iv.1 0)))
      (List.replicate (cols - 1) 0)).length = cols - 1 := by
  apply foldl_inv _ (fun sol : List Int => sol.length = cols - 1)
  · intro acc b h
    rw [List.length_set]
    exact h
  · simp

/-- On a row whose pivot is the RHS column (`cols - 1`), the back-substitution
loop over a solution vector of length `cols - 1` can only reject the candidate
or panic on the out-of-range write `solution[cols - 1]`. -/
theorem candidateRows_bad (x : Matrix Fraction) (cols : Nat) (r : Nat)
    (hpiv : x.find_pivot_column r = some (cols - 1)) :
    ∀ (l : List Nat) (sol : List Int), r ∈ l → sol.length = cols - 1 →
      candidateRows x cols l sol = .ok none ∨
        ∃ e, candidateRows x cols l sol = .error e := by
  intro l
  induction l with
  | nil => intro sol h; exact absurd h (by simp)
  | cons row rest ih =>
    intro sol hmem hsol
    by_cases hrr : row = r
    · subst hrr
      set F := (List.range (cols - 1)).foldl
        (fun v j =>
          if j ≠ cols - 1 then
            v.sub ((x.get row j).mul (Fraction.ofInt (sol.getD j 0)))
          else v) (x.get row (cols - 1)) with hF
      by_cases hneg : F.simplify.numerator < 0
      · left
        simp only [candidateRows, hpiv, ← hF]
        rw [if_pos hneg]
      · rcases hint : F.simplify.simplify.intify with e | value
        · left
          simp only [candidateRows, hpiv, ← hF]
          rw [if_neg hneg, hint]
        · right
          refine ⟨SolveError.panicIndex, ?_⟩
          simp only [candidateRows, hpiv, ← hF]
          rw [if_neg hneg]
          simp only [hint]
          rw [if_neg (by omega : ¬ cols - 1 < sol.length)]
    · have hmem' : r ∈ rest := by
        rcases List.mem_cons.mp hmem with h | h
        · exact absurd h.symm hrr
        · exact h
      rcases hp : x.find_pivot_column row with _ | col
      · simp only [candidateRows, hp]
        exact ih sol hmem' hsol
      · set F := (List.range (cols - 1)).foldl
          (fun v j =>
            if j ≠ col then
              v.sub ((x.get row j).mul (Fraction.ofInt (sol.getD j 0)))
            else v) (x.get row (cols - 1)) with hF
        by_cases hneg : F.simplify.numerator < 0
        · left
          simp only [candidateRows, hp, ← hF]
          rw [if_pos hneg]
        · rcases hint : F.simplify.simplify.intify with e | value
          · left
            simp only [candidateRows, hp, ← hF]
            rw [if_neg hneg, hint]
          · by_cases hcl : col < sol.length
            · have hrec := ih (sol.set col value) hmem'
                (by rw [List.length_set]; exact hsol)
              simp only [candidateRows, hp, ← hF]
              rw [if_neg hneg]
              simp only [hint]
              rw [if_pos hcl]
              exact hrec
            · right
              refine ⟨SolveError.panicIndex, ?_⟩
              simp only [candidateRows, hp, ← hF]
              rw [if_neg hneg]
              simp only [hint]
              rw [if_neg hcl]

/-- On a matrix with an RHS-column pivot row, the back-substitution fold of
the unique-solution path always fails: either `intify` (the `.unwrap()`
panic) or the out-of-range write `solution[cols - 1]`. -/
theorem uniquePath_fold_bad (x : Matrix Fraction) (cols : Nat) (r : Nat)
    (hpiv : x.find_pivot_column r = some (cols - 1)) :
    ∀ (l : List Nat) (sol : List Int), r ∈ l → sol.length = cols - 1 →
      ∃ e, (l.foldlM
        (fun (sol : List Int) row =>
          match x.find_pivot_column row with
          | none => pure sol
          | some col =>
            match (x.get row (cols - 1)).simplify.intify with
            | .ok value =>
              if col < sol.length then pure (sol.set col value)
              else Except.error SolveError.panicIndex
            | .error _ => Except.error SolveError.panicIntify) sol)
        = .error e := by
  intro l
  induction l with
  | nil => intro sol h; exact absurd h (by simp)
  | cons row rest ih =>
    intro sol hmem hsol
    rw [List.foldlM_cons]
    by_cases hrr : row = r
    · subst hrr
      rcases hint : (x.get row (cols - 1)).simplify.intify with e | value
      · refine ⟨SolveError.panicIntify, ?_⟩
        simp only [hpiv, hint]
        rfl
      · refine ⟨SolveError.panicIndex, ?_⟩
        simp only [hpiv, hint]
        rw [if_neg (by omega : ¬ cols - 1 < sol.length)]
        rfl
    · have hmem' : r ∈ rest := by
        rcases List.mem_cons.mp hmem with h | h
        · exact absurd h.symm hrr
        · exact h
      rcases hp : x.find_pivot_column row with _ | col
      · obtain ⟨e, he⟩ := ih sol hmem' hsol
        refine ⟨e, ?_⟩
        simp only [hp]
        exact he
      · rcases hint : (x.get row (cols - 1)).simplify.intify with e | value
        · refine ⟨SolveError.panicIntify, ?_⟩
          simp only [hp, hint]
          rfl
        · by_cases hcl : col < sol.length
          · obtain ⟨e, he⟩ := ih (sol.set col value) hmem'
              (by rw [List.length_set]; exact hsol)
            refine ⟨e, ?_⟩
            simp only [hp, hint]
            rw [if_pos hcl]
            exact he
          · refine ⟨SolveError.panicIndex, ?_⟩
            simp only [hp, hint]
            rw [if_neg hcl]
            rfl

/-- Wrapper: an RHS-column pivot row makes the whole unique-solution path
fail. -/
theorem uniquePath_bad (x : Matrix Fraction) (rows cols : Nat) (r : Nat)
    (hr : r < rows) (hc0 : 0 < cols)
    (hpiv : x.find_pivot_column r = some (cols - 1)) :
    ∃ e, uniquePath x rows cols = .error e := by
  obtain ⟨e, he⟩ := uniquePath_fold_bad x cols r hpiv (List.range rows)
    (List.replicate (cols - 1) 0) (List.mem_range.mpr hr)
    (List.length_replicate _ _)
  refine ⟨e, ?_⟩
  unfold uniquePath
  rw [he]
  rfl

/-- A fold over `Except` whose every step either leaves the accumulator
untouched or fails ends with the initial accumulator or a failure. -/
theorem foldlM_frozen_or_error {ε α β : Type} (step : β → α → Except ε β) :
    ∀ (ts : List α) (b : β),
      (∀ t ∈ ts, ∀ acc, step acc t = .ok acc ∨ ∃ e, step acc t = .error e) →
      ts.foldlM step b = .ok b ∨ ∃ e, ts.foldlM step b = .error e := by
  intro ts
  induction ts with
  | nil => intro b _; exact Or.inl rfl
  | cons t ts ih =>
    intro b h
    rw [List.foldlM_cons]
    rcases h t (List.mem_cons_self _ _) b with hok | ⟨e, he⟩
    · rw [hok]
      show ts.foldlM step b = .ok b ∨ ∃ e, ts.foldlM step b = .error e
      exact ih b fun t' ht' acc => h t' (List.mem_cons_of_mem _ ht') acc
    · right
      refine ⟨e, ?_⟩
      rw [he]
      rfl

/-- If every enumerated candidate is rejected or fails, the search path
fails: with a panic inside a candidate, or with "No solution found" when
all were rejected. -/
theorem searchPath_bad (machine : Machine) (x : Matrix Fraction)
    (rows cols : Nat) (free_vars : List Nat)
    (hcand : ∀ t ∈ CartesianProductIterator.run
        ((machine.expected_joltage.foldl max 0 + 1) ^ free_vars.length + 1)
        (CartesianProductIterator.new (machine.expected_joltage.foldl max 0)
          free_vars.length),
      evalCandidate x rows cols free_vars t = .ok none ∨
        ∃ e, evalCandidate x rows cols free_vars t = .error e) :
    ∃ e, searchPath machine x rows cols free_vars = .error e := by
  have hfold := foldlM_frozen_or_error
    (fun (best : Option (List Int) × Int) t => do
      match ← evalCandidate x rows cols free_vars t with
      | none => pure best
      | some sol =>
        let sum : Int := sol.foldl (· + ·) 0
        if sum < best.2 then pure (some sol, sum) else pure best)
    (CartesianProductIterator.run
      ((machine.expected_joltage.foldl max 0 + 1) ^ free_vars.length + 1)
      (CartesianProductIterator.new (machine.expected_joltage.foldl max 0)
        free_vars.length))
    ((none : Option (List Int)), (2147483647 : Int))
    (by
      intro t ht acc
      rcases hcand t ht with hok | ⟨e, he⟩
      · left
        show (evalCandidate x rows cols free_vars t >>= fun r =>
          match r with
          | none => pure acc
          | some sol =>
            let sum : Int := sol.foldl (· + ·) 0
            if sum < acc.2 then pure (some sol, sum) else pure acc) = .ok acc
        rw [hok]
        rfl
      · right
        refine ⟨e, ?_⟩
        show (evalCandidate x rows cols free_vars t >>= fun r =>
          match r with
          | none => pure acc
          | some sol =>
            let sum : Int := sol.foldl (· + ·) 0
            if sum < acc.2 then pure (some sol, sum) else pure acc) = .error e
        rw [he]
        rfl)
  rcases hfold with hok | ⟨e, he⟩
  · refine ⟨SolveError.panicNoSolution, ?_⟩
    simp only [searchPath]
    rw [hok]
    rfl
  · refine ⟨e, ?_⟩
    simp only [searchPath]
    rw [he]
    rfl

/-- A machine whose system is infeasible through an inconsistent row: one
button wired only to bit 1, but joltage target `5` demanded on bit 0. After
elimination, row 1 is `[0 | 1]`: zero coefficients, non-zero right-hand
side. -/
def inconsistentMachine : Machine :=
  ⟨2, 0, [2], [5, 0, 0, 0, 0, 0, 0, 0, 0, 0]⟩

/-- C4 counterexample: on `inconsistentMachine` the reduced matrix has the
inconsistent row `[0 | 1]` (zero button coefficient, RHS 1), yet the solver
does not report the instance as unsatisfiable: `find_pivot_column` also
scans the RHS column, so the row's "pivot" is the RHS column and the
back-substitution writes at `solution[cols - 1]`, one past the end — an
index-out-of-bounds panic (modelled as the `panicIndex` error). -/
theorem claim_C4_counterexample :
    ((rrefOf inconsistentMachine).v 1 0 = 0 ∧
      (rrefOf inconsistentMachine).v 1 1 ≠ 0) ∧
    find_min_clicks_to_setup_joltage inconsistentMachine
      = .error SolveError.panicIndex := by
  refine ⟨⟨?_, ?_⟩, by rfl⟩
  · show ((rrefOf inconsistentMachine).get 1 0).val = 0
    rw [show (rrefOf inconsistentMachine).get 1 0 = ⟨0, 5⟩ from rfl]
    norm_num [Fraction.val]
  · show ((rrefOf inconsistentMachine).get 1 1).val ≠ 0
    rw [show (rrefOf inconsistentMachine).get 1 1 = ⟨5, 5⟩ from rfl]
    norm_num [Fraction.val]

/-- C4 (amended): on an instance whose reduced system has a row with
all-zero button coefficients and a non-zero right-hand side, the solver
never silently returns a (wrong) numeric answer — but it does not report
unsatisfiability either: it always panics. `find_pivot_column` (which scans
the RHS column too) returns the RHS column as that row's pivot, and the
back-substitution then panics writing `solution[cols - 1]` (or unwrapping a
non-integer RHS), on both the unique-solution and the search path. -/
theorem claim_C4_infeasible_row_panics (machine : Machine)
    (x : Matrix Fraction) (r : Nat)
    (hb : machine.bit_count ≤ 10) (hbl : machine.buttons.length < 255)
    (hx : (buildMatrix machine).reduced_row_echelon_form = some x)
    (hr : r < machine.bit_count)
    (hzero : ∀ c, c < machine.buttons.length → x.v r c = 0)
    (hrhs : x.v r machine.buttons.length ≠ 0) :
    ∃ e, find_min_clicks_to_setup_joltage machine = .error e := by
  obtain ⟨hbR, hbC, hbL, hbG⟩ := buildMatrix_basic machine
  obtain ⟨hxR, hxC, hxL, hxG, hsat, hrank⟩ :=
    Matrix.reduced_row_echelon_form_spec (buildMatrix machine) hbL hbG x hx
  have hpivv : Matrix.pivotVal x r = some machine.buttons.length := by
    rw [Matrix.pivotVal_some_iff]
    refine ⟨?_, hrhs, hzero⟩
    rw [hxC, hbC]
    omega
  have hpiv : x.find_pivot_column r
      = some (machine.buttons.length + 1 - 1) := by
    rw [Matrix.find_pivot_column_eq_pivotVal x hxL hxG r]
    exact hpivv
  unfold find_min_clicks_to_setup_joltage
  rw [if_neg (show ¬ 10 < machine.bit_count by omega),
    if_neg (show ¬ 255 ≤ machine.buttons.length by omega), hx]
  show ∃ e, (if (computeFreeVars x machine.bit_count
      (machine.buttons.length + 1)).isEmpty = true
    then uniquePath x machine.bit_count (machine.buttons.length + 1)
    else searchPath machine x machine.bit_count (machine.buttons.length + 1)
      (computeFreeVars x machine.bit_count (machine.buttons.length + 1)))
    = .error e
  by_cases hfv : (computeFreeVars x machine.bit_count
      (machine.buttons.length + 1)).isEmpty = true
  · rw [if_pos hfv]
    exact uniquePath_bad x machine.bit_count (machine.buttons.length + 1) r
      hr (by omega) hpiv
  · rw [if_neg hfv]
    apply searchPath_bad
    intro t ht
    have heval : evalCandidate x machine.bit_count
        (machine.buttons.length + 1)
        (computeFreeVars x machine.bit_count (machine.buttons.length + 1)) t
        = candidateRows x (machine.buttons.length + 1)
          (List.range machine.bit_count)
          ((computeFreeVars x machine.bit_count
              (machine.buttons.length + 1)).enum.foldl
            (fun (sol : List Int) iv =>
              sol.set iv.2 (Int.ofNat (t.getD iv.1 0)))
            (List.replicate (machine.buttons.length + 1 - 1) 0)) := rfl
    rw [heval]
    exact candidateRows_bad x (machine.buttons.length + 1) r hpiv
      (List.range machine.bit_count) _ (List.mem_range.mpr hr)
      (sol0_length (machine.buttons.length + 1) _ t)

/-- Witness for C4 (amended) at `inconsistentMachine`, row 1. -/
theorem claim_C4_witness :
    (inconsistentMachine.bit_count ≤ 10 ∧
      inconsistentMachine.buttons.length < 255 ∧
      (buildMatrix inconsistentMachine).reduced_row_echelon_form
        = some (rrefOf inconsistentMachine) ∧
      1 < inconsistentMachine.bit_count ∧
      (rrefOf inconsistentMachine).v 1 0 = 0 ∧
      (rrefOf inconsistentMachine).v 1 1 ≠ 0) ∧
    ∃ e, find_min_clicks_to_setup_joltage inconsistentMachine = .error e :=
  ⟨⟨by decide, by decide, by rfl, by decide,
    by
      show ((rrefOf inconsistentMachine).get 1 0).val = 0
      rw [show (rrefOf inconsistentMachine).get 1 0 = ⟨0, 5⟩ from rfl]
      norm_num [Fraction.val],
    by
      show ((rrefOf inconsistentMachine).get 1 1).val ≠ 0
      rw [show (rrefOf inconsistentMachine).get 1 1 = ⟨5, 5⟩ from rfl]
      norm_num [Fraction.val]⟩,
    claim_C4_infeasible_row_panics inconsistentMachine
      (rrefOf inconsistentMachine) 1 (by decide) (by decide) (by rfl)
      (by decide)
      (fun c hc => by
        rw [show inconsistentMachine.buttons.length = 1 from rfl,
          Nat.lt_one_iff] at hc
        subst hc
        show ((rrefOf inconsistentMachine).get 1 0).val = 0
        rw [show (rrefOf inconsistentMachine).get 1 0 = ⟨0, 5⟩ from rfl]
        norm_num [Fraction.val])
      (by
        show ((rrefOf inconsistentMachine).get 1
          inconsistentMachine.buttons.length).val ≠ 0
        rw [show (rrefOf inconsistentMachine).get 1
          inconsistentMachine.buttons.length = ⟨5, 5⟩ from rfl]
        norm_num [Fraction.val])⟩

/- Supporting lemmas for the minimality analysis of the search path. -/

theorem get_new {α : Type} [Inhabited α] (R C r c : Nat) :
    (Matrix.new R C : Matrix α).get r c = default := by
  unfold Matrix.get Matrix.new
  rcases h : (List.replicate (R * C) (default : α))[r * C + c]? with _ | x
  · rfl
  · exact List.eq_of_mem_replicate (List.getElem?_mem h)

theorem getD_set_lt {α : Type} (l : List α) (i : Nat) (a d : α)
    (h : i < l.length) : (l.set i a).getD i d = a := by
  rw [List.getD_eq_getElem?_getD, List.getElem?_set_eq h]
  rfl

theorem getD_set_ne {α : Type} (l : List α) {i j : Nat} (a d : α)
    (h : i ≠ j) : (l.set i a).getD j d = l.getD j d := by
  rw [List.getD_eq_getElem?_getD, List.getElem?_set_ne h,
    ← List.getD_eq_getElem?_getD]

theorem getD_replicate_zero (n i : Nat) :
    (List.replicate n (0 : Int)).getD i 0 = 0 := by
  rw [List.getD_eq_getElem?_getD]
  rcases h : (List.replicate n (0 : Int))[i]? with _ | x
  · rfl
  · exact List.eq_of_mem_replicate (List.getElem?_mem h)

theorem list_sum_getD {M : Type} [AddCommMonoid M] (l : List M) :
    l.sum = ∑ c ∈ Finset.range l.length, l.getD c 0 := by
  induction l with
  | nil => simp
  | cons a l ih =>
    rw [List.sum_cons, ih, List.length_cons, Finset.sum_range_succ']
    simp [add_comm]

theorem foldl_add_eq_sum (l : List Int) : ∀ a : Int,
    l.foldl (· + ·) a = a + l.sum := by
  induction l with
  | nil => intro a; simp
  | cons x l ih =>
    intro a
    rw [List.foldl_cons, ih, List.sum_cons]
    ring

theorem sum_map_toNat (l : List Int) (h : ∀ a ∈ l, 0 ≤ a) :
    ((l.map Int.toNat).sum : Int) = l.sum := by
  induction l with
  | nil => simp
  | cons a l ih =>
    rw [List.map_cons, List.sum_cons, List.sum_cons]
    have ha := h a (List.mem_cons_self _ _)
    have ih' := ih fun b hb => h b (List.mem_cons_of_mem _ hb)
    push_cast
    push_cast at ih'
    omega

theorem getD_map_toNat (l : List Int) (i : Nat) :
    (l.map Int.toNat).getD i 0 = (l.getD i 0).toNat := by
  rw [List.getD_eq_getElem?_getD, List.getD_eq_getElem?_getD,
    List.getElem?_map]
  rcases h : l[i]? with _ | x <;> simp [h]

theorem getD_map_of_lt (l : List Nat) (g : Nat → Nat) (i : Nat)
    (h : i < l.length) : (l.map g).getD i 0 = g (l.getD i 0) := by
  rw [List.getD_eq_getElem?_getD, List.getD_eq_getElem?_getD,
    List.getElem?_map, List.getElem?_eq_getElem h]
  rfl

theorem le_foldl_max (l : List Nat) : ∀ a : Nat,
    a ≤ l.foldl max a ∧ ∀ y ∈ l, y ≤ l.foldl max a := by
  induction l with
  | nil => intro a; exact ⟨le_refl a, by simp⟩
  | cons x l ih =>
    intro a
    obtain ⟨h1, h2⟩ := ih (max a x)
    refine ⟨le_trans (le_max_left a x) h1, ?_⟩
    intro y hy
    rcases List.mem_cons.mp hy with rfl | hy
    · exact le_trans (le_max_right a y) h1
    · exact h2 y hy

theorem getD_le_foldl_max (l : List Nat) (r : Nat) :
    l.getD r 0 ≤ l.foldl max 0 := by
  rcases Nat.lt_or_ge r l.length with h | h
  · have hmem : l.getD r 0 ∈ l := by
      rw [List.getD_eq_getElem?_getD, List.getElem?_eq_getElem h]
      exact List.getElem_mem h
    exact (le_foldl_max l 0).2 _ hmem
  · rw [List.getD_eq_getElem?_getD, List.getElem?_eq_none h]
    exact Nat.zero_le _

/-- Shape invariant threaded through the matrix-building folds. -/
def MShape (R C : Nat) (m : Matrix Fraction) : Prop :=
  m.rows = R ∧ m.cols = C ∧ m.data.length = R * C

theorem innerFold_get (R C : Nat) (mask i : Nat) (hiC : i < C) {r c : Nat}
    (hr : r < R) (hc : c < C) :
    ∀ (l : List Nat) (acc : Matrix Fraction), MShape R C acc →
      (∀ row ∈ l, row < R) →
      MShape R C (l.foldl
        (fun acc2 row =>
          if Nat.testBit mask row then acc2.set row i Fraction.one else acc2)
        acc) ∧
      (l.foldl
        (fun acc2 row =>
          if Nat.testBit mask row then acc2.set row i Fraction.one else acc2)
        acc).get r c
        = if c = i ∧ r ∈ l ∧ Nat.testBit mask r then Fraction.one
          else acc.get r c := by
  intro l
  induction l with
  | nil =>
    intro acc hP _
    refine ⟨hP, ?_⟩
    simp
  | cons x xs ih =>
    intro acc hP hl
    obtain ⟨hR, hC, hL⟩ := hP
    have hx : x < R := hl x (List.mem_cons_self _ _)
    have hP' : MShape R C
        (if Nat.testBit mask x then acc.set x i Fraction.one else acc) := by
      split
      · exact ⟨hR, hC, by rw [Matrix.length_set]; exact hL⟩
      · exact ⟨hR, hC, hL⟩
    rw [List.foldl_cons]
    obtain ⟨hPf, hget⟩ := ih _ hP'
      fun row hrow => hl row (List.mem_cons_of_mem _ hrow)
    refine ⟨hPf, ?_⟩
    rw [hget]
    have hacc' : (if Nat.testBit mask x then acc.set x i Fraction.one
        else acc).get r c
        = if c = i ∧ r = x ∧ Nat.testBit mask r then Fraction.one
          else acc.get r c := by
      by_cases htx : Nat.testBit mask x
      · rw [if_pos htx,
          Matrix.get_set acc (by rw [hR, hC]; exact hL) Fraction.one
            (by rw [hR]; exact hx) (by rw [hC]; exact hiC)
            (by rw [hR]; exact hr) (by rw [hC]; exact hc)]
        by_cases hrx : r = x
        · by_cases hci : c = i
          · rw [if_pos ⟨hrx, hci⟩,
              if_pos ⟨hci, hrx, by rw [hrx]; exact htx⟩]
          · rw [if_neg fun h => hci h.2, if_neg fun h => hci h.1]
        · rw [if_neg fun h => hrx h.1, if_neg fun h => hrx h.2.1]
      · rw [if_neg htx]
        by_cases hrx : r = x
        · rw [if_neg fun h => htx (hrx ▸ h.2.2)]
        · rw [if_neg fun h => hrx h.2.1]
    rw [hacc']
    by_cases h1 : c = i ∧ r ∈ xs ∧ Nat.testBit mask r
    · rw [if_pos h1, if_pos ⟨h1.1, List.mem_cons_of_mem _ h1.2.1, h1.2.2⟩]
    · rw [if_neg h1]
      by_cases h2 : c = i ∧ r = x ∧ Nat.testBit mask r
      · rw [if_pos h2,
          if_pos ⟨h2.1, by rw [h2.2.1]; exact List.mem_cons_self _ _, h2.2.2⟩]
      · rw [if_neg h2, if_neg fun h =>
          match List.mem_cons.mp h.2.1 with
          | Or.inl hrx => h2 ⟨h.1, hrx, h.2.2⟩
          | Or.inr hm => h1 ⟨h.1, hm, h.2.2⟩]

theorem buttonsFold_get (R C : Nat) {r c : Nat} (hr : r < R) (hc : c < C) :
    ∀ (bs : List Nat) (k : Nat) (acc : Matrix Fraction), MShape R C acc →
      k + bs.length < C →
      MShape R C ((List.enumFrom k bs).foldl
        (fun acc cb =>
          ((List.range R).reverse).foldl
            (fun acc2 row =>
              if Nat.testBit cb.2 row then acc2.set row cb.1 Fraction.one
              else acc2)
            acc)
        acc) ∧
      ((List.enumFrom k bs).foldl
        (fun acc cb =>
          ((List.range R).reverse).foldl
            (fun acc2 row =>
              if Nat.testBit cb.2 row then acc2.set row cb.1 Fraction.one
              else acc2)
            acc)
        acc).get r c
        = if k ≤ c ∧ c < k + bs.length ∧ Nat.testBit (bs.getD (c - k) 0) r
          then Fraction.one else acc.get r c := by
  intro bs
  induction bs with
  | nil =>
    intro k acc hP _
    refine ⟨hP, ?_⟩
    rw [if_neg fun h => by
      have h1 := h.1
      have h2 := h.2.1
      simp only [List.length_nil] at h2
      omega]
    rfl
  | cons b bs ih =>
    intro k acc hP hkC
    simp only [List.length_cons] at hkC
    rw [show List.enumFrom k (b :: bs) = (k, b) :: List.enumFrom (k + 1) bs
      from rfl, List.foldl_cons]
    obtain ⟨hPin, hgin⟩ := innerFold_get R C b k (by omega) hr hc
      ((List.range R).reverse) acc hP
      (fun row hrow => List.mem_range.mp (List.mem_reverse.mp hrow))
    obtain ⟨hPf, hgf⟩ := ih (k + 1) _ hPin (by omega)
    refine ⟨hPf, ?_⟩
    rw [hgf, hgin]
    simp only [List.length_cons]
    have hrmem : r ∈ (List.range R).reverse :=
      List.mem_reverse.mpr (List.mem_range.mpr hr)
    by_cases hck : c = k
    · rw [if_neg fun h => by
        have h1 := h.1
        omega]
      by_cases htb : Nat.testBit b r
      · rw [if_pos ⟨hck, hrmem, htb⟩,
          if_pos ⟨by omega, by omega, by
            rw [show c - k = 0 from by omega]
            exact htb⟩]
      · rw [if_neg fun h => htb h.2.2, if_neg fun h => htb (by
          have := h.2.2
          rw [show c - k = 0 from by omega] at this
          exact this)]
    · by_cases h1 : k + 1 ≤ c ∧ c < k + 1 + bs.length ∧
          Nat.testBit (bs.getD (c - (k + 1)) 0) r
      · obtain ⟨h1a, h1b, h1c⟩ := h1
        rw [if_pos ⟨h1a, h1b, h1c⟩, if_pos ⟨by omega, by omega, by
          rw [show c - k = (c - (k + 1)) + 1 from by omega]
          exact h1c⟩]
      · rw [if_neg h1, if_neg fun h => hck h.1, if_neg fun h => by
          obtain ⟨ha, hb, hc2⟩ := h
          rw [show c - k = (c - (k + 1)) + 1 from by omega] at hc2
          exact h1 ⟨by omega, by omega, hc2⟩]

theorem rhsFold_get (R C : Nat) (j : List Nat) {r c : Nat}
    (hr : r < R) (hc : c < C) (hC0 : 0 < C) :
    ∀ (l : List Nat) (acc : Matrix Fraction), MShape R C acc →
      (∀ row ∈ l, row < R) →
      MShape R C (l.foldl
        (fun acc row =>
          acc.set row (C - 1) (Fraction.ofNat (j.getD row 0)))
        acc) ∧
      (l.foldl
        (fun acc row =>
          acc.set row (C - 1) (Fraction.ofNat (j.getD row 0)))
        acc).get r c
        = if c = C - 1 ∧ r ∈ l then Fraction.ofNat (j.getD r 0)
          else acc.get r c := by
  intro l
  induction l with
  | nil =>
    intro acc hP _
    refine ⟨hP, ?_⟩
    simp
  | cons x xs ih =>
    intro acc hP hl
    obtain ⟨hR, hC, hL⟩ := hP
    have hx : x < R := hl x (List.mem_cons_self _ _)
    have hP' : MShape R C
        (acc.set x (C - 1) (Fraction.ofNat (j.getD x 0))) :=
      ⟨hR, hC, by rw [Matrix.length_set]; exact hL⟩
    rw [List.foldl_cons]
    obtain ⟨hPf, hget⟩ := ih _ hP'
      fun row hrow => hl row (List.mem_cons_of_mem _ hrow)
    refine ⟨hPf, ?_⟩
    rw [hget,
      Matrix.get_set acc (by rw [hR, hC]; exact hL) _
        (by rw [hR]; exact hx) (by rw [hC]; omega)
        (by rw [hR]; exact hr) (by rw [hC]; exact hc)]
    by_cases h1 : c = C - 1 ∧ r ∈ xs
    · rw [if_pos h1, if_pos ⟨h1.1, List.mem_cons_of_mem _ h1.2⟩]
    · rw [if_neg h1]
      by_cases h2 : r = x ∧ c = C - 1
      · obtain ⟨hrx, hcC⟩ := h2
        subst hrx
        rw [if_pos ⟨rfl, hcC⟩, if_pos ⟨hcC, List.mem_cons_self _ _⟩]
      · rw [if_neg h2, if_neg fun h =>
          match List.mem_cons.mp h.2 with
          | Or.inl hrx => h2 ⟨hrx, h.1⟩
          | Or.inr hm => h1 ⟨h.1, hm⟩]

/-- Exact content of the built matrix: button incidence (coefficient `1`
where button `c` toggles bit `r`) and the expected joltage in the RHS
column. -/
theorem buildMatrix_get (machine : Machine) {r c : Nat}
    (hr : r < machine.bit_count) (hc : c < machine.buttons.length + 1) :
    (buildMatrix machine).get r c =
      if c = machine.buttons.length then
        Fraction.ofNat (machine.expected_joltage.getD r 0)
      else if Nat.testBit (machine.buttons.getD c 0) r then Fraction.one
      else (default : Fraction) := by
  have hbm : buildMatrix machine = (List.range machine.bit_count).foldl
      (fun acc row =>
        acc.set row (machine.buttons.length + 1 - 1)
          (Fraction.ofNat (machine.expected_joltage.getD row 0)))
      ((List.enumFrom 0 machine.buttons).foldl
        (fun acc cb =>
          ((List.range machine.bit_count).reverse).foldl
            (fun acc2 row =>
              if Nat.testBit cb.2 row then acc2.set row cb.1 Fraction.one
              else acc2)
            acc)
        (Matrix.new machine.bit_count (machine.buttons.length + 1))) := rfl
  have hnew : MShape machine.bit_count (machine.buttons.length + 1)
      (Matrix.new machine.bit_count (machine.buttons.length + 1)
        : Matrix Fraction) :=
    ⟨rfl, rfl, by simp [Matrix.new]⟩
  obtain ⟨hP1, hg1⟩ := buttonsFold_get machine.bit_count
    (machine.buttons.length + 1) hr hc machine.buttons 0 _ hnew (by omega)
  obtain ⟨hP2, hg2⟩ := rhsFold_get machine.bit_count
    (machine.buttons.length + 1) machine.expected_joltage hr hc (by omega)
    (List.range machine.bit_count) _ hP1
    (fun row hrow => List.mem_range.mp hrow)
  rw [hbm, hg2, hg1, get_new]
  by_cases hcl : c = machine.buttons.length
  · rw [if_pos ⟨by omega, List.mem_range.mpr hr⟩, if_pos hcl]
  · rw [if_neg fun h => hcl (by
      have := h.1
      omega), if_neg hcl]
    by_cases htb : Nat.testBit (machine.buttons.getD c 0) r
    · rw [if_pos ⟨by omega, by omega, by
        rw [show c - 0 = c from by omega]
        exact htb⟩, if_pos htb]
    · rw [if_neg fun h => htb (by
        have := h.2.2
        rw [show c - 0 = c from by omega] at this
        exact this), if_neg htb]

/-- Value-level content of the built matrix. -/
theorem buildMatrix_v (machine : Machine) {r c : Nat}
    (hr : r < machine.bit_count) (hc : c < machine.buttons.length + 1) :
    (buildMatrix machine).v r c =
      if c = machine.buttons.length then
        ((machine.expected_joltage.getD r 0 : Nat) : ℚ)
      else if Nat.testBit (machine.buttons.getD c 0) r then 1 else 0 := by
  show ((buildMatrix machine).get r c).val = _
  rw [buildMatrix_get machine hr hc]
  by_cases h1 : c = machine.buttons.length
  · rw [if_pos h1, if_pos h1]
    simp
  · rw [if_neg h1, if_neg h1]
    by_cases h2 : Nat.testBit (machine.buttons.getD c 0) r
    · rw [if_pos h2, if_pos h2]
      simp
    · rw [if_neg h2, if_neg h2]
      simp

/-- Satisfying the built system is exactly satisfying the machine's joltage
equations. -/
theorem Sat_buildMatrix_iff (machine : Machine) (q : Nat → ℚ) :
    Matrix.Sat (buildMatrix machine) q ↔
      ∀ r, r < machine.bit_count →
        (∑ c ∈ Finset.range machine.buttons.length,
          (if Nat.testBit (machine.buttons.getD c 0) r then q c else 0))
          = ((machine.expected_joltage.getD r 0 : Nat) : ℚ) := by
  obtain ⟨hbR, hbC, hbL, hbG⟩ := buildMatrix_basic machine
  unfold Matrix.Sat Matrix.RowSat
  rw [hbR, hbC]
  simp only [Nat.add_sub_cancel]
  refine forall_congr' fun r => imp_congr_right fun hr => ?_
  have hsum : ∑ c ∈ Finset.range machine.buttons.length,
      (buildMatrix machine).v r c * q c
      = ∑ c ∈ Finset.range machine.buttons.length,
        (if Nat.testBit (machine.buttons.getD c 0) r then q c else 0) := by
    apply Finset.sum_congr rfl
    intro c hcr
    have hclt := Finset.mem_range.mp hcr
    rw [buildMatrix_v machine hr (by omega), if_neg (by omega)]
    by_cases htb : Nat.testBit (machine.buttons.getD c 0) r
    · rw [if_pos htb, if_pos htb, one_mul]
    · rw [if_neg htb, if_neg htb, zero_mul]
  rw [hsum, buildMatrix_v machine hr (by omega), if_pos rfl]

/-- A natural-number button-activation vector solves the machine exactly
when its rational cast satisfies the built augmented system. -/
theorem IsSolution_iff_Sat (machine : Machine) (vN : List Nat)
    (hlen : vN.length = machine.buttons.length) :
    IsSolution machine vN ↔
      Matrix.Sat (buildMatrix machine) (fun c => ((vN.getD c 0 : Nat) : ℚ)) := by
  rw [Sat_buildMatrix_iff]
  have hcast : ∀ r, ((∑ c ∈ Finset.range machine.buttons.length,
      (if Nat.testBit (machine.buttons.getD c 0) r then vN.getD c 0 else 0)
      : ℕ) : ℚ)
      = ∑ c ∈ Finset.range machine.buttons.length,
        (if Nat.testBit (machine.buttons.getD c 0) r
          then ((vN.getD c 0 : ℕ) : ℚ) else 0) := by
    intro r
    rw [Nat.cast_sum]
    apply Finset.sum_congr rfl
    intro c _
    by_cases htb : Nat.testBit (machine.buttons.getD c 0) r
    · rw [if_pos htb, if_pos htb]
    · rw [if_neg htb, if_neg htb]
      rfl
  constructor
  · rintro ⟨-, h⟩ r hr
    rw [← hcast r, h r hr]
  · intro h
    refine ⟨hlen, ?_⟩
    intro r hr
    have hq := h r hr
    rw [← hcast r] at hq
    exact_mod_cast hq

theorem computeFreeVars_fold (x : Matrix Fraction) :
    ∀ (l : List Nat) (fv : List Nat),
      l.foldl (fun fv row =>
        match x.find_pivot_column row with
        | some col => fv.filter (fun c => c ≠ col)
        | none => fv) fv
      = fv.filter
          (fun c => l.all fun r => decide (x.find_pivot_column r ≠ some c)) := by
  intro l
  induction l with
  | nil =>
    intro fv
    simp
  | cons row rest ih =>
    intro fv
    rw [List.foldl_cons]
    rcases hp : x.find_pivot_column row with _ | col
    · simp only [hp]
      rw [ih]
      apply List.filter_congr
      intro c _
      simp [hp]
    · simp only [hp]
      rw [ih, List.filter_filter]
      apply List.filter_congr
      intro c _
      simp [hp, Bool.and_comm, eq_comm]

theorem mem_computeFreeVars (x : Matrix Fraction) (rows cols c : Nat) :
    c ∈ computeFreeVars x rows cols ↔
      c < cols - 1 ∧ ∀ r, r < rows → x.find_pivot_column r ≠ some c := by
  unfold computeFreeVars
  rw [computeFreeVars_fold, List.mem_filter, List.mem_range]
  constructor
  · rintro ⟨h1, h2⟩
    refine ⟨h1, ?_⟩
    intro r hr
    exact of_decide_eq_true (List.all_eq_true.mp h2 r (List.mem_range.mpr hr))
  · rintro ⟨h1, h2⟩
    refine ⟨h1, ?_⟩
    apply List.all_eq_true.mpr
    intro r hrm
    exact decide_eq_true (h2 r (List.mem_range.mp hrm))

theorem nodup_computeFreeVars (x : Matrix Fraction) (rows cols : Nat) :
    (computeFreeVars x rows cols).Nodup := by
  unfold computeFreeVars
  rw [computeFreeVars_fold]
  exact (List.nodup_range _).filter _

theorem getD_nonneg (l : List Int) (h : ∀ a ∈ l, 0 ≤ a) (c : Nat) :
    0 ≤ l.getD c 0 := by
  rcases Nat.lt_or_ge c l.length with hlt | hge
  · rw [List.getD_eq_getElem?_getD, List.getElem?_eq_getElem hlt]
    exact h _ (List.getElem_mem hlt)
  · rw [List.getD_eq_getElem?_getD, List.getElem?_eq_none hge]
    exact le_refl 0

/-- Positions outside the written index list are untouched by the
free-variable placement fold. -/
theorem enumFold_not_mem (t : List Nat) :
    ∀ (l : List Nat) (k : Nat) (init : List Int) (c : Nat), c ∉ l →
      ((List.enumFrom k l).foldl
        (fun sol iv => sol.set iv.2 (Int.ofNat (t.getD iv.1 0))) init).getD c 0
        = init.getD c 0 := by
  intro l
  induction l with
  | nil => intro k init c _; rfl
  | cons p l ih =>
    intro k init c hc
    rw [show List.enumFrom k (p :: l) = (k, p) :: List.enumFrom (k + 1) l
      from rfl, List.foldl_cons,
      ih (k + 1) _ c fun h => hc (List.mem_cons_of_mem _ h)]
    exact getD_set_ne init _ 0 fun h => hc (by
      rw [← h]
      exact List.mem_cons_self _ _)

/-- When the tuple holds `g` of the written positions, every written
position reads back as its `g`-value. -/
theorem enumFold_mem (t : List Nat) (g : Nat → Nat) :
    ∀ (l : List Nat) (k : Nat) (init : List Int),
      (∀ i, i < l.length → t.getD (k + i) 0 = g (l.getD i 0)) →
      ∀ c ∈ l, c < init.length →
      ((List.enumFrom k l).foldl
        (fun sol iv => sol.set iv.2 (Int.ofNat (t.getD iv.1 0))) init).getD c 0
        = Int.ofNat (g c) := by
  intro l
  induction l with
  | nil => intro k init _ c hc; exact absurd hc (by simp)
  | cons p l ih =>
    intro k init hidx c hc hlen
    rw [show List.enumFrom k (p :: l) = (k, p) :: List.enumFrom (k + 1) l
      from rfl, List.foldl_cons]
    by_cases hcl : c ∈ l
    · refine ih (k + 1) (init.set p (Int.ofNat (t.getD k 0))) ?_ c hcl ?_
      · intro i hi
        have h1 := hidx (i + 1) (by rw [List.length_cons]; omega)
        rw [show k + 1 + i = k + (i + 1) from by omega, h1]
        rfl
      · rw [List.length_set]
        exact hlen
    · have hcp : c = p := by
        rcases List.mem_cons.mp hc with h | h
        · exact h
        · exact absurd h hcl
      subst hcp
      rw [enumFold_not_mem t l (k + 1) _ c hcl,
        getD_set_lt init c _ 0 hlen]
      have h0 := hidx 0 (by rw [List.length_cons]; omega)
      rw [show k + 0 = k from rfl] at h0
      rw [h0]
      rfl

theorem sum_ite_ne_erase (n p : Nat) (f : Nat → ℚ) :
    ∑ j ∈ Finset.range n, (if j ≠ p then f j else 0)
      = ∑ j ∈ (Finset.range n).erase p, f j := by
  rw [← Finset.filter_ne' (Finset.range n) p, Finset.sum_filter]

/-- Soundness of the candidate loop: an accepted candidate's final solution
vector satisfies the equation of every processed row, only pivot entries are
written, and non-negativity is preserved. -/
theorem candidateRows_sound (x : Matrix Fraction) (cols : Nat)
    (hlen : x.data.length = x.rows * x.cols) (hg : Matrix.GoodDen x)
    (hcols : cols = x.cols) (hc0 : 0 < cols)
    (hpv : ∀ row, row < x.rows → ∀ p, x.find_pivot_column row = some p →
      p < cols - 1 ∧ x.v row p = 1 ∧
      ∀ r', r' < x.rows → r' ≠ row → x.v r' p = 0)
    (hpn : ∀ row, row < x.rows → x.find_pivot_column row = none →
      ∀ c, c < cols → x.v row c = 0) :
    ∀ (l : List Nat) (sol sol' : List Int),
      (∀ row ∈ l, row < x.rows) → l.Nodup →
      sol.length = cols - 1 →
      candidateRows x cols l sol = .ok (some sol') →
      sol'.length = cols - 1 ∧
      (∀ c, (∀ row ∈ l, x.find_pivot_column row ≠ some c) →
        sol'.getD c 0 = sol.getD c 0) ∧
      ((∀ a ∈ sol, 0 ≤ a) → ∀ a ∈ sol', 0 ≤ a) ∧
      (∀ row ∈ l,
        ∑ c ∈ Finset.range (cols - 1),
          x.v row c * ((sol'.getD c 0 : Int) : ℚ) = x.v row (cols - 1)) := by
  intro l
  induction l with
  | nil =>
    intro sol sol' _ _ hsol hres
    simp only [candidateRows] at hres
    have hss : sol = sol' := Option.some.inj (by injection hres)
    subst hss
    exact ⟨hsol, fun c _ => rfl, fun h => h, fun row hrow => absurd hrow (by simp)⟩
  | cons row rest ih =>
    intro sol sol' hmem hnd hsol hres
    have hrow : row < x.rows := hmem row (List.mem_cons_self _ _)
    have hndr := (List.nodup_cons.mp hnd).2
    have hrnr : row ∉ rest := (List.nodup_cons.mp hnd).1
    rcases hp : x.find_pivot_column row with _ | p
    · simp only [candidateRows, hp] at hres
      obtain ⟨ih1, ih2, ih3, ih4⟩ := ih sol sol'
        (fun r h => hmem r (List.mem_cons_of_mem _ h)) hndr hsol hres
      refine ⟨ih1, ?_, ih3, ?_⟩
      · intro c hcall
        exact ih2 c fun r h => hcall r (List.mem_cons_of_mem _ h)
      · intro r hr
        rcases List.mem_cons.mp hr with rfl | hr'
        · have hz := hpn r hrow hp
          have h1 : ∑ c ∈ Finset.range (cols - 1),
              x.v r c * ((sol'.getD c 0 : Int) : ℚ) = 0 := by
            apply Finset.sum_eq_zero
            intro c hcm
            rw [hz c (by have := Finset.mem_range.mp hcm; omega)]
            ring
          rw [h1, hz (cols - 1) (by omega)]
        · exact ih4 r hr'
    · simp only [candidateRows, hp] at hres
      set F := (List.range (cols - 1)).foldl
        (fun v j =>
          if j ≠ p then
            v.sub ((x.get row j).mul (Fraction.ofInt (sol.getD j 0)))
          else v) (x.get row (cols - 1)) with hF
      obtain ⟨hplt, hv1, hvz⟩ := hpv row hrow p hp
      obtain ⟨hFden, hFval⟩ := candidateFold_spec x row p sol hlen hg hrow
        (cols - 1) (by omega) (x.get row (cols - 1))
        (Matrix.den_get x hlen hg row (cols - 1))
      by_cases hneg : F.simplify.numerator < 0
      · rw [if_pos hneg] at hres
        simp at hres
      · rw [if_neg hneg] at hres
        rcases hint : F.simplify.simplify.intify with e | value
        · simp only [hint] at hres
          simp at hres
        · simp only [hint] at hres
          have hpsl : p < sol.length := by omega
          rw [if_pos hpsl] at hres
          have hsimpden : F.simplify.denominator ≠ 0 :=
            (Fraction.simplify_den_pos hFden).ne'
          have hvalue : ((value : Int) : ℚ) = F.val := by
            have h1 := Fraction.simplify_intify_ok_val hsimpden hint
            rw [Fraction.val_simplify hFden] at h1
            exact h1
          have hvnn : 0 ≤ value := by
            have h0 : 0 ≤ F.simplify.numerator := le_of_not_lt hneg
            have h1 := (Fraction.simplify_num_nonneg_iff hFden).mp h0
            rw [← hvalue] at h1
            exact_mod_cast h1
          have hmidlen : (sol.set p value).length = cols - 1 := by
            rw [List.length_set]
            exact hsol
          obtain ⟨ih1, ih2, ih3, ih4⟩ := ih (sol.set p value) sol'
            (fun r h => hmem r (List.mem_cons_of_mem _ h)) hndr hmidlen hres
          have hagree : ∀ c, c < cols - 1 → x.v row c ≠ 0 →
              sol'.getD c 0 = (sol.set p value).getD c 0 := by
            intro c hclt hvc
            apply ih2
            intro r' hr' hpc
            have hr'lt : r' < x.rows := hmem r' (List.mem_cons_of_mem _ hr')
            have hr'ne : r' ≠ row := fun h => hrnr (h ▸ hr')
            obtain ⟨-, -, hz'⟩ := hpv r' hr'lt c hpc
            exact hvc (hz' row hrow (fun h => hr'ne h.symm))
          refine ⟨ih1, ?_, ?_, ?_⟩
          · intro c hcall
            have hcp : p ≠ c := fun h =>
              hcall row (List.mem_cons_self _ _) (h ▸ hp)
            rw [ih2 c fun r h => hcall r (List.mem_cons_of_mem _ h),
              getD_set_ne sol value 0 hcp]
          · intro hnn a ha
            refine ih3 ?_ a ha
            intro b hb
            rcases List.mem_or_eq_of_mem_set hb with hb' | rfl
            · exact hnn b hb'
            · exact hvnn
          · intro r hr
            rcases List.mem_cons.mp hr with rfl | hrr
            · have hpmem : p ∈ Finset.range (cols - 1) :=
                Finset.mem_range.mpr hplt
              rw [← Finset.add_sum_erase _ _ hpmem]
              have hsolp : sol'.getD p 0 = value := by
                rw [hagree p hplt (by rw [hv1]; exact one_ne_zero),
                  getD_set_lt sol p value 0 hpsl]
              have herase : ∑ c ∈ (Finset.range (cols - 1)).erase p,
                  x.v r c * ((sol'.getD c 0 : Int) : ℚ)
                  = ∑ c ∈ (Finset.range (cols - 1)).erase p,
                    x.v r c * ((sol.getD c 0 : Int) : ℚ) := by
                apply Finset.sum_congr rfl
                intro c hcm
                obtain ⟨hcp, hcr⟩ := Finset.mem_erase.mp hcm
                have hclt := Finset.mem_range.mp hcr
                by_cases hvc : x.v r c = 0
                · rw [hvc, zero_mul, zero_mul]
                · rw [hagree c hclt hvc, getD_set_ne sol value 0
                    (fun h => hcp h.symm)]
              have hfold_erase : ∑ c ∈ (Finset.range (cols - 1)).erase p,
                  x.v r c * ((sol.getD c 0 : Int) : ℚ)
                  = x.v r (cols - 1) - F.val := by
                rw [← sum_ite_ne_erase]
                have h1 : (x.get r (cols - 1)).val = x.v r (cols - 1) := rfl
                rw [h1] at hFval
                rw [hFval]
                ring
              rw [hsolp, herase, hfold_erase, hv1, hvalue]
              ring
            · exact ih4 r hrr

/-- Completeness of the candidate loop: when the starting vector already
holds, at every non-pivot column, a non-negative integer assignment that
satisfies every row equation, the loop accepts and ends with exactly that
assignment in every column. -/
theorem candidateRows_complete (x : Matrix Fraction) (cols : Nat)
    (hlen : x.data.length = x.rows * x.cols) (hg : Matrix.GoodDen x)
    (hcols : cols = x.cols) (hc0 : 0 < cols) (q : Nat → Nat)
    (hpv : ∀ row, row < x.rows → ∀ p, x.find_pivot_column row = some p →
      p < cols - 1 ∧ x.v row p = 1 ∧
      ∀ r', r' < x.rows → r' ≠ row → x.v r' p = 0)
    (hq : ∀ row, row < x.rows →
      ∑ c ∈ Finset.range (cols - 1), x.v row c * ((q c : Nat) : ℚ)
        = x.v row (cols - 1)) :
    ∀ (l : List Nat) (sol : List Int),
      (∀ row ∈ l, row < x.rows) → l.Nodup →
      sol.length = cols - 1 →
      (∀ c, c < cols - 1 → (∀ row ∈ l, x.find_pivot_column row ≠ some c) →
        sol.getD c 0 = ((q c : Nat) : Int)) →
      ∃ sol', candidateRows x cols l sol = .ok (some sol') ∧
        sol'.length = cols - 1 ∧
        ∀ c, c < cols - 1 → sol'.getD c 0 = ((q c : Nat) : Int) := by
  intro l
  induction l with
  | nil =>
    intro sol _ _ hsol hinv
    exact ⟨sol, rfl, hsol,
      fun c hc => hinv c hc fun row h => absurd h (List.not_mem_nil row)⟩
  | cons row rest ih =>
    intro sol hmem hnd hsol hinv
    have hrow : row < x.rows := hmem row (List.mem_cons_self _ _)
    have hndr := (List.nodup_cons.mp hnd).2
    have hrnr : row ∉ rest := (List.nodup_cons.mp hnd).1
    rcases hp : x.find_pivot_column row with _ | p
    · have hinv' : ∀ c, c < cols - 1 →
          (∀ r ∈ rest, x.find_pivot_column r ≠ some c) →
          sol.getD c 0 = ((q c : Nat) : Int) := by
        intro c hc hfree
        apply hinv c hc
        intro r hr
        rcases List.mem_cons.mp hr with rfl | hr'
        · rw [hp]
          simp
        · exact hfree r hr'
      obtain ⟨sol', hres', hlen', hvals⟩ := ih sol
        (fun r h => hmem r (List.mem_cons_of_mem _ h)) hndr hsol hinv'
      refine ⟨sol', ?_, hlen', hvals⟩
      simp only [candidateRows, hp]
      exact hres'
    · obtain ⟨hplt, hv1, hvz⟩ := hpv row hrow p hp
      set F := (List.range (cols - 1)).foldl
        (fun v j =>
          if j ≠ p then
            v.sub ((x.get row j).mul (Fraction.ofInt (sol.getD j 0)))
          else v) (x.get row (cols - 1)) with hF
      obtain ⟨hFden, hFval⟩ := candidateFold_spec x row p sol hlen hg hrow
        (cols - 1) (by omega) (x.get row (cols - 1))
        (Matrix.den_get x hlen hg row (cols - 1))
      have hsums : ∑ j ∈ Finset.range (cols - 1),
          (if j ≠ p then x.v row j * ((sol.getD j 0 : Int) : ℚ) else 0)
          = ∑ j ∈ Finset.range (cols - 1),
            (if j ≠ p then x.v row j * ((q j : Nat) : ℚ) else 0) := by
        apply Finset.sum_congr rfl
        intro j hj
        have hjlt := Finset.mem_range.mp hj
        by_cases hjp : j ≠ p
        · rw [if_pos hjp, if_pos hjp]
          by_cases hvj : x.v row j = 0
          · rw [hvj, zero_mul, zero_mul]
          · have hsj : sol.getD j 0 = ((q j : Nat) : Int) := by
              apply hinv j hjlt
              intro r hr hpc
              rcases List.mem_cons.mp hr with rfl | hr'
              · rw [hp] at hpc
                exact hjp (Option.some.inj hpc).symm
              · have hrlt : r < x.rows :=
                  hmem r (List.mem_cons_of_mem _ hr')
                have hrne : r ≠ row := fun h => hrnr (h ▸ hr')
                obtain ⟨-, -, hz'⟩ := hpv r hrlt j hpc
                exact hvj (hz' row hrow fun h => hrne h.symm)
            rw [hsj]
            norm_cast
        · rw [if_neg hjp, if_neg hjp]
      have hqrow := hq row hrow
      have hqp : F.val = ((q p : Nat) : ℚ) := by
        have h1 : (x.get row (cols - 1)).val = x.v row (cols - 1) := rfl
        rw [hFval, h1, hsums, sum_ite_ne_erase]
        have hpmem : p ∈ Finset.range (cols - 1) := Finset.mem_range.mpr hplt
        have h3 : x.v row p * ((q p : Nat) : ℚ)
            + ∑ j ∈ (Finset.range (cols - 1)).erase p,
              x.v row j * ((q j : Nat) : ℚ)
            = ∑ j ∈ Finset.range (cols - 1), x.v row j * ((q j : Nat) : ℚ) :=
          Finset.add_sum_erase (Finset.range (cols - 1))
            (fun j => x.v row j * ((q j : Nat) : ℚ)) hpmem
        rw [hv1, one_mul, hqrow] at h3
        linarith
      have hsimp_num : F.simplify.numerator = ((q p : Nat) : Int) := by
        rw [(Fraction.simplify_eq_canonical hFden).1, hqp]
        simp
      have hsimp_den : F.simplify.denominator = 1 := by
        rw [(Fraction.simplify_eq_canonical hFden).2, hqp]
        simp
      have hnotneg : ¬ F.simplify.numerator < 0 := by
        rw [hsimp_num]
        omega
      have hint : F.simplify.simplify.intify = .ok ((q p : Nat) : Int) := by
        rw [Fraction.simplify_simplify hFden, Fraction.intify_ok_iff]
        exact ⟨hsimp_den, hsimp_num.symm⟩
      have hpsl : p < sol.length := by omega
      have hmidlen : (sol.set p ((q p : Nat) : Int)).length = cols - 1 := by
        rw [List.length_set]
        exact hsol
      have hinv' : ∀ c, c < cols - 1 →
          (∀ r ∈ rest, x.find_pivot_column r ≠ some c) →
          (sol.set p ((q p : Nat) : Int)).getD c 0 = ((q c : Nat) : Int) := by
        intro c hc hfree
        by_cases hcp : c = p
        · subst hcp
          rw [getD_set_lt sol _ _ 0 hpsl]
        · rw [getD_set_ne sol _ 0 fun h => hcp h.symm]
          apply hinv c hc
          intro r hr
          rcases List.mem_cons.mp hr with rfl | hr'
          · rw [hp]
            intro hco
            exact hcp (Option.some.inj hco).symm
          · exact hfree r hr'
      obtain ⟨sol', hres', hlen', hvals⟩ := ih (sol.set p ((q p : Nat) : Int))
        (fun r h => hmem r (List.mem_cons_of_mem _ h)) hndr hmidlen hinv'
      refine ⟨sol', ?_, hlen', hvals⟩
      simp only [candidateRows, hp, ← hF]
      rw [if_neg hnotneg]
      simp only [hint]
      rw [if_pos hpsl]
      exact hres'

/-- The sums of the accepted candidates of an enumeration. -/
def acceptedSums (eval : List Nat → Except SolveError (Option (List Int)))
    (ts : List (List Nat)) : List Int :=
  ts.filterMap fun t =>
    match eval t with
    | .ok (some sol) => some (sol.foldl (· + ·) 0)
    | _ => none

/-- The best-tracking fold of the search returns the minimum accepted sum
below the running bound (`i32::MAX` at the top call), or the unchanged
start state when no accepted sum beats it. -/
theorem searchFold_min
    (eval : List Nat → Except SolveError (Option (List Int))) :
    ∀ (ts : List (List Nat)) (best0 best : Option (List Int) × Int),
      ts.foldlM
        (fun (best : Option (List Int) × Int) t => do
          match ← eval t with
          | none => pure best
          | some sol =>
            let sum : Int := sol.foldl (· + ·) 0
            if sum < best.2 then pure (some sol, sum) else pure best)
        best0 = .ok best →
      (best = best0 ∧ ∀ s ∈ acceptedSums eval ts, ¬ s < best0.2) ∨
      ((∃ sol, best.1 = some sol) ∧ best.2 ∈ acceptedSums eval ts ∧
        best.2 < best0.2 ∧ ∀ s ∈ acceptedSums eval ts, ¬ s < best.2) := by
  intro ts
  induction ts with
  | nil =>
    intro best0 best hres
    left
    have hb : best0 = best := by injection hres
    exact ⟨hb.symm, by simp [acceptedSums]⟩
  | cons t ts ih =>
    intro best0 best hres
    rw [List.foldlM_cons,
      show (do match ← eval t with
        | none => pure best0
        | some sol =>
          let sum : Int := sol.foldl (· + ·) 0
          if sum < best0.2 then pure (some sol, sum) else pure best0
        : Except SolveError (Option (List Int) × Int))
      = (eval t >>= fun r =>
          match r with
          | none => pure best0
          | some sol =>
            let sum : Int := sol.foldl (· + ·) 0
            if sum < best0.2 then pure (some sol, sum) else pure best0)
      from rfl] at hres
    rcases he : eval t with e | r
    · rw [he] at hres
      have hres' : (Except.error e : Except SolveError
          (Option (List Int) × Int)) = .ok best := hres
      simp at hres'
    · rw [he] at hres
      rcases r with _ | sol
      · have hres' : ts.foldlM
            (fun (best : Option (List Int) × Int) t => do
              match ← eval t with
              | none => pure best
              | some sol =>
                let sum : Int := sol.foldl (· + ·) 0
                if sum < best.2 then pure (some sol, sum) else pure best)
            best0 = .ok best := hres
        have hacc : acceptedSums eval (t :: ts) = acceptedSums eval ts := by
          simp only [acceptedSums, List.filterMap_cons, he]
        rw [hacc]
        exact ih best0 best hres'
      · have hacc : acceptedSums eval (t :: ts)
            = sol.foldl (· + ·) 0 :: acceptedSums eval ts := by
          simp only [acceptedSums, List.filterMap_cons, he]
        rw [hacc]
        have hres' : ((if sol.foldl (· + ·) 0 < best0.2
            then pure (some sol, sol.foldl (· + ·) 0) else pure best0
            : Except SolveError (Option (List Int) × Int)) >>=
            fun b => ts.foldlM
              (fun (best : Option (List Int) × Int) t => do
                match ← eval t with
                | none => pure best
                | some sol =>
                  let sum : Int := sol.foldl (· + ·) 0
                  if sum < best.2 then pure (some sol, sum) else pure best)
              b) = .ok best := hres
        by_cases hlt : sol.foldl (· + ·) 0 < best0.2
        · rw [if_pos hlt] at hres'
          have hres'' : ts.foldlM
              (fun (best : Option (List Int) × Int) t => do
                match ← eval t with
                | none => pure best
                | some sol =>
                  let sum : Int := sol.foldl (· + ·) 0
                  if sum < best.2 then pure (some sol, sum) else pure best)
              (some sol, sol.foldl (· + ·) 0) = .ok best := hres'
          rcases ih _ best hres'' with ⟨hb, hmin⟩ | ⟨h1, h2, h3, h4⟩
          · right
            refine ⟨⟨sol, by rw [hb]⟩, ?_, ?_, ?_⟩
            · rw [hb]
              exact List.mem_cons_self _ _
            · rw [hb]
              exact hlt
            · intro s hs
              rcases List.mem_cons.mp hs with rfl | hs'
              · rw [hb]
                exact lt_irrefl _
              · rw [hb]
                exact hmin s hs'
          · right
            refine ⟨h1, List.mem_cons_of_mem _ h2, by omega, ?_⟩
            intro s hs
            rcases List.mem_cons.mp hs with rfl | hs'
            · simp only at h3
              omega
            · exact h4 s hs'
        · rw [if_neg hlt] at hres'
          have hres'' : ts.foldlM
              (fun (best : Option (List Int) × Int) t => do
                match ← eval t with
                | none => pure best
                | some sol =>
                  let sum : Int := sol.foldl (· + ·) 0
                  if sum < best.2 then pure (some sol, sum) else pure best)
              best0 = .ok best := hres'
          rcases ih best0 best hres'' with ⟨hb, hmin⟩ | ⟨h1, h2, h3, h4⟩
          · left
            refine ⟨hb, ?_⟩
            intro s hs
            rcases List.mem_cons.mp hs with rfl | hs'
            · exact hlt
            · exact hmin s hs'
          · right
            refine ⟨h1, List.mem_cons_of_mem _ h2, h3, ?_⟩
            intro s hs
            rcases List.mem_cons.mp hs with rfl | hs'
            · omega
            · exact h4 s hs'

theorem except_bind_ok {ε α β : Type} (m : Except ε α) (k : α → Except ε β)
    (b : β) (h : (m >>= k) = .ok b) : ∃ a, m = .ok a ∧ k a = .ok b := by
  rcases m with e | a
  · have h' : (Except.error e : Except ε β) = .ok b := h
    simp at h'
  · exact ⟨a, rfl, h⟩

/-- Inversion of a normal return of the search path: the result is the
minimum accepted candidate sum. -/
theorem searchPath_ok_spec (machine : Machine) (x : Matrix Fraction)
    (rows cols : Nat) (free_vars : List Nat) (n : Nat)
    (hok : searchPath machine x rows cols free_vars = .ok n) :
    ∃ s : Int, 0 ≤ s ∧ n = s.toNat ∧
      s ∈ acceptedSums (evalCandidate x rows cols free_vars)
        (CartesianProductIterator.run
          ((machine.expected_joltage.foldl max 0 + 1) ^ free_vars.length + 1)
          (CartesianProductIterator.new
            (machine.expected_joltage.foldl max 0) free_vars.length)) ∧
      ∀ s' ∈ acceptedSums (evalCandidate x rows cols free_vars)
        (CartesianProductIterator.run
          ((machine.expected_joltage.foldl max 0 + 1) ^ free_vars.length + 1)
          (CartesianProductIterator.new
            (machine.expected_joltage.foldl max 0) free_vars.length)),
        ¬ s' < s := by
  simp only [searchPath] at hok
  obtain ⟨best, hfold, hpost⟩ := except_bind_ok _ _ _ hok
  rcases hb1 : best.1 with _ | sol
  · rw [hb1] at hpost
    have hpost' : (Except.error SolveError.panicNoSolution
        : Except SolveError Nat) = .ok n := hpost
    simp at hpost'
  · rw [hb1] at hpost
    have hpost' : (if best.2 < 0 then Except.error SolveError.panicNegative
        else Except.ok best.2.toNat : Except SolveError Nat) = .ok n := hpost
    by_cases hneg : best.2 < 0
    · rw [if_pos hneg] at hpost'
      simp at hpost'
    · rw [if_neg hneg] at hpost'
      have hn : n = best.2.toNat := (Except.ok.inj hpost').symm
      rcases searchFold_min (evalCandidate x rows cols free_vars) _ _ best
        hfold with ⟨hb, -⟩ | ⟨-, h2, -, h4⟩
      · rw [hb] at hb1
        simp at hb1
      · exact ⟨best.2, by omega, hn, h2, h4⟩

/-- The pivot and zero-row facts of a reduced matrix, phrased through
`find_pivot_column`, given that no row's pivot is the RHS column. -/
theorem rref_pivot_facts (m0 x : Matrix Fraction) (hrref : Matrix.IsRref m0 x)
    (hnb : ∀ r, r < x.rows → x.find_pivot_column r ≠ some (x.cols - 1)) :
    (∀ row, row < x.rows → ∀ p, x.find_pivot_column row = some p →
      p < x.cols - 1 ∧ x.v row p = 1 ∧
      ∀ r', r' < x.rows → r' ≠ row → x.v r' p = 0) ∧
    (∀ row, row < x.rows → x.find_pivot_column row = none →
      ∀ c, c < x.cols → x.v row c = 0) := by
  obtain ⟨hR, hC, hL, hG, hsat, k, hk, hpiv, hmono, hzero⟩ := hrref
  constructor
  · intro row hrow p hp
    have hppv : Matrix.pivotVal x row = some p := by
      rw [← Matrix.find_pivot_column_eq_pivotVal x hL hG]
      exact hp
    have hrk : row < k := by
      by_contra hge
      have hz := hzero row (by omega) hrow
      have hnone : Matrix.pivotVal x row = none :=
        (Matrix.pivotVal_none_iff x row).mpr hz
      rw [hppv] at hnone
      exact Option.some_ne_none p hnone
    obtain ⟨p', hp'lt, hp'val, hp'one, hp'z⟩ := hpiv row hrk
    have hpp : p = p' := Option.some.inj (hppv.symm.trans hp'val)
    subst hpp
    have hne : p ≠ x.cols - 1 := fun h => hnb row hrow (h ▸ hp)
    exact ⟨by omega, hp'one, hp'z⟩
  · intro row hrow hp c hc
    have hppv : Matrix.pivotVal x row = none := by
      rw [← Matrix.find_pivot_column_eq_pivotVal x hL hG]
      exact hp
    exact (Matrix.pivotVal_none_iff x row).mp hppv c hc

/-- Machine-level soundness: an accepted candidate of the search yields a
valid button-activation vector whose total equals the candidate's sum. -/
theorem accepted_sum_solution (machine : Machine) (x : Matrix Fraction)
    (free_vars t : List Nat) (sol : List Int)
    (hxR : x.rows = machine.bit_count)
    (hxC : x.cols = machine.buttons.length + 1)
    (hxL : x.data.length = x.rows * x.cols) (hxG : Matrix.GoodDen x)
    (hsat : ∀ qf, Matrix.Sat x qf ↔ Matrix.Sat (buildMatrix machine) qf)
    (hpv : ∀ row, row < x.rows → ∀ p, x.find_pivot_column row = some p →
      p < machine.buttons.length + 1 - 1 ∧ x.v row p = 1 ∧
      ∀ r', r' < x.rows → r' ≠ row → x.v r' p = 0)
    (hpn : ∀ row, row < x.rows → x.find_pivot_column row = none →
      ∀ c, c < machine.buttons.length + 1 → x.v row c = 0)
    (hev : evalCandidate x machine.bit_count (machine.buttons.length + 1)
      free_vars t = .ok (some sol)) :
    ∃ vN, IsSolution machine vN ∧ ((vN.sum : Nat) : Int) = sol.foldl (· + ·) 0 := by
  have hev' : candidateRows x (machine.buttons.length + 1)
      (List.range machine.bit_count)
      (free_vars.enum.foldl
        (fun (s : List Int) iv => s.set iv.2 (Int.ofNat (t.getD iv.1 0)))
        (List.replicate (machine.buttons.length + 1 - 1) 0))
      = .ok (some sol) := hev
  have hsol0len : (free_vars.enum.foldl
      (fun (s : List Int) iv => s.set iv.2 (Int.ofNat (t.getD iv.1 0)))
      (List.replicate (machine.buttons.length + 1 - 1) 0)).length
      = machine.buttons.length + 1 - 1 :=
    sol0_length (machine.buttons.length + 1) free_vars t
  obtain ⟨hslen, hsET, hsnn, hseq⟩ := candidateRows_sound x
    (machine.buttons.length + 1) hxL hxG hxC.symm (by omega) hpv hpn
    (List.range machine.bit_count) _ sol
    (fun r h => by rw [hxR]; exact List.mem_range.mp h)
    (List.nodup_range _) hsol0len hev'
  have hsol0nn : ∀ a ∈ (free_vars.enum.foldl
      (fun (s : List Int) iv => s.set iv.2 (Int.ofNat (t.getD iv.1 0)))
      (List.replicate (machine.buttons.length + 1 - 1) 0)), 0 ≤ a := by
    apply foldl_inv _ (fun s : List Int => ∀ a ∈ s, 0 ≤ a)
    · intro acc b hacc a ha
      rcases List.mem_or_eq_of_mem_set ha with h' | rfl
      · exact hacc a h'
      · exact Int.ofNat_nonneg _
    · intro a ha
      rw [List.eq_of_mem_replicate ha]
  have hsolnn : ∀ a ∈ sol, 0 ≤ a := hsnn hsol0nn
  have hSatx : Matrix.Sat x (fun c => ((sol.getD c 0 : Int) : ℚ)) := by
    intro r hrlt
    unfold Matrix.RowSat
    rw [hxC]
    exact hseq r (List.mem_range.mpr (by rw [← hxR]; exact hrlt))
  have hSatbm := (hsat _).mp hSatx
  set vN := sol.map Int.toNat with hvN
  have hlenvN : vN.length = machine.buttons.length := by
    rw [hvN, List.length_map, hslen]
    omega
  have hqeq : ∀ c, ((vN.getD c 0 : Nat) : ℚ) = ((sol.getD c 0 : Int) : ℚ) := by
    intro c
    rw [hvN, getD_map_toNat]
    have h0 := getD_nonneg sol hsolnn c
    rw [show ((sol.getD c 0).toNat : ℚ)
      = (((sol.getD c 0).toNat : Int) : ℚ) from by push_cast; ring,
      Int.toNat_of_nonneg h0]
  have hSatbm' : Matrix.Sat (buildMatrix machine)
      (fun c => ((vN.getD c 0 : Nat) : ℚ)) := by
    intro r hrlt
    have h0 := hSatbm r hrlt
    unfold Matrix.RowSat at h0 ⊢
    rw [show ∑ c ∈ Finset.range ((buildMatrix machine).cols - 1),
        (buildMatrix machine).v r c * ((vN.getD c 0 : Nat) : ℚ)
      = ∑ c ∈ Finset.range ((buildMatrix machine).cols - 1),
        (buildMatrix machine).v r c * ((sol.getD c 0 : Int) : ℚ) from
      Finset.sum_congr rfl fun c _ => by rw [hqeq c]]
    exact h0
  refine ⟨vN, (IsSolution_iff_Sat machine vN hlenvN).mpr hSatbm', ?_⟩
  have hfold : sol.foldl (· + ·) 0 = sol.sum := by
    rw [foldl_add_eq_sum, zero_add]
  have hcast := sum_map_toNat sol hsolnn
  rw [hfold, ← hvN] at *
  rw [← hcast]

/-- Machine-level completeness: every valid activation vector is matched by
an enumerated candidate that the loop accepts with a total no larger than
the vector's (free coordinates on all-zero button columns are dropped to
`0`; every other free coordinate is forced into `[0, max_rhs]` by its
equation). -/
theorem solution_has_candidate (machine : Machine) (x : Matrix Fraction)
    (hxR : x.rows = machine.bit_count)
    (hxC : x.cols = machine.buttons.length + 1)
    (hxL : x.data.length = x.rows * x.cols) (hxG : Matrix.GoodDen x)
    (hsat : ∀ qf, Matrix.Sat x qf ↔ Matrix.Sat (buildMatrix machine) qf)
    (hpv : ∀ row, row < x.rows → ∀ p, x.find_pivot_column row = some p →
      p < machine.buttons.length + 1 - 1 ∧ x.v row p = 1 ∧
      ∀ r', r' < x.rows → r' ≠ row → x.v r' p = 0)
    (vN' : List Nat) (hIs : IsSolution machine vN') :
    ∃ t sol',
      t ∈ CartesianProductIterator.allTuples
        (machine.expected_joltage.foldl max 0)
        (computeFreeVars x machine.bit_count
          (machine.buttons.length + 1)).length ∧
      evalCandidate x machine.bit_count (machine.buttons.length + 1)
        (computeFreeVars x machine.bit_count (machine.buttons.length + 1)) t
        = .ok (some sol') ∧
      sol'.foldl (· + ·) 0 ≤ ((vN'.sum : Nat) : Int) := by
  classical
  obtain ⟨hlen', heqf⟩ := hIs
  set FV := computeFreeVars x machine.bit_count (machine.buttons.length + 1)
    with hFV
  set F' : Nat → Nat := fun c =>
    if c ∈ FV ∧ ∀ r, r < machine.bit_count →
        ¬ Nat.testBit (machine.buttons.getD c 0) r
      then 0 else vN'.getD c 0 with hF'
  have hF'big : ∀ c, F' c =
      if c ∈ FV ∧ ∀ r, r < machine.bit_count →
          ¬ Nat.testBit (machine.buttons.getD c 0) r
        then 0 else vN'.getD c 0 := fun c => rfl
  have hNat : ∀ r, r < machine.bit_count →
      (∑ c ∈ Finset.range machine.buttons.length,
        (if Nat.testBit (machine.buttons.getD c 0) r then F' c else 0))
        = machine.expected_joltage.getD r 0 := by
    intro r hrlt
    rw [← heqf r hrlt]
    apply Finset.sum_congr rfl
    intro c _
    by_cases htb : Nat.testBit (machine.buttons.getD c 0) r
    · rw [if_pos htb, if_pos htb, hF'big c,
        if_neg fun hz => hz.2 r hrlt htb]
    · rw [if_neg htb, if_neg htb]
  have hSatbm : Matrix.Sat (buildMatrix machine)
      (fun c => ((F' c : Nat) : ℚ)) := by
    rw [Sat_buildMatrix_iff]
    intro r hrlt
    have h0 := hNat r hrlt
    have h1 : ((∑ c ∈ Finset.range machine.buttons.length,
        (if Nat.testBit (machine.buttons.getD c 0) r then F' c else 0)
        : ℕ) : ℚ)
        = ((machine.expected_joltage.getD r 0 : ℕ) : ℚ) := by
      exact_mod_cast congrArg (Nat.cast : ℕ → ℚ) h0
    rw [Nat.cast_sum] at h1
    rw [← h1]
    apply Finset.sum_congr rfl
    intro c _
    by_cases htb : Nat.testBit (machine.buttons.getD c 0) r
    · rw [if_pos htb, if_pos htb]
    · rw [if_neg htb, if_neg htb]
      rfl
  have hSatx : Matrix.Sat x (fun c => ((F' c : Nat) : ℚ)) := (hsat _).mpr hSatbm
  have hqx : ∀ row, row < x.rows →
      ∑ c ∈ Finset.range (machine.buttons.length + 1 - 1),
        x.v row c * ((F' c : Nat) : ℚ)
        = x.v row (machine.buttons.length + 1 - 1) := by
    intro row hrow
    have h0 := hSatx row hrow
    unfold Matrix.RowSat at h0
    rw [hxC] at h0
    exact h0
  have hFVlt : ∀ c ∈ FV, c < machine.buttons.length := by
    intro c hc
    rw [hFV] at hc
    have := (mem_computeFreeVars x machine.bit_count
      (machine.buttons.length + 1) c).mp hc
    omega
  have hbound : ∀ c ∈ FV, F' c ≤ machine.expected_joltage.foldl max 0 := by
    intro c hcFV
    by_cases hz : c ∈ FV ∧ ∀ r, r < machine.bit_count →
        ¬ Nat.testBit (machine.buttons.getD c 0) r
    · rw [hF'big c, if_pos hz]
      exact Nat.zero_le _
    · have hex : ∃ r, r < machine.bit_count ∧
          Nat.testBit (machine.buttons.getD c 0) r := by
        by_contra hcon
        push_neg at hcon
        exact hz ⟨hcFV, hcon⟩
      obtain ⟨r, hrlt, htb⟩ := hex
      have hcmem : c ∈ Finset.range machine.buttons.length :=
        Finset.mem_range.mpr (hFVlt c hcFV)
      have hle := Finset.single_le_sum
        (fun (i : Nat) (_ : i ∈ Finset.range machine.buttons.length) =>
          Nat.zero_le
            (if Nat.testBit (machine.buttons.getD i 0) r then F' i else 0))
        hcmem
      rw [if_pos htb] at hle
      rw [hNat r hrlt] at hle
      exact le_trans hle (getD_le_foldl_max _ r)
  set t := FV.map F' with ht
  have htmem : t ∈ CartesianProductIterator.allTuples
      (machine.expected_joltage.foldl max 0) FV.length := by
    rw [CartesianProductIterator.mem_allTuples]
    constructor
    · rw [ht, List.length_map]
    · intro y hy
      rw [ht] at hy
      rcases List.mem_map.mp hy with ⟨c, hcFV, rfl⟩
      exact hbound c hcFV
  have hinv0 : ∀ c, c < machine.buttons.length + 1 - 1 →
      (∀ row ∈ List.range machine.bit_count,
        x.find_pivot_column row ≠ some c) →
      (FV.enum.foldl
        (fun (s : List Int) iv => s.set iv.2 (Int.ofNat (t.getD iv.1 0)))
        (List.replicate (machine.buttons.length + 1 - 1) 0)).getD c 0
      = ((F' c : Nat) : Int) := by
    intro c hclt hfree
    have hcFV : c ∈ FV := by
      rw [hFV, mem_computeFreeVars]
      refine ⟨by omega, ?_⟩
      intro r hr
      exact hfree r (List.mem_range.mpr hr)
    have hidx : ∀ i, i < FV.length → t.getD (0 + i) 0 = F' (FV.getD i 0) := by
      intro i hi
      rw [Nat.zero_add, ht, getD_map_of_lt FV F' i hi]
    exact enumFold_mem t F' FV 0
      (List.replicate (machine.buttons.length + 1 - 1) 0) hidx c hcFV
      (by rw [List.length_replicate]; omega)
  obtain ⟨sol', hres', hlenc, hvals⟩ := candidateRows_complete x
    (machine.buttons.length + 1) hxL hxG hxC.symm (by omega) F' hpv
    (fun row hrow => hqx row hrow)
    (List.range machine.bit_count)
    (FV.enum.foldl
      (fun (s : List Int) iv => s.set iv.2 (Int.ofNat (t.getD iv.1 0)))
      (List.replicate (machine.buttons.length + 1 - 1) 0))
    (fun r h => by rw [hxR]; exact List.mem_range.mp h)
    (List.nodup_range _)
    (sol0_length (machine.buttons.length + 1) FV t)
    hinv0
  refine ⟨t, sol', htmem, ?_, ?_⟩
  · show candidateRows x (machine.buttons.length + 1)
      (List.range machine.bit_count)
      (FV.enum.foldl
        (fun (s : List Int) iv => s.set iv.2 (Int.ofNat (t.getD iv.1 0)))
        (List.replicate (machine.buttons.length + 1 - 1) 0)) = .ok (some sol')
    exact hres'
  · have h1 : sol'.foldl (· + ·) 0 = sol'.sum := by
      rw [foldl_add_eq_sum, zero_add]
    have h2 : sol'.sum = ∑ c ∈ Finset.range (machine.buttons.length + 1 - 1),
        sol'.getD c 0 := by
      rw [list_sum_getD, hlenc]
    have h3 : ∑ c ∈ Finset.range (machine.buttons.length + 1 - 1),
        sol'.getD c 0
        = ∑ c ∈ Finset.range (machine.buttons.length + 1 - 1),
          ((F' c : Nat) : Int) :=
      Finset.sum_congr rfl fun c hcm => hvals c (Finset.mem_range.mp hcm)
    have h4 : ∀ c, F' c ≤ vN'.getD c 0 := by
      intro c
      rw [hF'big c]
      split
      · exact Nat.zero_le _
      · exact le_refl _
    have h5 : (∑ c ∈ Finset.range (machine.buttons.length + 1 - 1), F' c)
        ≤ ∑ c ∈ Finset.range (machine.buttons.length + 1 - 1),
          vN'.getD c 0 :=
      Finset.sum_le_sum fun c _ => h4 c
    have h6 : vN'.sum = ∑ c ∈ Finset.range (machine.buttons.length + 1 - 1),
        vN'.getD c 0 := by
      rw [list_sum_getD, hlen', Nat.add_sub_cancel]
    have h8 : (∑ c ∈ Finset.range (machine.buttons.length + 1 - 1), F' c)
        ≤ vN'.sum := by
      rw [h6]
      exact h5
    rw [h1, h2, h3,
      show (∑ c ∈ Finset.range (machine.buttons.length + 1 - 1),
          ((F' c : Nat) : Int))
        = ((∑ c ∈ Finset.range (machine.buttons.length + 1 - 1), F' c
          : ℕ) : Int) from by push_cast; ring]
    exact_mod_cast h8

/-- C1: for every machine whose reduced system has free variables and for
which `find_min_clicks_to_setup_joltage` returns normally, the returned
value is the least total button-activation count over all assignments of
non-negative integers to buttons that exactly satisfy every joltage
equation. -/
theorem claim_C1_minimum_sum (machine : Machine) (n : Nat)
    (hfv : freeVarsOf machine ≠ [])
    (hok : find_min_clicks_to_setup_joltage machine = .ok n) :
    IsLeast {s : Nat | ∃ v, IsSolution machine v ∧ v.sum = s} n := by
  by_cases hbg : 10 < machine.bit_count
  · unfold find_min_clicks_to_setup_joltage at hok
    rw [if_pos hbg] at hok
    simp at hok
  by_cases hbl : 255 ≤ machine.buttons.length
  · unfold find_min_clicks_to_setup_joltage at hok
    rw [if_neg hbg, if_pos hbl] at hok
    simp at hok
  set x := rrefOf machine with hxdef
  have hx : (buildMatrix machine).reduced_row_echelon_form = some x :=
    rrefOf_eq machine
  unfold find_min_clicks_to_setup_joltage at hok
  rw [if_neg hbg, if_neg hbl, hx] at hok
  have hfv' : computeFreeVars x machine.bit_count
      (machine.buttons.length + 1) ≠ [] := by
    unfold freeVarsOf at hfv
    rw [hx] at hfv
    exact hfv
  have hok2 : (if (computeFreeVars x machine.bit_count
      (machine.buttons.length + 1)).isEmpty = true
    then uniquePath x machine.bit_count (machine.buttons.length + 1)
    else searchPath machine x machine.bit_count (machine.buttons.length + 1)
      (computeFreeVars x machine.bit_count (machine.buttons.length + 1)))
    = .ok n := hok
  rw [if_neg (by rw [List.isEmpty_iff]; exact hfv')] at hok2
  obtain ⟨hbR, hbC, hbL, hbG⟩ := buildMatrix_basic machine
  have hrref := Matrix.reduced_row_echelon_form_spec (buildMatrix machine)
    hbL hbG x hx
  have hxR : x.rows = machine.bit_count := hrref.1.trans hbR
  have hxC : x.cols = machine.buttons.length + 1 := hrref.2.1.trans hbC
  have hxL := hrref.2.2.1
  have hxG := hrref.2.2.2.1
  have hsat := hrref.2.2.2.2.1
  have hnb : ∀ r, r < x.rows → x.find_pivot_column r ≠ some (x.cols - 1) := by
    intro r hr hpR
    rw [hxC] at hpR
    obtain ⟨e, he⟩ := searchPath_bad machine x machine.bit_count
      (machine.buttons.length + 1)
      (computeFreeVars x machine.bit_count (machine.buttons.length + 1))
      (by
        intro t' ht'
        have heval : evalCandidate x machine.bit_count
            (machine.buttons.length + 1)
            (computeFreeVars x machine.bit_count
              (machine.buttons.length + 1)) t'
            = candidateRows x (machine.buttons.length + 1)
              (List.range machine.bit_count)
              ((computeFreeVars x machine.bit_count
                  (machine.buttons.length + 1)).enum.foldl
                (fun (sol : List Int) iv =>
                  sol.set iv.2 (Int.ofNat (t'.getD iv.1 0)))
                (List.replicate (machine.buttons.length + 1 - 1) 0)) := rfl
        rw [heval]
        exact candidateRows_bad x (machine.buttons.length + 1) r hpR
          (List.range machine.bit_count) _
          (List.mem_range.mpr (by rw [← hxR]; exact hr))
          (sol0_length (machine.buttons.length + 1) _ t'))
    rw [he] at hok2
    simp at hok2
  obtain ⟨hpv0, hpn0⟩ := rref_pivot_facts (buildMatrix machine) x hrref hnb
  have hpv : ∀ row, row < x.rows → ∀ p, x.find_pivot_column row = some p →
      p < machine.buttons.length + 1 - 1 ∧ x.v row p = 1 ∧
      ∀ r', r' < x.rows → r' ≠ row → x.v r' p = 0 := by
    intro row hrow p hp
    obtain ⟨h1, h2, h3⟩ := hpv0 row hrow p hp
    exact ⟨by omega, h2, h3⟩
  have hpn : ∀ row, row < x.rows → x.find_pivot_column row = none →
      ∀ c, c < machine.buttons.length + 1 → x.v row c = 0 := by
    intro row hrow hp c hc
    exact hpn0 row hrow hp c (by omega)
  have hrun : CartesianProductIterator.run
      ((machine.expected_joltage.foldl max 0 + 1)
        ^ (computeFreeVars x machine.bit_count
            (machine.buttons.length + 1)).length + 1)
      (CartesianProductIterator.new (machine.expected_joltage.foldl max 0)
        (computeFreeVars x machine.bit_count
          (machine.buttons.length + 1)).length)
      = CartesianProductIterator.allTuples
        (machine.expected_joltage.foldl max 0)
        (computeFreeVars x machine.bit_count
          (machine.buttons.length + 1)).length := by
    show CartesianProductIterator.run _
      ⟨machine.expected_joltage.foldl max 0,
        List.replicate (computeFreeVars x machine.bit_count
          (machine.buttons.length + 1)).length 0, false⟩ = _
    have hz := CartesianProductIterator.odoVal_replicate_zero
      (machine.expected_joltage.foldl max 0)
      (computeFreeVars x machine.bit_count
        (machine.buttons.length + 1)).length
    have h := CartesianProductIterator.run_from
      (machine.expected_joltage.foldl max 0)
      ((machine.expected_joltage.foldl max 0 + 1)
        ^ (computeFreeVars x machine.bit_count
            (machine.buttons.length + 1)).length + 1)
      (List.replicate (computeFreeVars x machine.bit_count
        (machine.buttons.length + 1)).length 0)
      (by
        intro y hy
        rcases List.eq_of_mem_replicate hy with rfl
        omega)
      (by rw [hz, List.length_replicate]; omega)
    rw [h, hz, List.length_replicate, List.drop_zero]
  obtain ⟨s, hs0, hn, hsmem, hsmin⟩ := searchPath_ok_spec machine x
    machine.bit_count (machine.buttons.length + 1)
    (computeFreeVars x machine.bit_count (machine.buttons.length + 1)) n hok2
  constructor
  · unfold acceptedSums at hsmem
    obtain ⟨t, htmem, hmt⟩ := List.mem_filterMap.mp hsmem
    rcases hev : evalCandidate x machine.bit_count
        (machine.buttons.length + 1)
        (computeFreeVars x machine.bit_count (machine.buttons.length + 1)) t
      with e | r
    · rw [hev] at hmt
      simp at hmt
    · rcases r with _ | sol
      · rw [hev] at hmt
        simp at hmt
      · rw [hev] at hmt
        have hmt' : some (sol.foldl (· + ·) 0) = some s := hmt
        have hms : sol.foldl (· + ·) 0 = s := Option.some.inj hmt'
        obtain ⟨vN, hIsSol, hsum⟩ := accepted_sum_solution machine x
          (computeFreeVars x machine.bit_count (machine.buttons.length + 1))
          t sol hxR hxC hxL hxG hsat hpv hpn hev
        refine ⟨vN, hIsSol, ?_⟩
        rw [hms] at hsum
        omega
  · intro s' hs'
    obtain ⟨vN', hIs', hsum'⟩ := hs'
    obtain ⟨t', sol', ht'mem, hev', hle⟩ := solution_has_candidate machine x
      hxR hxC hxL hxG hsat hpv vN' hIs'
    have hmem' : sol'.foldl (· + ·) 0 ∈ acceptedSums
        (evalCandidate x machine.bit_count (machine.buttons.length + 1)
          (computeFreeVars x machine.bit_count (machine.buttons.length + 1)))
        (CartesianProductIterator.run
          ((machine.expected_joltage.foldl max 0 + 1)
            ^ (computeFreeVars x machine.bit_count
                (machine.buttons.length + 1)).length + 1)
          (CartesianProductIterator.new
            (machine.expected_joltage.foldl max 0)
            (computeFreeVars x machine.bit_count
              (machine.buttons.length + 1)).length)) := by
      rw [hrun]
      unfold acceptedSums
      apply List.mem_filterMap.mpr
      refine ⟨t', ht'mem, ?_⟩
      rw [hev']
    have hges := hsmin _ hmem'
    rw [hsum'] at hle
    show n ≤ s'
    omega

/-- Witness for C1 at the machine with one counted bit and two buttons both
wired to it, target joltage 2: the system `x1 + x2 = 2` has one free
variable, the solver returns 2, and 2 is the least solution total. -/
theorem claim_C1_witness :
    (freeVarsOf (⟨1, 0, [1, 1], [2, 0, 0, 0, 0, 0, 0, 0, 0, 0]⟩ : Machine)
        ≠ [] ∧
      find_min_clicks_to_setup_joltage
        (⟨1, 0, [1, 1], [2, 0, 0, 0, 0, 0, 0, 0, 0, 0]⟩ : Machine)
        = .ok 2) ∧
    IsLeast {s : Nat | ∃ v,
      IsSolution (⟨1, 0, [1, 1], [2, 0, 0, 0, 0, 0, 0, 0, 0, 0]⟩ : Machine) v
        ∧ v.sum = s} 2 :=
  ⟨⟨by decide, by rfl⟩,
    claim_C1_minimum_sum (⟨1, 0, [1, 1], [2, 0, 0, 0, 0, 0, 0, 0, 0, 0]⟩
      : Machine) 2 (by decide) (by rfl)⟩

end Day10
